import Mathlib

/-!
# A verification development for `osmem.c`

A shallow embedding of the allocator in `src/src/osmem.c` (`os_malloc`, `os_free`,
`os_calloc`, `os_realloc` and their helpers) together with theorems about it.

## Modelling conventions

* Pointers are natural numbers, `0` is `NULL`.  `size_t` / `unsigned long` values are natural
  numbers below `2 ^ 64`; every arithmetic operation the C code performs on them is reduced
  modulo `2 ^ 64` (`wadd`, `wsub`, `wmul`).
* The process memory is seen through two views: `hdr` gives, for an address, the
  `struct block_meta` stored there (`none` when the address holds no header or is not
  accessible), `bytes` gives the byte stored at an address.  Writing a header does not change
  `bytes`, and `memset` / `memcpy` do not change `hdr`, with one exception: the copy in the
  relocating branch of `os_realloc` is followed, in the same call, by an `os_free` that reads
  headers, so there a header that lies in the destination of the copy becomes unreadable
  (`overwrite`), and a copy between overlapping ranges, which the C library leaves undefined,
  gives `none`.  Dereferencing an address without a header is a fault and makes the operation
  return `none`.
* The kernel never refuses memory: `sbrk d` returns the current break and moves it by `d`;
  `mmap` returns the address `mmap_next` and advances it past the new mapping; `munmap`
  makes the headers in the released range inaccessible.  A `DIE` on a null result is `none`.
* Loops that walk the block list take a bound (`fuel`); running out of it is `none`.
-/

namespace OsMem

/-! ## The data model and the environment -/

/-- Modelled from the spec: the status tag of a block header (Free, Allocated, Mapped), whose
declaration (`STATUS_FREE`, `STATUS_ALLOC`, `STATUS_MAPPED`) lives in a header that is not part
of the sources. -/
inductive Status where
  | STATUS_FREE
  | STATUS_ALLOC
  | STATUS_MAPPED
deriving DecidableEq, Repr

open Status

/-- Modelled from the spec: the block header `struct block_meta` (payload size, status tag,
forward link), whose declaration lives in a header that is not part of the sources. -/
structure block_meta where
  size : Nat
  status : Status
  next : Nat
deriving DecidableEq, Repr

/-- What the code takes from its environment: `sizeof(struct block_meta)` and the value
returned by `getpagesize()`. -/
structure Env where
  BLOCK_META_SIZE : Nat
  pagesize : Nat
deriving DecidableEq, Repr

/-- The macro `MMAP_THRESHOLD`. -/
def MMAP_THRESHOLD : Nat := 128 * 1024

/-- The number of values of a `size_t`. -/
def WORD : Nat := 2 ^ 64

/-- Addition of `size_t` values. -/
def wadd (a b : Nat) : Nat := (a + b) % WORD

/-- Subtraction of `size_t` values. -/
def wsub (a b : Nat) : Nat := (a + (WORD - b % WORD)) % WORD

/-- Multiplication of `size_t` values. -/
def wmul (a b : Nat) : Nat := (a * b) % WORD

/-- The process state: the globals `head`, `tail`, `threshold`, the program break, the
address of the next mapping the kernel hands out, and the memory. -/
structure Heap where
  head : Nat
  tail : Nat
  threshold : Nat
  brk : Nat
  mmap_next : Nat
  hdr : Nat → Option block_meta
  bytes : Nat → Nat

/-- The state of a fresh process whose break is `base` and whose first mapping will be at
`mbase`. -/
def Heap.init (base mbase : Nat) : Heap :=
  { head := 0, tail := 0, threshold := MMAP_THRESHOLD, brk := base, mmap_next := mbase,
    hdr := fun _ => none, bytes := fun _ => 0 }

/-- Store a header at an address. -/
def store (h : Nat → Option block_meta) (p : Nat) (b : block_meta) : Nat → Option block_meta :=
  fun a => if a = p then some b else h a

/-- Make the headers in `[p, p + len)` inaccessible (`munmap`). -/
def unmap (h : Nat → Option block_meta) (p len : Nat) : Nat → Option block_meta :=
  fun a => if p ≤ a ∧ a < p + len then none else h a

/-- The library `memset(dst, c, n)`. -/
def memset (m : Nat → Nat) (dst c n : Nat) : Nat → Nat :=
  fun a => if dst ≤ a ∧ a < dst + n then c else m a

/-- The library `memcpy(dst, src, n)`. -/
def memcpy (m : Nat → Nat) (dst src n : Nat) : Nat → Nat :=
  fun a => if dst ≤ a ∧ a < dst + n then m (src + (a - dst)) else m a

/-- The headers that a write of `n` bytes at `dst` overwrites, wholly or in part, cannot be
read as headers any more. -/
def overwrite (E : Env) (h : Nat → Option block_meta) (dst n : Nat) : Nat → Option block_meta :=
  fun a => if 0 < n ∧ a < dst + n ∧ dst < a + E.BLOCK_META_SIZE then none else h a

/-! ## The functions of `osmem.c` -/

/-- The loop of `pad_size`: increment until the value is a multiple of 8. -/
def pad_loop : Nat → Nat → Nat
  | 0, size => size
  | fuel + 1, size =>
    let size1 := wadd size 1
    if size1 % 8 = 0 then size1 else pad_loop fuel size1

/-- The function `pad_size`. -/
def pad_size (size : Nat) : Nat :=
  if size % 8 ≠ 0 then pad_loop 8 size else size

/-- The loop of `search_block`: the first block from `current` on that is free and large
enough, or `0`. -/
def search_loop (h : Nat → Option block_meta) (size : Nat) : Nat → Nat → Option Nat
  | 0, _ => none
  | fuel + 1, current =>
    if current = 0 then some 0
    else
      match h current with
      | none => none
      | some b =>
        if b.status = STATUS_FREE ∧ b.size ≥ size then some current
        else search_loop h size fuel b.next

/-- The function `search_block`. -/
def search_block (fuel : Nat) (st : Heap) (size : Nat) : Option (Heap × Nat) :=
  match search_loop st.hdr size fuel st.head with
  | none => none
  | some current =>
    if current = 0 then some (st, 0)
    else
      match st.hdr current with
      | none => none
      | some b => some ({ st with hdr := store st.hdr current { b with status := STATUS_ALLOC } }, current)

/-- The function `prealloc`. -/
def prealloc (E : Env) (st : Heap) (size : Nat) : Option (Heap × Nat) :=
  let block := st.brk
  if block = 0 then none
  else
    some ({ st with
              brk := wadd st.brk MMAP_THRESHOLD
              hdr := store st.hdr block { size := pad_size size, status := STATUS_ALLOC, next := 0 }
              head := block
              tail := block },
          block + E.BLOCK_META_SIZE)

/-- The function `use_sbrk`. -/
def use_sbrk (E : Env) (st : Heap) (size : Nat) : Option (Heap × Nat) :=
  let block := st.brk
  if block = 0 then none
  else
    let h1 := store st.hdr block { size := pad_size size, status := STATUS_ALLOC, next := 0 }
    match h1 st.tail with
    | none => none
    | some t =>
      some ({ st with
                brk := wadd st.brk (wadd (pad_size size) E.BLOCK_META_SIZE)
                hdr := store h1 st.tail { t with next := block }
                tail := block },
            block + E.BLOCK_META_SIZE)

/-- The function `use_mmap`. -/
def use_mmap (E : Env) (st : Heap) (size : Nat) : Option (Heap × Nat) :=
  let block := st.mmap_next
  if block = 0 then none
  else
    let len := wadd (pad_size size) E.BLOCK_META_SIZE
    let h1 := store st.hdr block { size := pad_size size, status := STATUS_MAPPED, next := 0 }
    if st.head = 0 then
      some ({ st with mmap_next := st.mmap_next + len, hdr := h1, head := block, tail := block },
            block + E.BLOCK_META_SIZE)
    else
      match h1 st.tail with
      | none => none
      | some t =>
        some ({ st with
                  mmap_next := st.mmap_next + len
                  hdr := store h1 st.tail { t with next := block }
                  tail := block },
              block + E.BLOCK_META_SIZE)

/-- The part of `os_malloc` that runs when `search_block` found `block`: mark it allocated and
split it when the rest can hold a header and one byte. -/
def reuse_block (E : Env) (st : Heap) (block size : Nat) : Option (Heap × Nat) :=
  match st.hdr block with
  | none => none
  | some b0 =>
    let b := { b0 with status := STATUS_ALLOC }
    let h1 := store st.hdr block b
    if wsub b.size (pad_size size) ≥ E.BLOCK_META_SIZE + 1 then
      let new_block := block + E.BLOCK_META_SIZE + pad_size size
      let h2 := store h1 new_block
        { size := wsub (wsub b.size (pad_size size)) E.BLOCK_META_SIZE,
          status := STATUS_FREE, next := b.next }
      match h2 block with
      | none => none
      | some b2 =>
        some ({ st with hdr := store h2 block { b2 with size := pad_size size, next := new_block } },
              block + E.BLOCK_META_SIZE)
    else
      some ({ st with hdr := h1 }, block + E.BLOCK_META_SIZE)

/-- The part of `os_malloc` that runs when no block fits and the last block is free: move the
break and grow the last block.  The statement `return ++tail;` also advances the global
`tail`. -/
def extend_tail (E : Env) (st : Heap) (t : block_meta) (size : Nat) : Option (Heap × Nat) :=
  let inc := pad_size (wsub size t.size)
  if st.brk = 0 then none
  else
    some ({ st with
              brk := wadd st.brk inc
              hdr := store st.hdr st.tail { t with size := wadd t.size inc, status := STATUS_ALLOC }
              tail := st.tail + E.BLOCK_META_SIZE },
          st.tail + E.BLOCK_META_SIZE)

/-- The branch of `os_malloc` for requests below the threshold. -/
def malloc_brk (E : Env) (fuel : Nat) (st : Heap) (size : Nat) : Option (Heap × Nat) :=
  if st.head = 0 ∧ size ≠ 0 then prealloc E st size
  else
    match search_block fuel st (pad_size size) with
    | none => none
    | some (st1, block) =>
      if block ≠ 0 then reuse_block E st1 block size
      else
        match st1.hdr st1.tail with
        | none => none
        | some t =>
          if t.status = STATUS_FREE then extend_tail E st1 t size
          else use_sbrk E st1 size

/-- The function `os_malloc`. -/
def os_malloc (E : Env) (fuel : Nat) (st : Heap) (size : Nat) : Option (Heap × Nat) :=
  if size = 0 then some (st, 0)
  else if pad_size (wadd size E.BLOCK_META_SIZE) < st.threshold then malloc_brk E fuel st size
  else use_mmap E st size

/-- The first loop of `os_free`: walk from `curr` to the header `target`, remembering the
predecessor. -/
def find_loop (h : Nat → Option block_meta) (target : Nat) : Nat → Nat → Nat → Option (Nat × Nat)
  | 0, _, _ => none
  | fuel + 1, prev, curr =>
    if curr = target then some (prev, curr)
    else
      match h curr with
      | none => none
      | some c => find_loop h target fuel curr c.next

/-- The last loop of `os_free`: walk from `curr` to the block whose `next` is null. -/
def last_loop (h : Nat → Option block_meta) : Nat → Nat → Option Nat
  | 0, _ => none
  | fuel + 1, curr =>
    match h curr with
    | none => none
    | some c => if c.next ≠ 0 then last_loop h fuel c.next else some curr

/-- The branch of `os_free` for a block with status `STATUS_MAPPED`. -/
def free_mapped (E : Env) (st : Heap) (prev curr : Nat) (c : block_meta) : Option Heap :=
  let h1 := store st.hdr curr { c with status := STATUS_FREE }
  if curr = st.head then
    match h1 st.head with
    | none => none
    | some hd =>
      some { st with head := hd.next, hdr := unmap h1 curr (wadd c.size E.BLOCK_META_SIZE) }
  else
    match h1 prev with
    | none => none
    | some pv =>
      some { st with
               hdr := unmap (store h1 prev { pv with next := c.next }) curr
                        (wadd c.size E.BLOCK_META_SIZE) }

/-- The first merge of `os_free`: absorb `curr` into a free predecessor.  Returns the memory
and the new value of `curr`. -/
def merge_prev (E : Env) (h : Nat → Option block_meta) (prev curr : Nat) :
    Option ((Nat → Option block_meta) × Nat) :=
  if prev = 0 then some (h, curr)
  else
    match h prev, h curr with
    | some pv, some c =>
      if pv.status = STATUS_FREE then
        some (store h prev
                { pv with size := wadd pv.size (wadd c.size E.BLOCK_META_SIZE), next := c.next },
              prev)
      else some (h, curr)
    | _, _ => none

/-- The second merge of `os_free`: absorb a free successor into `curr`. -/
def merge_next (E : Env) (h : Nat → Option block_meta) (curr : Nat) :
    Option (Nat → Option block_meta) :=
  match h curr with
  | none => none
  | some c =>
    if c.next = 0 then some h
    else
      match h c.next with
      | none => none
      | some n =>
        if n.status = STATUS_FREE then
          some (store h curr
                  { c with size := wadd c.size (wadd n.size E.BLOCK_META_SIZE), next := n.next })
        else some h

/-- The branch of `os_free` for a block obtained from the break. -/
def free_brk (E : Env) (fuel : Nat) (st : Heap) (prev curr : Nat) (c : block_meta) : Option Heap :=
  let h1 := store st.hdr curr { c with status := STATUS_FREE }
  match merge_prev E h1 prev curr with
  | none => none
  | some (h2, curr2) =>
    match merge_next E h2 curr2 with
    | none => none
    | some h3 =>
      match last_loop h3 fuel curr2 with
      | none => none
      | some last => some { st with hdr := h3, tail := last }

/-- The function `os_free`. -/
def os_free (E : Env) (fuel : Nat) (st : Heap) (ptr : Nat) : Option Heap :=
  if ptr = 0 then some st
  else
    match find_loop st.hdr (wsub ptr E.BLOCK_META_SIZE) fuel 0 st.head with
    | none => none
    | some (prev, curr) =>
      match st.hdr curr with
      | none => none
      | some c =>
        if c.status = STATUS_MAPPED then free_mapped E st prev curr c
        else if c.size < MMAP_THRESHOLD ∧ c.status = STATUS_ALLOC then free_brk E fuel st prev curr c
        else some st

/-- The function `os_calloc`. -/
def os_calloc (E : Env) (fuel : Nat) (st : Heap) (nmemb size : Nat) : Option (Heap × Nat) :=
  if nmemb = 0 ∨ size = 0 then some (st, 0)
  else
    match os_malloc E fuel { st with threshold := E.pagesize } (wmul size nmemb) with
    | none => none
    | some (st1, ptr) =>
      some ({ st1 with
                bytes := memset st1.bytes ptr 0 (wmul size nmemb)
                threshold := MMAP_THRESHOLD },
            ptr)

/-- The in-place growth of `os_realloc`: the next block is free and the two together are
larger than the request. -/
def realloc_absorb (E : Env) (st : Heap) (block : Nat) (b : block_meta) (size : Nat) :
    Option (Option Heap) :=
  if b.next ≠ 0 then
    match st.hdr b.next with
    | none => none
    | some n =>
      if n.status = STATUS_FREE ∧
          wadd (wadd b.size n.size) E.BLOCK_META_SIZE > pad_size size then
        some (some { st with
                       hdr := store st.hdr block
                         { b with size := wadd (wadd b.size n.size) E.BLOCK_META_SIZE,
                                  next := n.next } })
      else some none
  else some none

/-- The relocation of `os_realloc`: allocate, copy the old block, free it.  The call
`memcpy(realloc, ptr, block->size)` is undefined when its two ranges overlap (`none`); the
headers that lie in its destination are overwritten with payload bytes, so the `os_free` that
follows cannot read them. -/
def realloc_move (E : Env) (fuel : Nat) (st : Heap) (ptr block size : Nat) : Option (Heap × Nat) :=
  match os_malloc E fuel st size with
  | none => none
  | some (st1, realloc) =>
    match st1.hdr block with
    | none => none
    | some b1 =>
      if 0 < b1.size ∧ realloc < ptr + b1.size ∧ ptr < realloc + b1.size then none
      else
        match os_free E fuel
            { st1 with bytes := memcpy st1.bytes realloc ptr b1.size
                       hdr := overwrite E st1.hdr realloc b1.size } ptr with
        | none => none
        | some st2 => some (st2, realloc)

/-- The last branch of `os_realloc`: a block with status `STATUS_MAPPED` is replaced by a
block taken from the break. -/
def realloc_mapped (E : Env) (st : Heap) (ptr block : Nat) (b : block_meta) (size : Nat) :
    Option (Heap × Nat) :=
  let new_block := st.brk
  if new_block = 0 then none
  else
    let h1 := store st.hdr new_block
      { size := pad_size size, status := STATUS_ALLOC, next := b.next }
    match h1 block with
    | none => none
    | some b1 =>
      some ({ st with
                brk := wadd st.brk MMAP_THRESHOLD
                head := if st.head = block then new_block else st.head
                bytes := memcpy st.bytes (new_block + E.BLOCK_META_SIZE) ptr (pad_size size)
                hdr := unmap h1 block (wadd b1.size E.BLOCK_META_SIZE) },
            new_block + E.BLOCK_META_SIZE)

/-- The function `os_realloc`. -/
def os_realloc (E : Env) (fuel : Nat) (st : Heap) (ptr size : Nat) : Option (Heap × Nat) :=
  if size = 0 then
    match os_free E fuel st ptr with
    | none => none
    | some st1 => some (st1, 0)
  else if ptr = 0 then os_malloc E fuel st size
  else
    let block := wsub ptr E.BLOCK_META_SIZE
    match st.hdr block with
    | none => none
    | some b =>
      if pad_size size > b.size then
        match realloc_absorb E st block b size with
        | none => none
        | some (some st1) => some (st1, ptr)
        | some none => realloc_move E fuel st ptr block size
      else if b.status ≠ STATUS_MAPPED ∧ wsub b.size (pad_size size) > E.BLOCK_META_SIZE + 1 then
        let shrink := block + pad_size size + E.BLOCK_META_SIZE
        let h1 := store st.hdr shrink
          { size := wsub (wsub b.size (pad_size size)) E.BLOCK_META_SIZE,
            status := STATUS_FREE, next := b.next }
        match h1 block with
        | none => none
        | some b1 =>
          some ({ st with hdr := store h1 block { b1 with size := pad_size size, next := shrink } },
                ptr)
      else if b.status = STATUS_MAPPED then realloc_mapped E st ptr block b size
      else some (st, ptr)

/-! ## Call sequences and reachable states -/

/-- One call of the public interface. -/
inductive Call where
  | malloc (size : Nat)
  | free (ptr : Nat)
  | calloc (nmemb size : Nat)
  | realloc (ptr size : Nat)
deriving DecidableEq, Repr

/-- A pointer argument is valid when it is null or was returned and not yet freed. -/
def valid_ptr (live : List Nat) (ptr : Nat) : Bool := ptr = 0 ∨ ptr ∈ live

/-- The pointers that are live after a call returned `ret`. -/
def add_live (live : List Nat) (ret : Nat) : List Nat :=
  if ret = 0 then live else ret :: live

/-- Perform one call on a state together with the pointers that are live; the most recently
returned pointer comes first.  A call on a pointer that is not valid gives `none`. -/
def call (E : Env) (fuel : Nat) (s : Heap × List Nat) : Call → Option (Heap × List Nat)
  | Call.malloc size =>
    match os_malloc E fuel s.1 size with
    | none => none
    | some (st1, p) => some (st1, add_live s.2 p)
  | Call.free ptr =>
    if valid_ptr s.2 ptr then
      match os_free E fuel s.1 ptr with
      | none => none
      | some st1 => some (st1, s.2.erase ptr)
    else none
  | Call.calloc nmemb size =>
    match os_calloc E fuel s.1 nmemb size with
    | none => none
    | some (st1, p) => some (st1, add_live s.2 p)
  | Call.realloc ptr size =>
    if valid_ptr s.2 ptr then
      match os_realloc E fuel s.1 ptr size with
      | none => none
      | some (st1, p) => some (st1, add_live (s.2.erase ptr) p)
    else none

/-- Perform a sequence of calls. -/
def run (E : Env) (fuel : Nat) : Heap × List Nat → List Call → Option (Heap × List Nat)
  | s, [] => some s
  | s, c :: cs =>
    match call E fuel s c with
    | none => none
    | some s1 => run E fuel s1 cs

/-- A state is reachable when some sequence of calls on valid pointers leads to it from the
empty heap; `live` are the pointers returned and not yet freed. -/
def Reachable (E : Env) (st : Heap) (live : List Nat) : Prop :=
  ∃ base mbase fuel calls, run E fuel (Heap.init base mbase, []) calls = some (st, live)

/-- The environment of a 64-bit build: a header of 24 bytes and pages of 4 KiB. -/
def E24 : Env := { BLOCK_META_SIZE := 24, pagesize := 4096 }

/-- A fresh process whose break is at 4096 and whose mappings start at `2 ^ 32`. -/
def fresh : Heap × List Nat := (Heap.init 4096 (2 ^ 32), [])

/-! ## The block list and its invariants -/

/-- The list segment: following `next` from `p` visits exactly the headers `l` and then
arrives at `q`. -/
def IsSeg (h : Nat → Option block_meta) : Nat → List Nat → Nat → Prop
  | p, [], q => p = q
  | p, a :: l, q => p = a ∧ a ≠ 0 ∧ ∃ b, h a = some b ∧ IsSeg h b.next l q

/-- The headers reachable from `p` are exactly `l`, the last one having a null `next`. -/
def IsList (h : Nat → Option block_meta) (p : Nat) (l : List Nat) : Prop := IsSeg h p l 0

/-- Deciding `IsSeg` by walking the list. -/
def decIsSeg (h : Nat → Option block_meta) :
    (l : List Nat) → (p q : Nat) → Decidable (IsSeg h p l q)
  | [], p, q => decEq p q
  | a :: l, p, q =>
    match hh : h a with
    | none => isFalse (fun hs => by
        obtain ⟨_, _, b, hb, _⟩ := hs
        rw [hh] at hb
        cases hb)
    | some b =>
      match decIsSeg h l b.next q with
      | isFalse hn => isFalse (fun hs => by
          obtain ⟨_, _, b2, hb2, h3⟩ := hs
          rw [hh] at hb2
          cases hb2
          exact hn h3)
      | isTrue ht =>
        if hp : p = a ∧ a ≠ 0 then isTrue ⟨hp.1, hp.2, b, hh, ht⟩
        else isFalse (fun hs => hp ⟨hs.1, hs.2.1⟩)

instance instDecidableIsSeg (h : Nat → Option block_meta) (p : Nat) (l : List Nat) (q : Nat) :
    Decidable (IsSeg h p l q) :=
  decIsSeg h l p q

instance instDecidableIsList (h : Nat → Option block_meta) (p : Nat) (l : List Nat) :
    Decidable (IsList h p l) :=
  decIsSeg h l p 0

/-- Rounding up to a multiple of 8, as the specification words it. -/
def round_up_8 (n : Nat) : Nat := (n + 7) / 8 * 8

/-- The invariant "tail is the last header reachable from head". -/
def TailAnchor (st : Heap) : Prop :=
  ∀ l, IsList st.hdr st.head l → l ≠ [] → l.getLast? = some st.tail

/-- No header reachable from head is free and followed by a free header. -/
def NoAdjacentFree (st : Heap) (l : List Nat) : Prop :=
  ∀ a ∈ l, ∀ b n, st.hdr a = some b → b.next ≠ 0 → st.hdr b.next = some n →
    ¬ (b.status = STATUS_FREE ∧ n.status = STATUS_FREE)

/-- Well-formed states: the list from `head` is `l`, `tail` is its last header, sizes are
multiples of 8, the blocks (header and payload) lie in the address space and do not overlap,
and neither the break nor the next mapping lies inside a block. -/
structure WF (E : Env) (st : Heap) (l : List Nat) : Prop where
  list : IsList st.hdr st.head l
  tail : l ≠ [] → l.getLast? = some st.tail
  size : ∀ a ∈ l, ∀ b, st.hdr a = some b → b.size % 8 = 0 ∧ a + E.BLOCK_META_SIZE + b.size < WORD
  sep : ∀ a ∈ l, ∀ c ∈ l, ∀ b, st.hdr a = some b → a ≠ c →
    ¬ (a ≤ c ∧ c < a + E.BLOCK_META_SIZE + b.size)
  brk_pos : st.brk ≠ 0
  brk_fresh : ∀ a ∈ l, ∀ b, st.hdr a = some b →
    ¬ (a ≤ st.brk ∧ st.brk < a + E.BLOCK_META_SIZE + b.size)
  mmap_pos : st.mmap_next ≠ 0
  mmap_fresh : ∀ a ∈ l, ∀ b, st.hdr a = some b →
    ¬ (a ≤ st.mmap_next ∧ st.mmap_next < a + E.BLOCK_META_SIZE + b.size)

/-- No block of `l` is free and of size at least `size`. -/
def NoFit (h : Nat → Option block_meta) (size : Nat) (l : List Nat) : Prop :=
  ∀ a ∈ l, ∀ b, h a = some b → ¬ (b.status = STATUS_FREE ∧ size ≤ b.size)

/-- The address `c` is the break, the next mapping, or lies inside a free block of `l`. -/
def Fresh (E : Env) (st : Heap) (l : List Nat) (c : Nat) : Prop :=
  c = st.brk ∨ c = st.mmap_next ∨
    ∃ a ∈ l, ∃ b, st.hdr a = some b ∧ b.status = STATUS_FREE ∧
      a < c ∧ c < a + E.BLOCK_META_SIZE + b.size

/-- The outcome of an allocation of `n` bytes in the state `st` with list `l`: the new state
`st1` has the list `l1`, which holds the block `blk` with header `b` of the given status and of
a size that is a multiple of 8 and at least `n`; the old blocks stay in the list, a block that
is not the one handed out keeps its size and status, and a new header is at a fresh address. -/
structure MallocOK (E : Env) (st : Heap) (l : List Nat) (n : Nat) (status : Status)
    (st1 : Heap) (blk : Nat) (l1 : List Nat) (b : block_meta) : Prop where
  list : IsList st1.hdr st1.head l1
  mem : blk ∈ l1
  hdr : st1.hdr blk = some b
  size_mod : b.size % 8 = 0
  size_ge : n ≤ b.size
  status : b.status = status
  bytes : st1.bytes = st.bytes
  threshold : st1.threshold = st.threshold
  old : ∀ a ∈ l, a ∈ l1
  length : l1.length ≤ l.length + 1
  fresh : ∀ c ∈ l1, c ∉ l → Fresh E st l c
  was_free : blk ∈ l → ∃ b0, st.hdr blk = some b0 ∧ b0.status = STATUS_FREE
  keep : ∀ a ∈ l, a ≠ blk → ∀ ba, st.hdr a = some ba →
    ∃ ba1, st1.hdr a = some ba1 ∧ ba1.size = ba.size ∧ ba1.status = ba.status

/-- The header at `a` has status Free. -/
def IsFree (h : Nat → Option block_meta) (a : Nat) : Prop :=
  ∃ b, h a = some b ∧ b.status = STATUS_FREE

/-- The outcome of `os_free` on the block `c` (header `bc`) of the list `l1 ++ c :: l2`: the
new list is `k1 ++ s :: k2`, where the survivor `s` is `c` or the free predecessor that
absorbed it, and `k2` is `l2` with a free first block absorbed; `s` is Free, its size is the
sum of the merged sizes and headers, `tail` is the last block, and no other header changed. -/
structure FreeOK (E : Env) (st : Heap) (l1 : List Nat) (c : Nat) (l2 : List Nat)
    (bc : block_meta) (st1 : Heap) (k1 : List Nat) (s : Nat) (k2 : List Nat)
    (b3 : block_meta) : Prop where
  list : IsList st1.hdr st1.head (k1 ++ s :: k2)
  tail : (k1 ++ s :: k2).getLast? = some st1.tail
  hdr : st1.hdr s = some b3
  status : b3.status = STATUS_FREE
  head : st1.head = st.head
  bytes : st1.bytes = st.bytes
  threshold : st1.threshold = st.threshold
  brk : st1.brk = st.brk
  mmap_next : st1.mmap_next = st.mmap_next
  freed : ∃ b, st1.hdr c = some b ∧ b.status = STATUS_FREE
  keep : ∀ a, a ≠ c → a ≠ s → st1.hdr a = st.hdr a
  shape : ∃ z,
    ((k1 = l1 ∧ s = c ∧ z = bc.size ∧ ∀ pv ∈ l1.getLast?, ¬ IsFree st.hdr pv) ∨
     (l1 = k1 ++ [s] ∧ ∃ pb, st.hdr s = some pb ∧ pb.status = STATUS_FREE ∧
        z = wadd pb.size (wadd bc.size E.BLOCK_META_SIZE))) ∧
    ((k2 = l2 ∧ b3.size = z ∧ ∀ nx ∈ l2.head?, ¬ IsFree st.hdr nx) ∨
     (∃ nx nb, l2 = nx :: k2 ∧ st.hdr nx = some nb ∧ nb.status = STATUS_FREE ∧
        b3.size = wadd z (wadd nb.size E.BLOCK_META_SIZE)))

/-! ## Sample states -/

/-- A heap with one Allocated block of 8 bytes at 4096, as left by `os_malloc(8)` on a fresh
process. -/
def heap_one : Heap :=
  { head := 4096, tail := 4096, threshold := MMAP_THRESHOLD, brk := 135168,
    mmap_next := 2 ^ 32,
    hdr := store (fun _ => none) 4096 { size := 8, status := STATUS_ALLOC, next := 0 },
    bytes := fun _ => 0 }

/-- A heap with an Allocated block of 8 bytes at 4096 followed by a Free block of 8 bytes at
135168, as left by two `os_malloc(8)` and the release of the second block. -/
def heap_two : Heap :=
  { head := 4096, tail := 135168, threshold := MMAP_THRESHOLD, brk := 135200,
    mmap_next := 2 ^ 32,
    hdr := store (store (fun _ => none) 4096 { size := 8, status := STATUS_ALLOC, next := 135168 })
      135168 { size := 8, status := STATUS_FREE, next := 0 },
    bytes := fun _ => 0 }

/-- The outcome of the split rule on the block `c` of size `z` for the aligned size `s`: when
`z - s` is larger than a header plus one byte, `c` keeps the size `s` and links to a new Free
block of size `z - s - BLOCK_META_SIZE` at `c + BLOCK_META_SIZE + s`, which gets the old
`next`; otherwise `c` keeps its size and its `next`.  No other header changes. -/
def SplitOutcome (E : Env) (st st1 : Heap) (c z s : Nat) (status : Status) (next : Nat) : Prop :=
  st1.head = st.head ∧ st1.tail = st.tail ∧ st1.brk = st.brk ∧ st1.bytes = st.bytes ∧
  if z - s > E.BLOCK_META_SIZE + 1 then
    st1.hdr c = some { size := s, status := status, next := c + E.BLOCK_META_SIZE + s } ∧
    st1.hdr (c + E.BLOCK_META_SIZE + s) =
      some { size := z - s - E.BLOCK_META_SIZE, status := STATUS_FREE, next := next } ∧
    (∀ a, a ≠ c → a ≠ c + E.BLOCK_META_SIZE + s → st1.hdr a = st.hdr a) ∧
    (s + E.BLOCK_META_SIZE) + (z - s - E.BLOCK_META_SIZE + E.BLOCK_META_SIZE) =
      z + E.BLOCK_META_SIZE
  else
    st1.hdr c = some { size := z, status := status, next := next } ∧
    ∀ a, a ≠ c → st1.hdr a = st.hdr a

/-- A heap with an Allocated block of 104 bytes at 4096 followed by a Free block of 104 bytes
at 135168, as left by two `os_malloc(100)` and the release of the second block. -/
def heap_pair : Heap :=
  { head := 4096, tail := 135168, threshold := MMAP_THRESHOLD, brk := 135296,
    mmap_next := 2 ^ 32,
    hdr := store (store (fun _ => none) 4096
        { size := 104, status := STATUS_ALLOC, next := 135168 })
      135168 { size := 104, status := STATUS_FREE, next := 0 },
    bytes := fun _ => 0 }

/-- A heap with one Mapped block of 8192 bytes at `2 ^ 32`, as left by `os_calloc(1, 8192)`
on the empty heap. -/
def heap_mapped : Heap :=
  { head := 4294967296, tail := 4294967296, threshold := MMAP_THRESHOLD, brk := 4096,
    mmap_next := 4294975512,
    hdr := store (fun _ => none) 4294967296
      { size := 8192, status := STATUS_MAPPED, next := 0 },
    bytes := fun _ => 0 }

/-- A heap with an Allocated block of 8 bytes at 4096 followed by a Mapped block of 8192 bytes
at `2 ^ 32`, as left by `os_malloc(8)` and `os_calloc(1, 8192)` on the empty heap. -/
def heap_mixed : Heap :=
  { head := 4096, tail := 4294967296, threshold := MMAP_THRESHOLD, brk := 135168,
    mmap_next := 4294975512,
    hdr := store (store (fun _ => none) 4096
        { size := 8, status := STATUS_ALLOC, next := 4294967296 })
      4294967296 { size := 8192, status := STATUS_MAPPED, next := 0 },
    bytes := fun _ => 0 }

/-- The sum over the headers `l` of `size + BLOCK_META_SIZE`. -/
def list_total (E : Env) (h : Nat → Option block_meta) : List Nat → Nat
  | [] => 0
  | a :: l =>
    (match h a with
      | some b => b.size + E.BLOCK_META_SIZE
      | none => 0) + list_total E h l

/-- A heap with a Free block of 64 bytes at 4096, an Allocated block of 64 bytes at 135168 and
a Free block of 64 bytes at 135256, as left by three `os_malloc(64)` and the release of the
first and of the third block. -/
def heap_three : Heap :=
  { head := 4096, tail := 135256, threshold := MMAP_THRESHOLD, brk := 135344,
    mmap_next := 2 ^ 32,
    hdr := store (store (store (fun _ => none) 4096
          { size := 64, status := STATUS_FREE, next := 135168 })
        135168 { size := 64, status := STATUS_ALLOC, next := 135256 })
      135256 { size := 64, status := STATUS_FREE, next := 0 },
    bytes := fun _ => 0 }

/-- The header at `m` exists and has status Mapped. -/
def MappedAt (h : Nat → Option block_meta) (m : Nat) : Prop :=
  ∃ b, h m = some b ∧ b.status = STATUS_MAPPED

/-- Every header with status Mapped of `h1` is a header with status Mapped of `h`. -/
def NoNewMapped (h h1 : Nat → Option block_meta) : Prop :=
  ∀ m, MappedAt h1 m → MappedAt h m

/-- A heap with a Mapped block of 200000 bytes at `2 ^ 32` followed by an Allocated block of
8 bytes at 4096, as left by `os_malloc(200000)` and `os_malloc(8)` on the empty heap. -/
def heap_big_small : Heap :=
  { head := 4294967296, tail := 4096, threshold := MMAP_THRESHOLD, brk := 4128,
    mmap_next := 4295167320,
    hdr := store (store (store (fun _ => none) 4294967296
          { size := 200000, status := STATUS_MAPPED, next := 0 })
        4096 { size := 8, status := STATUS_ALLOC, next := 0 })
      4294967296 { size := 200000, status := STATUS_MAPPED, next := 4096 },
    bytes := fun _ => 0 }

/-! ## Arithmetic of `size_t` -/

theorem WORD_eq : WORD = 18446744073709551616 := by norm_num [WORD]

theorem wadd_eq (a b : Nat) (h : a + b < WORD) : wadd a b = a + b := by
  unfold wadd; exact Nat.mod_eq_of_lt h

theorem wsub_eq (a b : Nat) (hb : b ≤ a) (ha : a < WORD) : wsub a b = a - b := by
  unfold wsub
  simp only [WORD_eq] at *
  omega

theorem pad_loop_spec (fuel : Nat) : ∀ x, x < WORD → x % 8 ≠ 0 → 8 - x % 8 ≤ fuel →
    pad_loop fuel x = (x + (8 - x % 8)) % WORD := by
  induction fuel with
  | zero => intro x _ h1 h2; omega
  | succ k ih =>
    intro x hx h1 h2
    simp only [pad_loop, wadd]
    split_ifs with h
    · simp only [WORD_eq] at *
      omega
    · have h3 : (x + 1) % WORD < WORD := Nat.mod_lt _ (by rw [WORD_eq]; omega)
      rw [ih _ h3 h (by simp only [WORD_eq] at *; omega)]
      simp only [WORD_eq] at *
      omega

theorem pad_size_wrap (x : Nat) (hx : x < WORD) : pad_size x = round_up_8 x % WORD := by
  unfold pad_size round_up_8
  split_ifs with h
  · rw [pad_loop_spec 8 x hx h (by omega)]
    simp only [WORD_eq] at *
    omega
  · simp only [WORD_eq] at *
    omega

theorem pad_size_eq (x : Nat) (hx : x + 7 < WORD) : pad_size x = round_up_8 x := by
  rw [pad_size_wrap x (by omega)]
  unfold round_up_8
  simp only [WORD_eq] at *
  omega

theorem pad_size_bounds (x : Nat) (hx : x + 7 < WORD) :
    x ≤ pad_size x ∧ pad_size x < x + 8 ∧ pad_size x % 8 = 0 := by
  rw [pad_size_eq x hx]
  unfold round_up_8
  omega

theorem pad_size_fix (x : Nat) (h : x % 8 = 0) : pad_size x = x := by
  unfold pad_size
  simp [h]

theorem pad_size_add (x m : Nat) (hm : m % 8 = 0) (hx : x + m + 7 < WORD) :
    pad_size (wadd x m) = pad_size x + m := by
  rw [wadd_eq x m (by omega), pad_size_eq _ hx, pad_size_eq x (by omega)]
  unfold round_up_8
  omega

/-! ## Lemmas on list segments -/

@[simp] theorem isSeg_nil (h : Nat → Option block_meta) (p q : Nat) : IsSeg h p [] q ↔ p = q :=
  Iff.rfl

@[simp] theorem isSeg_cons (h : Nat → Option block_meta) (p a q : Nat) (l : List Nat) :
    IsSeg h p (a :: l) q ↔ p = a ∧ a ≠ 0 ∧ ∃ b, h a = some b ∧ IsSeg h b.next l q :=
  Iff.rfl

theorem isSeg_append (h : Nat → Option block_meta) (l1 l2 : List Nat) :
    ∀ p q, IsSeg h p (l1 ++ l2) q ↔ ∃ m, IsSeg h p l1 m ∧ IsSeg h m l2 q := by
  induction l1 with
  | nil => intro p q; simp
  | cons a l ih =>
    intro p q
    simp only [List.cons_append, isSeg_cons, ih]
    constructor
    · rintro ⟨rfl, h0, b, hb, m, h1, h2⟩
      exact ⟨m, ⟨rfl, h0, b, hb, h1⟩, h2⟩
    · rintro ⟨m, ⟨rfl, h0, b, hb, h1⟩, h2⟩
      exact ⟨rfl, h0, b, hb, m, h1, h2⟩

theorem isSeg_congr {h g : Nat → Option block_meta} {l : List Nat} :
    ∀ {p q}, (∀ a ∈ l, h a = g a) → IsSeg h p l q → IsSeg g p l q := by
  induction l with
  | nil => intro p q _ hs; exact hs
  | cons a l ih =>
    intro p q heq hs
    obtain ⟨rfl, h0, b, hb, h1⟩ := hs
    refine ⟨rfl, h0, b, ?_, ih (fun c hc => heq c (List.mem_cons_of_mem _ hc)) h1⟩
    rw [← heq p (List.mem_cons_self _ _)]; exact hb

@[simp] theorem store_same (h : Nat → Option block_meta) (c : Nat) (b : block_meta) :
    store h c b c = some b := by simp [store]

theorem store_other (h : Nat → Option block_meta) {c a : Nat} (b : block_meta) (hne : a ≠ c) :
    store h c b a = h a := by simp [store, hne]

theorem unmap_other (h : Nat → Option block_meta) {c len a : Nat} (hne : ¬ (c ≤ a ∧ a < c + len)) :
    unmap h c len a = h a := by simp only [unmap, if_neg hne]

theorem isSeg_store {h : Nat → Option block_meta} {l : List Nat} {c : Nat} (b : block_meta)
    {p q : Nat} (hc : c ∉ l) (hs : IsSeg h p l q) : IsSeg (store h c b) p l q :=
  isSeg_congr (fun a ha => (store_other h b (fun e : a = c => hc (by rw [← e]; exact ha))).symm) hs

theorem isSeg_zero_not_mem {h : Nat → Option block_meta} {l : List Nat} :
    ∀ {p q}, IsSeg h p l q → 0 ∉ l := by
  induction l with
  | nil => intro p q _; simp
  | cons a l ih =>
    intro p q hs
    obtain ⟨rfl, h0, b, hb, h1⟩ := hs
    simp only [List.mem_cons, not_or]
    exact ⟨fun e => h0 e.symm, ih h1⟩

theorem isList_unique {h : Nat → Option block_meta} {l : List Nat} :
    ∀ {p} {k : List Nat}, IsList h p l → IsList h p k → l = k := by
  induction l with
  | nil =>
    intro p k h1 h2
    cases k with
    | nil => rfl
    | cons a k =>
      obtain ⟨rfl, h0, _⟩ := h2
      exact absurd h1 h0
  | cons a l ih =>
    intro p k h1 h2
    obtain ⟨rfl, h0, b, hb, h3⟩ := h1
    cases k with
    | nil => exact absurd h2 h0
    | cons c k =>
      obtain ⟨rfl, _, b2, hb2, h4⟩ := h2
      rw [hb] at hb2
      cases hb2
      rw [ih h3 h4]

theorem isSeg_split {h : Nat → Option block_meta} {l : List Nat} {c : Nat} :
    ∀ {p q}, IsSeg h p l q → c ∈ l →
      ∃ l1 l2 b, l = l1 ++ c :: l2 ∧ IsSeg h p l1 c ∧ c ≠ 0 ∧ h c = some b ∧ IsSeg h b.next l2 q := by
  induction l with
  | nil => intro p q _ hc; simp at hc
  | cons a l ih =>
    intro p q hs hc
    obtain ⟨rfl, h0, b, hb, h1⟩ := hs
    by_cases hpc : c = p
    · subst hpc
      exact ⟨[], l, b, rfl, rfl, h0, hb, h1⟩
    · have hc2 : c ∈ l := by
        rcases List.mem_cons.mp hc with e | e
        · exact absurd e hpc
        · exact e
      obtain ⟨l1, l2, bc, e, s1, c0, hbc, s2⟩ := ih h1 hc2
      exact ⟨p :: l1, l2, bc, by rw [e]; rfl, ⟨rfl, h0, b, hb, s1⟩, c0, hbc, s2⟩

theorem isList_nodup {h : Nat → Option block_meta} {l : List Nat} :
    ∀ {p}, IsList h p l → l.Nodup := by
  induction l with
  | nil => intro p _; exact List.nodup_nil
  | cons a l ih =>
    intro p hs
    have hs0 := hs
    obtain ⟨rfl, h0, b, hb, h1⟩ := hs
    refine List.nodup_cons.mpr ⟨?_, ih h1⟩
    intro hmem
    obtain ⟨l1, l2, bc, e, _, _, hbc, s2⟩ := isSeg_split h1 hmem
    have h2 : IsList h p (p :: l2) := ⟨rfl, h0, bc, hbc, s2⟩
    have := isList_unique hs0 h2
    have hlen := congrArg List.length this
    rw [e] at hlen
    simp at hlen
    omega

theorem isList_head_zero {h : Nat → Option block_meta} {l : List Nat} {p : Nat}
    (hs : IsList h p l) : p = 0 ↔ l = [] := by
  cases l with
  | nil => simpa using hs
  | cons a l =>
    obtain ⟨rfl, h0, _⟩ := hs
    simp [h0]

/-! ## The routing rule of `os_malloc` -/

theorem use_mmap_mapped (E : Env) (st : Heap) (n : Nat) (hm : st.mmap_next ≠ 0)
    (ht : st.head = 0 ∨ ∃ t, st.hdr st.tail = some t) :
    ∃ st1 b, use_mmap E st n = some (st1, st.mmap_next + E.BLOCK_META_SIZE) ∧
      st1.hdr st.mmap_next = some b ∧ b.status = STATUS_MAPPED ∧ b.size = pad_size n := by
  unfold use_mmap
  simp only [if_neg hm]
  by_cases hh : st.head = 0
  · simp only [if_pos hh]
    exact ⟨_, { size := pad_size n, status := STATUS_MAPPED, next := 0 }, rfl,
      store_same _ _ _, rfl, rfl⟩
  · simp only [if_neg hh]
    rcases ht with ht | ⟨t, ht⟩
    · exact absurd ht hh
    · by_cases ha : st.tail = st.mmap_next
      · rw [ha, store_same]
        refine ⟨_, { size := pad_size n, status := STATUS_MAPPED, next := st.mmap_next }, rfl,
          ?_, rfl, rfl⟩
        simp only [ha, store_same]
      · rw [store_other _ _ ha, ht]
        refine ⟨_, { size := pad_size n, status := STATUS_MAPPED, next := 0 }, rfl, ?_, rfl, rfl⟩
        simp only []
        rw [store_other _ _ (Ne.symm ha), store_same]

theorem os_malloc_route (E : Env) (fuel : Nat) (st : Heap) (n : Nat)
    (hE : E.BLOCK_META_SIZE % 8 = 0) (hn : 0 < n) (hfit : n + E.BLOCK_META_SIZE + 7 < WORD) :
    pad_size (wadd n E.BLOCK_META_SIZE) = round_up_8 n + E.BLOCK_META_SIZE ∧
    (round_up_8 n + E.BLOCK_META_SIZE < st.threshold →
      os_malloc E fuel st n = malloc_brk E fuel st n) ∧
    (¬ round_up_8 n + E.BLOCK_META_SIZE < st.threshold →
      os_malloc E fuel st n = use_mmap E st n) := by
  have hpad : pad_size (wadd n E.BLOCK_META_SIZE) = round_up_8 n + E.BLOCK_META_SIZE := by
    rw [pad_size_add n _ hE hfit, pad_size_eq n (by omega)]
  have hn0 : n ≠ 0 := by omega
  refine ⟨hpad, ?_, ?_⟩
  · intro h
    unfold os_malloc
    rw [if_neg hn0, hpad, if_pos h]
  · intro h
    unfold os_malloc
    rw [if_neg hn0, hpad, if_neg h]

/-- C4 (amended): when `n + BLOCK_META_SIZE`, rounded up, does not wrap, the test of
`os_malloc`, computed on `size_t`, holds exactly when `round_up_8 n + BLOCK_META_SIZE` is below
the threshold as natural numbers; in that case `os_malloc` runs its break branch, and otherwise
it runs `use_mmap`, which creates a block with status Mapped of size `round_up_8 n`. -/
theorem routing_rule (E : Env) (fuel : Nat) (st : Heap) (n : Nat)
    (hE : E.BLOCK_META_SIZE % 8 = 0) (hn : 0 < n) (hfit : n + E.BLOCK_META_SIZE + 7 < WORD) :
    (pad_size (wadd n E.BLOCK_META_SIZE) < st.threshold ↔
      round_up_8 n + E.BLOCK_META_SIZE < st.threshold) ∧
    (round_up_8 n + E.BLOCK_META_SIZE < st.threshold →
      os_malloc E fuel st n = malloc_brk E fuel st n) ∧
    (¬ round_up_8 n + E.BLOCK_META_SIZE < st.threshold →
      os_malloc E fuel st n = use_mmap E st n) ∧
    (st.mmap_next ≠ 0 → (st.head = 0 ∨ ∃ t, st.hdr st.tail = some t) →
      ∃ st1 b, use_mmap E st n = some (st1, st.mmap_next + E.BLOCK_META_SIZE) ∧
        st1.hdr st.mmap_next = some b ∧ b.status = STATUS_MAPPED ∧ b.size = round_up_8 n) := by
  obtain ⟨hpad, h1, h2⟩ := os_malloc_route E fuel st n hE hn hfit
  refine ⟨by rw [hpad], h1, h2, ?_⟩
  intro hm ht
  have := use_mmap_mapped E st n hm ht
  rw [pad_size_eq n (by omega)] at this
  exact this

theorem routing_rule_witness :
    (pad_size (wadd 200000 E24.BLOCK_META_SIZE) < (Heap.init 4096 (2 ^ 32)).threshold ↔
      round_up_8 200000 + E24.BLOCK_META_SIZE < (Heap.init 4096 (2 ^ 32)).threshold) ∧
    (¬ round_up_8 200000 + E24.BLOCK_META_SIZE < (Heap.init 4096 (2 ^ 32)).threshold →
      os_malloc E24 10 (Heap.init 4096 (2 ^ 32)) 200000 =
        use_mmap E24 (Heap.init 4096 (2 ^ 32)) 200000) :=
  ⟨(routing_rule E24 10 (Heap.init 4096 (2 ^ 32)) 200000 (by decide) (by decide) (by decide)).1,
   (routing_rule E24 10 (Heap.init 4096 (2 ^ 32)) 200000 (by decide) (by decide)
      (by decide)).2.2.1⟩

/-- C4 fails as stated: for `n = 2 ^ 64 - 8` the sum `n + BLOCK_META_SIZE` wraps to 16, the
test of `os_malloc` succeeds and the request is served from the break (status Allocated),
although `round_up_8 n + BLOCK_META_SIZE` is far above the threshold. -/
theorem routing_rule_wraps :
    pad_size (wadd (2 ^ 64 - 8) E24.BLOCK_META_SIZE) < (Heap.init 4096 (2 ^ 32)).threshold ∧
    ¬ (round_up_8 (2 ^ 64 - 8) + E24.BLOCK_META_SIZE < (Heap.init 4096 (2 ^ 32)).threshold) ∧
    (os_malloc E24 10 (Heap.init 4096 (2 ^ 32)) (2 ^ 64 - 8)).map
        (fun r => (r.2, r.1.hdr 4096)) =
      some (4120, some { size := 2 ^ 64 - 8, status := STATUS_ALLOC, next := 0 }) := by
  refine ⟨by decide, by decide, by rfl⟩

/-! ## Resizing to the same size, and growing in place -/

/-- C6 (amended): for a block with status Allocated whose size is a positive multiple of 8,
`os_realloc(p, b.size)` returns `p` and leaves the whole state (list, headers, payload bytes,
break) unchanged. -/
theorem realloc_same_size (E : Env) (fuel : Nat) (st : Heap) (p : Nat) (b : block_meta)
    (hp : p ≠ 0) (hb : st.hdr (wsub p E.BLOCK_META_SIZE) = some b)
    (hs : b.status = STATUS_ALLOC) (h8 : b.size % 8 = 0) (h0 : 0 < b.size) :
    os_realloc E fuel st p b.size = some (st, p) := by
  unfold os_realloc
  have hne : b.size ≠ 0 := by omega
  have hw : wsub b.size b.size = 0 := by
    unfold wsub
    have := WORD_eq
    have h1 : b.size % WORD < WORD := Nat.mod_lt _ (by omega)
    have h2 : b.size % WORD ≤ b.size := Nat.mod_le _ _
    have h3 : b.size + (WORD - b.size % WORD) = (b.size - b.size % WORD) + WORD := by omega
    rw [h3, Nat.add_mod_right]
    exact Nat.dvd_iff_mod_eq_zero.mp (Nat.dvd_sub_mod _)
  simp only [if_neg hne, if_neg hp, hb, pad_size_fix _ h8, gt_iff_lt, lt_irrefl, if_false, hw,
    hs]
  simp

theorem realloc_same_size_witness :
    os_realloc E24 10 heap_one 4120 8 = some (heap_one, 4120) :=
  realloc_same_size E24 10 heap_one 4120 { size := 8, status := STATUS_ALLOC, next := 0 }
    (by decide) (by rfl) rfl (by decide) (by decide)

/-- C7 (amended): when the request is larger than the block, the next block exists, is Free,
and the two sizes plus one header are strictly larger than the padded request, `os_realloc`
returns `p` itself, the block gets the size `b.size + next.size + BLOCK_META_SIZE` and the
`next` of its successor, nothing else changes, and the successor leaves the list. -/
theorem realloc_grow_in_place (E : Env) (fuel : Nat) (st : Heap) (p n : Nat)
    (b nx : block_meta) (l : List Nat)
    (hp : p ≠ 0) (hn : n ≠ 0) (hb : st.hdr (wsub p E.BLOCK_META_SIZE) = some b)
    (hgrow : pad_size n > b.size) (hnext : b.next ≠ 0) (hnx : st.hdr b.next = some nx)
    (hfree : nx.status = STATUS_FREE)
    (hfit : b.size + nx.size + E.BLOCK_META_SIZE > pad_size n)
    (hword : b.size + nx.size + E.BLOCK_META_SIZE < WORD)
    (hl : IsList st.hdr st.head l) (hmem : wsub p E.BLOCK_META_SIZE ∈ l) :
    ∃ st1, os_realloc E fuel st p n = some (st1, p) ∧
      st1.hdr (wsub p E.BLOCK_META_SIZE) =
        some { b with size := b.size + nx.size + E.BLOCK_META_SIZE, next := nx.next } ∧
      (∀ a, a ≠ wsub p E.BLOCK_META_SIZE → st1.hdr a = st.hdr a) ∧
      st1.head = st.head ∧ st1.tail = st.tail ∧ st1.bytes = st.bytes ∧ st1.brk = st.brk ∧
      ∃ l1 l2, l = l1 ++ wsub p E.BLOCK_META_SIZE :: b.next :: l2 ∧
        IsList st1.hdr st1.head (l1 ++ wsub p E.BLOCK_META_SIZE :: l2) := by
  have hsum : wadd (wadd b.size nx.size) E.BLOCK_META_SIZE =
      b.size + nx.size + E.BLOCK_META_SIZE := by
    rw [wadd_eq b.size nx.size (by omega), wadd_eq _ _ hword]
  have hcall : os_realloc E fuel st p n = some ({ st with
      hdr := store st.hdr (wsub p E.BLOCK_META_SIZE)
        { b with size := b.size + nx.size + E.BLOCK_META_SIZE, next := nx.next } }, p) := by
    unfold os_realloc realloc_absorb
    simp only [if_neg hn, if_neg hp, hb, if_pos hgrow, hnx, hsum, hfree, hfit, ne_eq, hnext,
      not_false_eq_true, if_true, and_self]
  refine ⟨_, hcall, store_same _ _ _, fun a ha => store_other _ _ ha, rfl, rfl, rfl, rfl, ?_⟩
  obtain ⟨l1, l2, bc, e, s1, c0, hbc, s2⟩ := isSeg_split hl hmem
  rw [hb] at hbc
  cases hbc
  cases l2 with
  | nil => exact absurd s2 hnext
  | cons a l2 =>
    obtain ⟨e2, a0, ba, hba, s3⟩ := s2
    subst e2
    rw [hnx] at hba
    cases hba
    refine ⟨l1, l2, e, ?_⟩
    have hnd : l.Nodup := isList_nodup hl
    rw [e] at hnd
    have hnd1 : wsub p E.BLOCK_META_SIZE ∉ l1 := by
      intro hin
      exact (List.nodup_append.mp hnd).2.2 hin (List.mem_cons_self _ _)
    have hnd2 : wsub p E.BLOCK_META_SIZE ∉ l2 := by
      intro hin
      have := (List.nodup_cons.mp (List.nodup_append.mp hnd).2.1).1
      exact this (List.mem_cons_of_mem _ hin)
    show IsSeg _ _ _ 0
    rw [isSeg_append]
    exact ⟨_, isSeg_store _ hnd1 s1, rfl, c0, _, store_same _ _ _, isSeg_store _ hnd2 s3⟩

theorem realloc_grow_in_place_witness :
    ∃ st1, os_realloc E24 10 heap_two 4120 16 = some (st1, 4120) ∧
      st1.hdr 4096 = some { size := 40, status := STATUS_ALLOC, next := 0 } ∧
      st1.tail = 135168 := by
  obtain ⟨st1, h1, h2, _, _, h3, _⟩ :=
    realloc_grow_in_place E24 10 heap_two 4120 16
      { size := 8, status := STATUS_ALLOC, next := 135168 }
      { size := 8, status := STATUS_FREE, next := 0 } [4096, 135168]
      (by decide) (by decide) (by rfl) (by decide) (by decide) (by rfl) rfl (by decide)
      (by decide) (by decide) (by decide)
  exact ⟨st1, h1, h2, h3⟩

/-! ## Concrete call sequences -/

theorem reachable_of_run (E : Env) (fuel : Nat) (calls : List Call) (st : Heap)
    (live : List Nat) (h : run E fuel fresh calls = some (st, live)) : Reachable E st live :=
  ⟨4096, 2 ^ 32, fuel, calls, h⟩

theorem heap_one_reached :
    (run E24 10 fresh [Call.malloc 8]).map
        (fun s => (s.2, s.1.head, s.1.tail, s.1.brk, s.1.mmap_next, s.1.threshold,
          s.1.hdr 4096)) =
      some ([4120], heap_one.head, heap_one.tail, heap_one.brk, heap_one.mmap_next,
        heap_one.threshold, heap_one.hdr 4096) := by
  rfl

theorem heap_two_reached :
    (run E24 10 fresh [Call.malloc 8, Call.malloc 8, Call.free 135192]).map
        (fun s => (s.2, s.1.head, s.1.tail, s.1.brk, s.1.mmap_next, s.1.threshold,
          s.1.hdr 4096, s.1.hdr 135168)) =
      some ([4120], heap_two.head, heap_two.tail, heap_two.brk, heap_two.mmap_next,
        heap_two.threshold, heap_two.hdr 4096, heap_two.hdr 135168) := by
  rfl

/-- C1 fails on the code: after `os_malloc(100)`, `os_free`, `os_malloc(40)` the block at 4096
has been split, the list is 4096, 4160, and `tail` still is 4096. -/
theorem tail_anchor_broken_by_split :
    ∃ st live, run E24 10 fresh [Call.malloc 100, Call.free 4120, Call.malloc 40] =
        some (st, live) ∧
      Reachable E24 st live ∧
      IsList st.hdr st.head [4096, 4160] ∧ st.tail = 4096 ∧ ¬ TailAnchor st := by
  refine ⟨_, _, rfl,
    reachable_of_run E24 10 [Call.malloc 100, Call.free 4120, Call.malloc 40] _ _ rfl,
    by decide, by rfl, fun h => ?_⟩
  have h1 := h [4096, 4160] (by decide) (by simp)
  revert h1
  decide

/-- C2 fails as stated: a Mapped block between two Free blocks is unlinked by `os_free`
without any merge, which leaves two Free blocks next to each other in the list. -/
theorem adjacent_free_after_free :
    ∃ st live, run E24 10 fresh [Call.malloc 100, Call.malloc 200000, Call.malloc 100,
        Call.free 4120, Call.free 135192, Call.free 4294967320] = some (st, live) ∧
      Reachable E24 st live ∧
      IsList st.hdr st.head [4096, 135168] ∧
      st.hdr 4096 = some { size := 104, status := STATUS_FREE, next := 135168 } ∧
      st.hdr 135168 = some { size := 104, status := STATUS_FREE, next := 0 } ∧
      ¬ NoAdjacentFree st [4096, 135168] := by
  refine ⟨_, _, rfl,
    reachable_of_run E24 10 [Call.malloc 100, Call.malloc 200000, Call.malloc 100,
      Call.free 4120, Call.free 135192, Call.free 4294967320] _ _ rfl,
    by decide, by rfl, by rfl, fun h => ?_⟩
  exact h 4096 (by simp) _ _ (by rfl) (by decide) (by rfl) ⟨rfl, rfl⟩

/-- C3 fails as stated: for `n = 2 ^ 64 - 1` the padded size wraps to 0, and the block handed
out has the recorded size 0. -/
theorem malloc_size_wraps :
    ∃ st p b, os_malloc E24 10 (Heap.init 4096 (2 ^ 32)) (2 ^ 64 - 1) = some (st, p) ∧
      p = 4120 ∧ st.hdr (p - E24.BLOCK_META_SIZE) = some b ∧ b.size = 0 ∧
      ¬ (2 ^ 64 - 1 ≤ b.size) := by
  refine ⟨_, _, { size := 0, status := STATUS_ALLOC, next := 0 }, rfl, rfl, by rfl, rfl,
    by decide⟩

/-- C5 fails as stated: a block that grew in place to 200024 bytes is handed to `os_free`,
which leaves it Allocated because its size is not below 128 KiB. -/
theorem free_keeps_large_block :
    ∃ st live, run E24 10 fresh [Call.malloc 100000, Call.malloc 100000, Call.malloc 8,
        Call.free 135192, Call.realloc 4120 100008] = some (st, live) ∧
      Reachable E24 st live ∧
      4120 ∈ live ∧ IsList st.hdr st.head [4096, 235192] ∧ st.tail = 235192 ∧
      st.hdr 4096 = some { size := 200024, status := STATUS_ALLOC, next := 235192 } ∧
      (os_free E24 10 st 4120).map (fun s => s.hdr 4096) =
        some (some { size := 200024, status := STATUS_ALLOC, next := 235192 }) := by
  refine ⟨_, _, rfl,
    reachable_of_run E24 10 [Call.malloc 100000, Call.malloc 100000, Call.malloc 8,
      Call.free 135192, Call.realloc 4120 100008] _ _ rfl,
    by decide, by decide, by rfl, by rfl, by rfl⟩

/-- C6 fails as stated: resizing a Mapped block (here of 8192 bytes, obtained from
`os_calloc`) to its own size moves it to a new block taken from the break and returns a
different pointer. -/
theorem realloc_same_size_moves_mapped :
    ∃ st live, run E24 10 fresh [Call.calloc 1 8192] = some (st, live) ∧
      live = [4294967320] ∧
      st.hdr 4294967296 = some { size := 8192, status := STATUS_MAPPED, next := 0 } ∧
      (os_realloc E24 10 st 4294967320 8192).map
          (fun r => (r.2, r.1.head, r.1.hdr 4096, r.1.hdr 4294967296)) =
        some (4120, 4096, some { size := 8192, status := STATUS_ALLOC, next := 0 }, none) := by
  refine ⟨_, _, rfl, by rfl, by rfl, by rfl⟩

/-- C7 fails as stated: when the two sizes plus one header are exactly the padded request the
block is not grown in place; the data moves to another block and the old block is freed. -/
theorem realloc_exact_fit_moves :
    ∃ st live, run E24 10 fresh [Call.malloc 8, Call.malloc 8, Call.free 135192] =
        some (st, live) ∧
      live = [4120] ∧
      st.hdr 4096 = some { size := 8, status := STATUS_ALLOC, next := 135168 } ∧
      st.hdr 135168 = some { size := 8, status := STATUS_FREE, next := 0 } ∧
      pad_size 40 > 8 ∧ 8 + 8 + E24.BLOCK_META_SIZE ≥ pad_size 40 ∧
      (os_realloc E24 10 st 4120 40).map (fun r => (r.2, r.1.hdr 4096)) =
        some (135192, some { size := 8, status := STATUS_FREE, next := 135168 }) := by
  refine ⟨_, _, rfl, by rfl, by rfl, by rfl, by decide, by decide, by rfl⟩

/-- C9 fails as stated: `os_calloc(2 ^ 61 + 1, 8)` computes the product 8 and returns a block
of 8 bytes, fewer than the product of the two arguments. -/
theorem calloc_product_wraps :
    ∃ st p b, os_calloc E24 10 (Heap.init 4096 (2 ^ 32)) (2 ^ 61 + 1) 8 = some (st, p) ∧
      p = 4120 ∧ st.hdr (p - E24.BLOCK_META_SIZE) = some b ∧ b.size = 8 ∧
      ¬ ((2 ^ 61 + 1) * 8 ≤ b.size) := by
  refine ⟨_, _, { size := 8, status := STATUS_ALLOC, next := 0 }, rfl, rfl, by rfl, rfl,
    by decide⟩

/-- C10 fails as stated: `os_calloc(2 ^ 61 + 1, 8)` requests far more than a page, yet the
product wraps to 8 and the block is taken from the break with status Allocated; and for the
request `2 ^ 64 - 8` of `os_calloc(1, 2 ^ 64 - 8)`, whose product does not wrap, the sum with
the header size wraps in the test of `os_malloc`, which with the page size as threshold again
takes the block from the break. -/
theorem calloc_routing_wraps :
    (∃ st p b, os_calloc E24 10 (Heap.init 4096 (2 ^ 32)) (2 ^ 61 + 1) 8 = some (st, p) ∧
      p = 4120 ∧ st.hdr (p - E24.BLOCK_META_SIZE) = some b ∧ b.status = STATUS_ALLOC ∧
      round_up_8 ((2 ^ 61 + 1) * 8) + E24.BLOCK_META_SIZE ≥ E24.pagesize ∧
      st.threshold = MMAP_THRESHOLD) ∧
    (∃ st p b, wmul (2 ^ 64 - 8) 1 = 2 ^ 64 - 8 ∧
      os_malloc E24 10 { Heap.init 4096 (2 ^ 32) with threshold := E24.pagesize }
        (2 ^ 64 - 8) = some (st, p) ∧
      p = 4120 ∧ st.hdr (p - E24.BLOCK_META_SIZE) = some b ∧ b.status = STATUS_ALLOC ∧
      round_up_8 (1 * (2 ^ 64 - 8)) + E24.BLOCK_META_SIZE ≥ E24.pagesize) := by
  refine ⟨⟨_, _, { size := 8, status := STATUS_ALLOC, next := 0 }, rfl, rfl, by rfl, rfl,
    by decide, rfl⟩,
    ⟨_, _, { size := 2 ^ 64 - 8, status := STATUS_ALLOC, next := 0 }, by decide, rfl, rfl,
      by rfl, rfl, by decide⟩⟩

/-! ## What `os_malloc` does on a well-formed state -/

theorem isList_last {h : Nat → Option block_meta} {p : Nat} {l : List Nat} {t : Nat}
    (hl : IsList h p l) (ht : l.getLast? = some t) :
    ∃ l0 bt, l = l0 ++ [t] ∧ IsSeg h p l0 t ∧ t ≠ 0 ∧ h t = some bt ∧ bt.next = 0 := by
  have e : l.dropLast ++ [t] = l := List.dropLast_append_getLast? t ht
  have hl2 : IsSeg h p (l.dropLast ++ [t]) 0 := by rw [e]; exact hl
  rw [isSeg_append] at hl2
  obtain ⟨m, s1, rfl, t0, bt, hbt, s2⟩ := hl2
  exact ⟨l.dropLast, bt, e.symm, s1, t0, hbt, s2⟩

theorem search_loop_spec {h : Nat → Option block_meta} (size : Nat) (l : List Nat) :
    ∀ (fuel p : Nat), IsList h p l → l.length < fuel →
      (∃ c l1 l2 bc, search_loop h size fuel p = some c ∧ c ≠ 0 ∧ l = l1 ++ c :: l2 ∧
        h c = some bc ∧ bc.status = STATUS_FREE ∧ size ≤ bc.size ∧ NoFit h size l1) ∨
      (search_loop h size fuel p = some 0 ∧ NoFit h size l) := by
  induction l with
  | nil =>
    intro fuel p hl hf
    right
    cases fuel with
    | zero => simp at hf
    | succ k =>
      have hp : p = 0 := hl
      subst hp
      refine ⟨by simp [search_loop], ?_⟩
      intro a ha
      simp at ha
  | cons a l ih =>
    intro fuel p hl hf
    obtain ⟨rfl, h0, b, hb, h1⟩ := hl
    cases fuel with
    | zero => simp at hf
    | succ k =>
      simp only [search_loop, if_neg h0, hb]
      by_cases hfit : b.status = STATUS_FREE ∧ b.size ≥ size
      · left
        rw [if_pos hfit]
        refine ⟨p, [], l, b, rfl, h0, rfl, hb, hfit.1, hfit.2, ?_⟩
        intro a ha
        simp at ha
      · rw [if_neg hfit]
        have hf2 : l.length < k := by simpa using hf
        rcases ih k b.next h1 hf2 with ⟨c, l1, l2, bc, e1, c0, e2, hbc, hs, hz, hno⟩ | ⟨e1, hno⟩
        · left
          refine ⟨c, p :: l1, l2, bc, e1, c0, by rw [e2]; rfl, hbc, hs, hz, ?_⟩
          intro x hx bx hbx
          rcases List.mem_cons.mp hx with e | e
          · subst e
            rw [hb] at hbx
            cases hbx
            exact hfit
          · exact hno x e bx hbx
        · right
          refine ⟨e1, ?_⟩
          intro x hx bx hbx
          rcases List.mem_cons.mp hx with e | e
          · subst e
            rw [hb] at hbx
            cases hbx
            exact hfit
          · exact hno x e bx hbx

theorem prealloc_ok (E : Env) (st : Heap) (n : Nat) (hbrk : st.brk ≠ 0)
    (hfit : n + 7 < WORD) :
    ∃ st1 blk l1 b, prealloc E st n = some (st1, blk + E.BLOCK_META_SIZE) ∧
      MallocOK E st [] n STATUS_ALLOC st1 blk l1 b := by
  have hp := pad_size_bounds n hfit
  unfold prealloc
  simp only [if_neg hbrk]
  refine ⟨_, st.brk, [st.brk], { size := pad_size n, status := STATUS_ALLOC, next := 0 }, rfl,
    ?_, ?_, ?_, hp.2.2, hp.1, rfl, rfl, rfl, ?_, ?_, ?_, ?_, ?_⟩
  · exact ⟨rfl, hbrk, _, store_same _ _ _, rfl⟩
  · simp
  · exact store_same _ _ _
  · intro a ha; simp at ha
  · simp
  · intro c hc _
    left
    simpa using hc
  · intro hc; simp at hc
  · intro a ha; simp at ha

/-- Appending a new header at a fresh address `blk` behind the last header `t`. -/
theorem append_ok {h : Nat → Option block_meta} {p : Nat} {l : List Nat} {t blk : Nat}
    {bt : block_meta} (nb : block_meta) (hl : IsList h p l) (ht : l.getLast? = some t) (hbt : h t = some bt)
    (hblk : blk ≠ 0) (hnew : blk ∉ l) (hnb : nb.next = 0) :
    IsList (store (store h blk nb) t { bt with next := blk }) p (l ++ [blk]) ∧
    (store (store h blk nb) t { bt with next := blk }) blk = some nb ∧
    ∀ a ∈ l, ∀ ba, h a = some ba →
      ∃ ba1, (store (store h blk nb) t { bt with next := blk }) a = some ba1 ∧
        ba1.size = ba.size ∧ ba1.status = ba.status := by
  obtain ⟨l0, bt2, e, s1, t0, hbt2, hz⟩ := isList_last hl ht
  have hnd : l.Nodup := isList_nodup hl
  rw [e] at hnd hnew
  have ht_l0 : t ∉ l0 := fun hin => (List.nodup_append.mp hnd).2.2 hin (List.mem_singleton_self _)
  have hblk_l0 : blk ∉ l0 := fun hin => hnew (List.mem_append_left _ hin)
  have hne : blk ≠ t := fun e2 => hnew (e2 ▸ List.mem_append_right _ (List.mem_singleton_self _))
  refine ⟨?_, ?_, ?_⟩
  · show IsSeg _ _ _ 0
    rw [e, List.append_assoc, isSeg_append]
    refine ⟨t, isSeg_store _ ht_l0 (isSeg_store _ hblk_l0 s1), rfl, t0, _, store_same _ _ _, ?_⟩
    refine ⟨rfl, hblk, nb, ?_, hnb⟩
    rw [store_other _ _ hne, store_same]
  · rw [store_other _ _ hne, store_same]
  · intro a ha ba hba
    by_cases hat : a = t
    · subst hat
      rw [hbt] at hba
      cases hba
      exact ⟨_, store_same _ _ _, rfl, rfl⟩
    · have hab : a ≠ blk := fun e2 => hnew (by rw [← e, ← e2]; exact ha)
      exact ⟨ba, by rw [store_other _ _ hat, store_other _ _ hab, hba], rfl, rfl⟩

theorem isList_hdr {h : Nat → Option block_meta} {p : Nat} {l : List Nat} {a : Nat}
    (hl : IsList h p l) (ha : a ∈ l) : a ≠ 0 ∧ ∃ b, h a = some b := by
  obtain ⟨_, _, b, _, _, a0, hb, _⟩ := isSeg_split hl ha
  exact ⟨a0, b, hb⟩

theorem fresh_not_mem {h : Nat → Option block_meta} {p : Nat} {l : List Nat} {m x : Nat}
    (hl : IsList h p l) (hm : 0 < m)
    (hx : ∀ a ∈ l, ∀ b, h a = some b → ¬ (a ≤ x ∧ x < a + m + b.size)) : x ∉ l := by
  intro hin
  obtain ⟨_, b, hb⟩ := isList_hdr hl hin
  exact hx x hin b hb ⟨le_refl _, by omega⟩

/-- A change of headers that keeps every `next` keeps the segments. -/
theorem isSeg_of_next {h g : Nat → Option block_meta} {l : List Nat} :
    ∀ {p q}, (∀ a ∈ l, ∀ b, h a = some b → ∃ c, g a = some c ∧ c.next = b.next) →
      IsSeg h p l q → IsSeg g p l q := by
  induction l with
  | nil => intro p q _ hs; exact hs
  | cons a l ih =>
    intro p q hg hs
    obtain ⟨rfl, h0, b, hb, h1⟩ := hs
    obtain ⟨c, hc, e⟩ := hg p (List.mem_cons_self _ _) b hb
    refine ⟨rfl, h0, c, hc, ?_⟩
    rw [e]
    exact ih (fun x hx => hg x (List.mem_cons_of_mem _ hx)) h1

theorem isSeg_store_next {h : Nat → Option block_meta} {l : List Nat} {p q c : Nat}
    {bc nb : block_meta} (hbc : h c = some bc) (hn : nb.next = bc.next)
    (hs : IsSeg h p l q) : IsSeg (store h c nb) p l q := by
  refine isSeg_of_next ?_ hs
  intro a _ b hb
  by_cases e : a = c
  · subst e
    rw [hbc] at hb
    cases hb
    exact ⟨nb, store_same _ _ _, hn⟩
  · exact ⟨b, by rw [store_other _ _ e, hb], rfl⟩

theorem use_sbrk_ok (E : Env) (st : Heap) (l : List Nat) (n : Nat) (wf : WF E st l)
    (hne : l ≠ []) (hE0 : 0 < E.BLOCK_META_SIZE) (hfit : n + 7 < WORD) :
    ∃ st1 blk l1 b, use_sbrk E st n = some (st1, blk + E.BLOCK_META_SIZE) ∧
      MallocOK E st l n STATUS_ALLOC st1 blk l1 b := by
  have hp := pad_size_bounds n hfit
  have ht := wf.tail hne
  obtain ⟨l0, bt, e, s1, t0, hbt, hz⟩ := isList_last wf.list ht
  have hnew : st.brk ∉ l := fresh_not_mem wf.list hE0 wf.brk_fresh
  have hne2 : st.tail ≠ st.brk := by
    intro e2
    apply hnew
    rw [← e2, e]
    simp
  obtain ⟨a1, a2, a3⟩ := append_ok { size := pad_size n, status := STATUS_ALLOC, next := 0 }
    wf.list ht hbt wf.brk_pos hnew rfl
  unfold use_sbrk
  simp only [if_neg wf.brk_pos, store_other _ _ hne2, hbt]
  refine ⟨_, st.brk, l ++ [st.brk], { size := pad_size n, status := STATUS_ALLOC, next := 0 },
    rfl, a1, by simp, a2, hp.2.2, hp.1, rfl, rfl, rfl, ?_, by simp, ?_, ?_, ?_⟩
  · intro a ha
    exact List.mem_append_left _ ha
  · intro c hc hcl
    left
    rcases List.mem_append.mp hc with h1 | h1
    · exact absurd h1 hcl
    · simpa using h1
  · intro hc
    exact absurd hc hnew
  · intro a ha _ ba hba
    exact a3 a ha ba hba

theorem use_mmap_ok (E : Env) (st : Heap) (l : List Nat) (n : Nat) (wf : WF E st l)
    (hE0 : 0 < E.BLOCK_META_SIZE) (hfit : n + 7 < WORD) :
    ∃ st1 blk l1 b, use_mmap E st n = some (st1, blk + E.BLOCK_META_SIZE) ∧
      MallocOK E st l n STATUS_MAPPED st1 blk l1 b := by
  have hp := pad_size_bounds n hfit
  have hnew : st.mmap_next ∉ l := fresh_not_mem wf.list hE0 wf.mmap_fresh
  unfold use_mmap
  simp only [if_neg wf.mmap_pos]
  by_cases hh : st.head = 0
  · have hl : l = [] := (isList_head_zero wf.list).mp hh
    subst hl
    simp only [if_pos hh]
    refine ⟨_, st.mmap_next, [st.mmap_next],
      { size := pad_size n, status := STATUS_MAPPED, next := 0 }, rfl,
      ?_, ?_, ?_, hp.2.2, hp.1, rfl, rfl, rfl, ?_, ?_, ?_, ?_, ?_⟩
    · exact ⟨rfl, wf.mmap_pos, _, store_same _ _ _, rfl⟩
    · simp
    · exact store_same _ _ _
    · intro a ha; simp at ha
    · simp
    · intro c hc _
      right; left
      simpa using hc
    · intro hc; simp at hc
    · intro a ha; simp at ha
  · have hne : l ≠ [] := fun e => hh ((isList_head_zero wf.list).mpr e)
    have ht := wf.tail hne
    obtain ⟨l0, bt, e, s1, t0, hbt, hz⟩ := isList_last wf.list ht
    have hne2 : st.tail ≠ st.mmap_next := by
      intro e2
      apply hnew
      rw [← e2, e]
      simp
    obtain ⟨a1, a2, a3⟩ := append_ok
      { size := pad_size n, status := STATUS_MAPPED, next := 0 }
      wf.list ht hbt wf.mmap_pos hnew rfl
    simp only [if_neg hh, store_other _ _ hne2, hbt]
    refine ⟨_, st.mmap_next, l ++ [st.mmap_next],
      { size := pad_size n, status := STATUS_MAPPED, next := 0 },
      rfl, a1, by simp, a2, hp.2.2, hp.1, rfl, rfl, rfl, ?_, by simp, ?_, ?_, ?_⟩
    · intro a ha
      exact List.mem_append_left _ ha
    · intro c hc hcl
      right; left
      rcases List.mem_append.mp hc with h1 | h1
      · exact absurd h1 hcl
      · simpa using h1
    · intro hc
      exact absurd hc hnew
    · intro a ha _ ba hba
      exact a3 a ha ba hba

theorem extend_tail_ok (E : Env) (st : Heap) (l : List Nat) (n : Nat) (t : block_meta)
    (wf : WF E st l) (hne : l ≠ []) (ht : st.hdr st.tail = some t)
    (hfree : t.status = STATUS_FREE) (hno : NoFit st.hdr (pad_size n) l)
    (hfit : n + 7 < WORD) :
    ∃ st1 blk l1 b, extend_tail E st t n = some (st1, blk + E.BLOCK_META_SIZE) ∧
      MallocOK E st l n STATUS_ALLOC st1 blk l1 b := by
  have hp := pad_size_bounds n hfit
  have hlast := wf.tail hne
  have hmem : st.tail ∈ l := List.mem_of_mem_getLast? hlast
  have hsz := wf.size st.tail hmem t ht
  have hlt : t.size < pad_size n := by
    have := hno st.tail hmem t ht
    by_contra hc
    exact this ⟨hfree, by omega⟩
  have hle : t.size ≤ n := by omega
  have hw : wsub n t.size = n - t.size := wsub_eq n t.size hle (by omega)
  have hinc : pad_size (wsub n t.size) = pad_size n - t.size := by
    rw [hw, pad_size_eq _ (by omega), pad_size_eq n hfit]
    unfold round_up_8
    omega
  have hsum : wadd t.size (pad_size n - t.size) = pad_size n := by
    rw [wadd_eq _ _ (by omega)]
    omega
  unfold extend_tail
  simp only [if_neg wf.brk_pos, hinc, hsum]
  refine ⟨_, st.tail, l, { t with size := pad_size n, status := STATUS_ALLOC }, rfl,
    ?_, hmem, store_same _ _ _, hp.2.2, hp.1, rfl, rfl, rfl, fun a ha => ha, by omega, ?_, ?_, ?_⟩
  · exact isSeg_store_next ht rfl wf.list
  · intro c hc hcl
    exact absurd hc hcl
  · intro _
    exact ⟨t, ht, hfree⟩
  · intro a _ hat ba hba
    exact ⟨ba, by simp only []; rw [store_other _ _ hat, hba], rfl, rfl⟩

theorem reuse_block_ok (E : Env) (st : Heap) (l l1 l2 : List Nat) (n c : Nat)
    (bc : block_meta) (wf : WF E st l) (e : l = l1 ++ c :: l2) (hbc : st.hdr c = some bc)
    (hfree : bc.status = STATUS_FREE) (hsz : pad_size n ≤ bc.size)
    (hE0 : 0 < E.BLOCK_META_SIZE) (hfit : n + 7 < WORD) :
    ∃ st1 blk k b,
      reuse_block E { st with hdr := store st.hdr c { bc with status := STATUS_ALLOC } } c n =
        some (st1, blk + E.BLOCK_META_SIZE) ∧
      MallocOK E st l n STATUS_ALLOC st1 blk k b := by
  have hp := pad_size_bounds n hfit
  have hmem : c ∈ l := by rw [e]; simp
  have hsize := wf.size c hmem bc hbc
  have hw : wsub bc.size (pad_size n) = bc.size - pad_size n := wsub_eq _ _ hsz (by omega)
  have hl := wf.list
  unfold reuse_block
  simp only [store_same, hw]
  by_cases hsplit : bc.size - pad_size n ≥ E.BLOCK_META_SIZE + 1
  · -- the block is split
    have hw2 : wsub (bc.size - pad_size n) E.BLOCK_META_SIZE =
        bc.size - pad_size n - E.BLOCK_META_SIZE := wsub_eq _ _ (by omega) (by omega)
    have hnc : c ≠ c + E.BLOCK_META_SIZE + pad_size n := by omega
    have hnew : c + E.BLOCK_META_SIZE + pad_size n ∉ l := by
      intro hin
      exact wf.sep c hmem _ hin bc hbc hnc ⟨by omega, by omega⟩
    simp only [if_pos hsplit, hw2, store_other _ _ hnc, store_same]
    rw [e] at hl
    have hl0 : IsSeg st.hdr st.head (l1 ++ c :: l2) 0 := hl
    rw [isSeg_append] at hl0
    obtain ⟨m, s1, rfl, c0, bc2, hbc2, s2⟩ := hl0
    rw [hbc] at hbc2
    cases hbc2
    have hnd : (l1 ++ m :: l2).Nodup := isList_nodup hl
    have hm1 : m ∉ l1 := fun hin => (List.nodup_append.mp hnd).2.2 hin (List.mem_cons_self _ _)
    have hm2 : m ∉ l2 := (List.nodup_cons.mp (List.nodup_append.mp hnd).2.1).1
    have hn1 : m + E.BLOCK_META_SIZE + pad_size n ∉ l1 := fun hin =>
      hnew (by rw [e]; exact List.mem_append_left _ hin)
    have hn2 : m + E.BLOCK_META_SIZE + pad_size n ∉ l2 := fun hin =>
      hnew (by rw [e]; exact List.mem_append_right _ (List.mem_cons_of_mem _ hin))
    refine ⟨_, m, l1 ++ m :: (m + E.BLOCK_META_SIZE + pad_size n) :: l2,
      { size := pad_size n, status := STATUS_ALLOC,
        next := m + E.BLOCK_META_SIZE + pad_size n }, rfl,
      ?_, by simp, store_same _ _ _, hp.2.2, hp.1, rfl, rfl, rfl, ?_, ?_, ?_, ?_, ?_⟩
    · show IsSeg _ _ _ 0
      rw [isSeg_append]
      refine ⟨m, ?_, rfl, c0, _, store_same _ _ _, rfl, by omega,
        { size := bc.size - pad_size n - E.BLOCK_META_SIZE, status := STATUS_FREE,
          next := bc.next }, ?_, ?_⟩
      · refine isSeg_congr (fun a ha => ?_) s1
        have h1 : a ≠ m := fun e2 => hm1 (e2 ▸ ha)
        have h2 : a ≠ m + E.BLOCK_META_SIZE + pad_size n := fun e2 => hn1 (e2 ▸ ha)
        simp [store, h1, h2]
      · simp [store]
        omega
      · refine isSeg_congr (fun a ha => ?_) s2
        have h1 : a ≠ m := fun e2 => hm2 (e2 ▸ ha)
        have h2 : a ≠ m + E.BLOCK_META_SIZE + pad_size n := fun e2 => hn2 (e2 ▸ ha)
        simp [store, h1, h2]
    · intro a ha
      rw [e] at ha
      rcases List.mem_append.mp ha with h1 | h1
      · exact List.mem_append_left _ h1
      · rcases List.mem_cons.mp h1 with h2 | h2
        · subst h2; simp
        · exact List.mem_append_right _ (List.mem_cons_of_mem _ (List.mem_cons_of_mem _ h2))
    · rw [e]
      simp only [List.length_append, List.length_cons]
      omega
    · intro x hx hxl
      right; right
      refine ⟨m, hmem, bc, hbc, hfree, ?_⟩
      have : x = m + E.BLOCK_META_SIZE + pad_size n := by
        rcases List.mem_append.mp hx with h1 | h1
        · exact absurd (by rw [e]; exact List.mem_append_left _ h1) hxl
        · rcases List.mem_cons.mp h1 with h2 | h2
          · exact absurd (h2 ▸ hmem) hxl
          · rcases List.mem_cons.mp h2 with h3 | h3
            · exact h3
            · have h4 : x ∈ l := by
                rw [e]
                exact List.mem_append_right _ (List.mem_cons_of_mem _ h3)
              exact absurd h4 hxl
      omega
    · intro _
      exact ⟨bc, hbc, hfree⟩
    · intro a ha hac ba hba
      have han : a ≠ m + E.BLOCK_META_SIZE + pad_size n := fun e2 => hnew (e2 ▸ ha)
      exact ⟨ba, by simp [store, hac, han, hba], rfl, rfl⟩
  · -- the block is used whole
    simp only [if_neg hsplit]
    refine ⟨_, c, l, { bc with status := STATUS_ALLOC }, rfl,
      ?_, hmem, store_same _ _ _, hsize.1, le_trans hp.1 hsz, rfl, rfl, rfl, fun a ha => ha,
      by omega, ?_, ?_, ?_⟩
    · exact isSeg_store_next (store_same _ _ _) rfl (isSeg_store_next hbc rfl hl)
    · intro x hx hxl
      exact absurd hx hxl
    · intro _
      exact ⟨bc, hbc, hfree⟩
    · intro a _ hac ba hba
      exact ⟨ba, by simp [store, hac, hba], rfl, rfl⟩

theorem search_block_found {fuel : Nat} {st : Heap} {size c : Nat} {bc : block_meta}
    (h1 : search_loop st.hdr size fuel st.head = some c) (c0 : c ≠ 0)
    (hbc : st.hdr c = some bc) :
    search_block fuel st size =
      some ({ st with hdr := store st.hdr c { bc with status := STATUS_ALLOC } }, c) := by
  unfold search_block
  simp only [h1, if_neg c0, hbc]

theorem search_block_none {fuel : Nat} {st : Heap} {size : Nat}
    (h1 : search_loop st.hdr size fuel st.head = some 0) :
    search_block fuel st size = some (st, 0) := by
  unfold search_block
  simp only [h1, if_true]

theorem malloc_brk_ok (E : Env) (st : Heap) (l : List Nat) (fuel n : Nat) (wf : WF E st l)
    (hfuel : l.length < fuel) (hE0 : 0 < E.BLOCK_META_SIZE) (hn : 0 < n)
    (hfit : n + 7 < WORD) :
    ∃ st1 blk l1 b, malloc_brk E fuel st n = some (st1, blk + E.BLOCK_META_SIZE) ∧
      MallocOK E st l n STATUS_ALLOC st1 blk l1 b := by
  unfold malloc_brk
  by_cases hh : st.head = 0
  · have hl : l = [] := (isList_head_zero wf.list).mp hh
    subst hl
    have hn0 : n ≠ 0 := by omega
    simp only [hh, hn0, ne_eq, not_false_eq_true, and_self, if_true]
    exact prealloc_ok E st n wf.brk_pos hfit
  · have hne : l ≠ [] := fun e => hh ((isList_head_zero wf.list).mpr e)
    simp only [hh, false_and, if_false]
    rcases search_loop_spec (pad_size n) l fuel st.head wf.list hfuel with
      ⟨c, l1, l2, bc, e1, c0, e2, hbc, hs, hz, _⟩ | ⟨e1, hno⟩
    · rw [search_block_found e1 c0 hbc]
      simp only [ne_eq, c0, not_false_eq_true, if_true]
      exact reuse_block_ok E st l l1 l2 n c bc wf e2 hbc hs hz hE0 hfit
    · rw [search_block_none e1]
      simp only [ne_eq, not_true_eq_false, if_false]
      have ht := wf.tail hne
      obtain ⟨l0, bt, e, s1, t0, hbt, hz⟩ := isList_last wf.list ht
      simp only [hbt]
      by_cases hf : bt.status = STATUS_FREE
      · rw [if_pos hf]
        exact extend_tail_ok E st l n bt wf hne hbt hf hno hfit
      · rw [if_neg hf]
        exact use_sbrk_ok E st l n wf hne hE0 hfit

theorem os_malloc_ok (E : Env) (st : Heap) (l : List Nat) (fuel n : Nat) (wf : WF E st l)
    (hfuel : l.length < fuel) (hE : E.BLOCK_META_SIZE % 8 = 0) (hE0 : 0 < E.BLOCK_META_SIZE)
    (hn : 0 < n) (hfit : n + E.BLOCK_META_SIZE + 7 < WORD) :
    ∃ st1 blk l1 b, os_malloc E fuel st n = some (st1, blk + E.BLOCK_META_SIZE) ∧
      MallocOK E st l n
        (if round_up_8 n + E.BLOCK_META_SIZE < st.threshold then STATUS_ALLOC
          else STATUS_MAPPED) st1 blk l1 b := by
  obtain ⟨_, h1, h2⟩ := os_malloc_route E fuel st n hE hn hfit
  by_cases ht : round_up_8 n + E.BLOCK_META_SIZE < st.threshold
  · rw [h1 ht, if_pos ht]
    exact malloc_brk_ok E st l fuel n wf hfuel hE0 hn (by omega)
  · rw [h2 ht, if_neg ht]
    exact use_mmap_ok E st l n wf hE0 (by omega)

theorem heap_two_wf : WF E24 heap_two [4096, 135168] := by
  refine ⟨by decide, fun _ => by rfl, ?_, ?_, by decide, ?_, by decide, ?_⟩
  · intro a ha b hb
    simp only [List.mem_cons, List.mem_singleton, List.not_mem_nil, or_false] at ha
    rcases ha with rfl | rfl <;> simp [heap_two, store] at hb <;> subst hb <;> decide
  · intro a ha c hc b hb hne
    simp only [List.mem_cons, List.mem_singleton, List.not_mem_nil, or_false] at ha hc
    rcases ha with rfl | rfl <;> rcases hc with rfl | rfl <;> simp [heap_two, store] at hb <;>
      subst hb <;> simp [E24] at hne ⊢
  · intro a ha b hb
    simp only [List.mem_cons, List.mem_singleton, List.not_mem_nil, or_false] at ha
    rcases ha with rfl | rfl <;> simp [heap_two, store] at hb <;> subst hb <;> decide
  · intro a ha b hb
    simp only [List.mem_cons, List.mem_singleton, List.not_mem_nil, or_false] at ha
    rcases ha with rfl | rfl <;> simp [heap_two, store] at hb <;> subst hb <;> decide

/-- C3 (amended): in a well-formed state (the list from head ends at tail, sizes are multiples
of 8, blocks do not overlap, break and next mapping are outside every block), with
`BLOCK_META_SIZE` a positive multiple of 8 and a request `0 < n` with
`n + BLOCK_META_SIZE + 7 < 2 ^ 64`, `os_malloc(n)` returns a pointer `p` whose header lies
exactly `BLOCK_META_SIZE` below `p`, is reachable from head, and records a size that is a
multiple of 8 and at least `n`. -/
theorem os_malloc_block (E : Env) (st : Heap) (l : List Nat) (fuel n : Nat) (wf : WF E st l)
    (hfuel : l.length < fuel) (hE : E.BLOCK_META_SIZE % 8 = 0) (hE0 : 0 < E.BLOCK_META_SIZE)
    (hn : 0 < n) (hfit : n + E.BLOCK_META_SIZE + 7 < WORD) :
    ∃ st1 p l1 b, os_malloc E fuel st n = some (st1, p) ∧ E.BLOCK_META_SIZE ≤ p ∧
      IsList st1.hdr st1.head l1 ∧ p - E.BLOCK_META_SIZE ∈ l1 ∧
      st1.hdr (p - E.BLOCK_META_SIZE) = some b ∧ b.size % 8 = 0 ∧ n ≤ b.size := by
  obtain ⟨st1, blk, l1, b, h1, ok⟩ := os_malloc_ok E st l fuel n wf hfuel hE hE0 hn hfit
  refine ⟨st1, blk + E.BLOCK_META_SIZE, l1, b, h1, by omega, ok.list, ?_, ?_, ok.size_mod,
    ok.size_ge⟩
  · rw [Nat.add_sub_cancel]; exact ok.mem
  · rw [Nat.add_sub_cancel]; exact ok.hdr

theorem os_malloc_block_witness :
    ∃ st1 p l1 b, os_malloc E24 10 heap_two 100 = some (st1, p) ∧ E24.BLOCK_META_SIZE ≤ p ∧
      IsList st1.hdr st1.head l1 ∧ p - E24.BLOCK_META_SIZE ∈ l1 ∧
      st1.hdr (p - E24.BLOCK_META_SIZE) = some b ∧ b.size % 8 = 0 ∧ 100 ≤ b.size :=
  os_malloc_block E24 heap_two [4096, 135168] 10 100 heap_two_wf (by decide) (by decide)
    (by decide) (by decide) (by decide)

/-! ## What `os_free` does on a list -/

theorem getLast?_cons_getD (a prev : Nat) (l : List Nat) :
    ((a :: l).getLast?).getD prev = (l.getLast?).getD a := by
  cases l with
  | nil => rfl
  | cons c l =>
    rw [List.getLast?_cons_cons]
    cases hx : (c :: l).getLast? with
    | none => simp at hx
    | some x => rfl

theorem find_loop_spec {h : Nat → Option block_meta} {c : Nat} (l1 : List Nat) :
    ∀ (fuel prev p : Nat), IsSeg h p l1 c → c ∉ l1 → l1.length < fuel →
      find_loop h c fuel prev p = some ((l1.getLast?).getD prev, c) := by
  induction l1 with
  | nil =>
    intro fuel prev p hs _ hf
    have hp : p = c := hs
    subst hp
    cases fuel with
    | zero => simp at hf
    | succ k => simp [find_loop]
  | cons a l1 ih =>
    intro fuel prev p hs hc hf
    obtain ⟨rfl, h0, b, hb, h1⟩ := hs
    cases fuel with
    | zero => simp at hf
    | succ k =>
      have hne : p ≠ c := fun e => hc (e ▸ List.mem_cons_self _ _)
      have hc2 : c ∉ l1 := fun hin => hc (List.mem_cons_of_mem _ hin)
      simp only [find_loop, if_neg hne, hb]
      rw [ih k p b.next h1 hc2 (by simpa using hf), getLast?_cons_getD]

theorem last_loop_spec {h : Nat → Option block_meta} (l : List Nat) :
    ∀ (fuel p t : Nat), IsList h p l → l.getLast? = some t → l.length ≤ fuel →
      last_loop h fuel p = some t := by
  induction l with
  | nil => intro fuel p t _ ht _; simp at ht
  | cons a l ih =>
    intro fuel p t hs ht hf
    obtain ⟨rfl, h0, b, hb, h1⟩ := hs
    cases fuel with
    | zero => simp at hf
    | succ k =>
      simp only [last_loop, hb]
      cases l with
      | nil =>
        have hz : b.next = 0 := h1
        simp only [List.getLast?_singleton, Option.some.injEq] at ht
        simp [hz, ht]
      | cons a2 l2 =>
        have h2 := h1
        obtain ⟨e, a0, _⟩ := h2
        have hnz : b.next ≠ 0 := by rw [e]; exact a0
        rw [if_pos hnz]
        rw [List.getLast?_cons_cons] at ht
        exact ih k b.next t h1 ht (by simpa using hf)

theorem isList_mid {h : Nat → Option block_meta} {p c : Nat} {l1 l2 : List Nat}
    (hl : IsList h p (l1 ++ c :: l2)) :
    ∃ bc, IsSeg h p l1 c ∧ c ≠ 0 ∧ h c = some bc ∧ IsList h bc.next l2 ∧
      c ∉ l1 ∧ c ∉ l2 ∧ (∀ a ∈ l1, a ∉ l2) := by
  have hl0 : IsSeg h p (l1 ++ c :: l2) 0 := hl
  rw [isSeg_append] at hl0
  obtain ⟨m, s1, rfl, c0, bc, hbc, s2⟩ := hl0
  have hnd := isList_nodup hl
  refine ⟨bc, s1, c0, hbc, s2, ?_, ?_, ?_⟩
  · exact fun hin => (List.nodup_append.mp hnd).2.2 hin (List.mem_cons_self _ _)
  · exact (List.nodup_cons.mp (List.nodup_append.mp hnd).2.1).1
  · intro a ha hin
    exact (List.nodup_append.mp hnd).2.2 ha (List.mem_cons_of_mem _ hin)

theorem merge_prev_spec (E : Env) {h : Nat → Option block_meta} {p c : Nat}
    {l1 l2 : List Nat} {bc : block_meta} (hl : IsList h p (l1 ++ c :: l2))
    (hbc : h c = some bc) :
    ∃ h2 k1 s bs, merge_prev E h ((l1.getLast?).getD 0) c = some (h2, s) ∧
      IsList h2 p (k1 ++ s :: l2) ∧ h2 s = some bs ∧ bs.next = bc.next ∧
      (∀ a, a ≠ s → h2 a = h a) ∧
      ((k1 = l1 ∧ s = c ∧ h2 = h ∧ ∀ pv ∈ l1.getLast?, ¬ IsFree h pv) ∨
       (l1 = k1 ++ [s] ∧ ∃ pb, h s = some pb ∧ pb.status = STATUS_FREE ∧
          bs = { pb with size := wadd pb.size (wadd bc.size E.BLOCK_META_SIZE),
                         next := bc.next })) := by
  obtain ⟨bc2, s1, c0, hbc2, s2, hc1, hc2, hdis⟩ := isList_mid hl
  rw [hbc] at hbc2
  cases hbc2
  unfold merge_prev
  cases hlast : l1.getLast? with
  | none =>
    simp only [Option.getD_none, if_true]
    refine ⟨h, l1, c, bc, rfl, hl, hbc, rfl, fun _ _ => rfl, Or.inl ⟨rfl, rfl, rfl, ?_⟩⟩
    intro pv hpv
    simp at hpv
  | some pv =>
    have e : l1.dropLast ++ [pv] = l1 := List.dropLast_append_getLast? pv hlast
    have s1b : IsSeg h p (l1.dropLast ++ [pv]) c := by rw [e]; exact s1
    rw [isSeg_append] at s1b
    obtain ⟨m, t1, rfl, pv0, pb, hpb, t2⟩ := s1b
    have hnext : pb.next = c := t2
    simp only [Option.getD_some, if_neg pv0, hpb, hbc]
    by_cases hf : pb.status = STATUS_FREE
    · rw [if_pos hf]
      have hm1 : m ∈ l1 := by rw [← e]; simp
      have hmc : m ≠ c := fun e2 => hc1 (e2 ▸ hm1)
      have hnd := isList_nodup hl
      rw [← e] at hnd
      have hmd : m ∉ l1.dropLast := by
        intro hin
        have := (List.nodup_append.mp (List.nodup_append.mp hnd).1).2.2 hin
          (List.mem_singleton_self _)
        exact this
      have hm2 : m ∉ l2 := hdis m hm1
      refine ⟨_, l1.dropLast, m, _, rfl, ?_, store_same _ _ _, rfl,
        fun a ha => store_other _ _ ha, Or.inr ⟨e.symm, pb, hpb, hf, rfl⟩⟩
      show IsSeg _ _ _ 0
      rw [isSeg_append]
      exact ⟨m, isSeg_store _ hmd t1, rfl, pv0, _, store_same _ _ _, isSeg_store _ hm2 s2⟩
    · rw [if_neg hf]
      refine ⟨h, l1, c, bc, rfl, hl, hbc, rfl, fun _ _ => rfl, Or.inl ⟨rfl, rfl, rfl, ?_⟩⟩
      intro x hx
      simp only [Option.mem_def, Option.some.injEq] at hx
      subst hx
      rintro ⟨b2, hb2, hs2⟩
      rw [hpb] at hb2
      cases hb2
      exact hf hs2

theorem merge_next_spec (E : Env) {h : Nat → Option block_meta} {p s : Nat}
    {k1 l2 : List Nat} {bs : block_meta} (hl : IsList h p (k1 ++ s :: l2))
    (hbs : h s = some bs) :
    ∃ h3 k2 b3, merge_next E h s = some h3 ∧
      IsList h3 p (k1 ++ s :: k2) ∧ h3 s = some b3 ∧ b3.status = bs.status ∧
      (∀ a, a ≠ s → h3 a = h a) ∧
      ((k2 = l2 ∧ h3 = h ∧ ∀ nx ∈ l2.head?, ¬ IsFree h nx) ∨
       (∃ nx nb, l2 = nx :: k2 ∧ h nx = some nb ∧ nb.status = STATUS_FREE ∧
          b3 = { bs with size := wadd bs.size (wadd nb.size E.BLOCK_META_SIZE),
                         next := nb.next })) := by
  obtain ⟨bs2, s1, c0, hbs2, s2, hc1, hc2, hdis⟩ := isList_mid hl
  rw [hbs] at hbs2
  cases hbs2
  unfold merge_next
  simp only [hbs]
  cases l2 with
  | nil =>
    have hz : bs.next = 0 := s2
    simp only [hz, if_true]
    refine ⟨h, [], bs, rfl, hl, hbs, rfl, fun _ _ => rfl, Or.inl ⟨rfl, rfl, ?_⟩⟩
    intro nx hnx
    simp at hnx
  | cons nx k2 =>
    obtain ⟨e, nx0, nb, hnb, s3⟩ := s2
    have hnz : bs.next ≠ 0 := by rw [e]; exact nx0
    simp only [e, if_neg nx0, hnb]
    by_cases hf : nb.status = STATUS_FREE
    · rw [if_pos hf]
      have hs2 : s ∉ k2 := fun hin => hc2 (List.mem_cons_of_mem _ hin)
      refine ⟨_, k2, { bs with size := wadd bs.size (wadd nb.size E.BLOCK_META_SIZE),
                               next := nb.next },
        rfl, ?_, store_same _ _ _, rfl, fun a ha => store_other _ _ ha,
        Or.inr ⟨nx, nb, rfl, hnb, hf, rfl⟩⟩
      show IsSeg _ _ _ 0
      rw [isSeg_append]
      exact ⟨s, isSeg_store _ hc1 s1, rfl, c0, _, store_same _ _ _, isSeg_store _ hs2 s3⟩
    · rw [if_neg hf]
      refine ⟨h, nx :: k2, bs, rfl, hl, hbs, rfl, fun _ _ => rfl, Or.inl ⟨rfl, rfl, ?_⟩⟩
      intro x hx
      simp only [List.head?_cons, Option.mem_def, Option.some.injEq] at hx
      subst hx
      rintro ⟨b2, hb2, hs2⟩
      rw [hnb] at hb2
      cases hb2
      exact hf hs2

theorem free_brk_ok (E : Env) (st : Heap) (fuel : Nat) (l1 l2 : List Nat) (c : Nat)
    (bc : block_meta) (hl : IsList st.hdr st.head (l1 ++ c :: l2))
    (hfuel : (l1 ++ c :: l2).length < fuel) (hbc : st.hdr c = some bc) :
    ∃ st1 k1 s k2 b3, free_brk E fuel st ((l1.getLast?).getD 0) c bc = some st1 ∧
      FreeOK E st l1 c l2 bc st1 k1 s k2 b3 := by
  obtain ⟨_, _, _, _, _, hc1, hc2, hdis⟩ := isList_mid hl
  have hl1 : IsList (store st.hdr c { bc with status := STATUS_FREE }) st.head
      (l1 ++ c :: l2) := isSeg_store_next hbc rfl hl
  obtain ⟨h2, k1, s, bs, e2, hl2, hbs, hbsn, keep2, sh2⟩ :=
    merge_prev_spec E hl1 (store_same _ _ _)
  obtain ⟨h3, k2, b3, e3, hl3, hb3, hst3, keep3, sh3⟩ := merge_next_spec E hl2 hbs
  obtain ⟨_, s1, s0, hb3b, sl3, _, _, _⟩ := isList_mid hl3
  have hls : IsList h3 s (s :: k2) := ⟨rfl, s0, _, hb3b, sl3⟩
  cases hlast : (s :: k2).getLast? with
  | none => simp at hlast
  | some t =>
    have hlen : (s :: k2).length ≤ fuel := by
      have h1 : (k1 ++ s :: k2).length ≤ (l1 ++ c :: l2).length := by
        rcases sh2 with ⟨e, _, _⟩ | ⟨e, _⟩ <;> rcases sh3 with ⟨e4, _, _⟩ | ⟨nx, nb, e4, _⟩ <;>
          subst e <;> subst e4 <;> simp
      simp only [List.length_append, List.length_cons] at h1 hfuel ⊢
      omega
    have hloop := last_loop_spec (s :: k2) fuel s t hls hlast hlen
    have hs_l1_or : s = c ∨ s ∈ l1 := by
      rcases sh2 with ⟨_, e, _⟩ | ⟨e, _⟩
      · exact Or.inl e
      · right; rw [e]; simp
    have hsl2 : s ∉ l2 := by
      rcases hs_l1_or with e | e
      · rw [e]; exact hc2
      · exact hdis s e
    have hbs_free : bs.status = STATUS_FREE := by
      rcases sh2 with ⟨_, e, e3, _⟩ | ⟨_, pb, _, hf, e⟩
      · subst e; subst e3
        rw [store_same] at hbs
        cases hbs
        rfl
      · rw [e]; exact hf
    unfold free_brk
    simp only [e2, e3, hloop]
    refine ⟨_, k1, s, k2, b3, rfl, ?_, ?_, hb3, by rw [hst3]; exact hbs_free, rfl, rfl, rfl,
      rfl, rfl, ?_, ?_, ?_⟩
    · exact hl3
    · rw [List.getLast?_append_of_ne_nil _ (List.cons_ne_nil _ _)]
      exact hlast
    · by_cases hsc : c = s
      · subst hsc
        exact ⟨b3, hb3, by rw [hst3]; exact hbs_free⟩
      · refine ⟨{ bc with status := STATUS_FREE }, ?_, rfl⟩
        show h3 c = _
        rw [keep3 c hsc, keep2 c hsc, store_same]
    · intro a hac has
      show h3 a = _
      rw [keep3 a has, keep2 a has, store_other _ _ hac]
    · have hz : ∃ z, bs.size = z ∧
          ((k1 = l1 ∧ s = c ∧ z = bc.size ∧ ∀ pv ∈ l1.getLast?, ¬ IsFree st.hdr pv) ∨
           (l1 = k1 ++ [s] ∧ ∃ pb, st.hdr s = some pb ∧ pb.status = STATUS_FREE ∧
              z = wadd pb.size (wadd bc.size E.BLOCK_META_SIZE))) := by
        refine ⟨bs.size, rfl, ?_⟩
        rcases sh2 with ⟨e, e5, e6, hp⟩ | ⟨e, pb, hpb, hf, e5⟩
        · left
          subst e5; subst e6
          rw [store_same] at hbs
          cases hbs
          refine ⟨e, rfl, rfl, ?_⟩
          intro pv hpv
          have hpv1 : pv ∈ l1 := List.mem_of_mem_getLast? hpv
          have hne : pv ≠ s := fun e7 => hc1 (e7 ▸ hpv1)
          have := hp pv hpv
          unfold IsFree at this ⊢
          rw [store_other _ _ hne] at this
          exact this
        · right
          have hs1 : s ∈ l1 := by rw [e]; simp
          have hne : s ≠ c := fun e7 => hc1 (e7 ▸ hs1)
          rw [store_other _ _ hne] at hpb
          refine ⟨e, pb, hpb, hf, ?_⟩
          rw [e5]
      obtain ⟨z, hz1, hz2⟩ := hz
      refine ⟨z, hz2, ?_⟩
      have hnx : ∀ nx ∈ l2, h2 nx = st.hdr nx := by
        intro nx hin
        have h1 : nx ≠ s := fun e7 => hsl2 (e7 ▸ hin)
        have h2 : nx ≠ c := fun e7 => hc2 (e7 ▸ hin)
        rw [keep2 nx h1, store_other _ _ h2]
      rcases sh3 with ⟨e, e5, hp⟩ | ⟨nx, nb, e, hnb, hf, e5⟩
      · left
        subst e5
        rw [hbs] at hb3
        cases hb3
        refine ⟨e, hz1, ?_⟩
        intro nx hin
        have hin2 : nx ∈ l2 := List.mem_of_mem_head? hin
        have := hp nx hin
        unfold IsFree at this ⊢
        rw [hnx nx hin2] at this
        exact this
      · right
        have hin : nx ∈ l2 := by rw [e]; simp
        rw [hnx nx hin] at hnb
        refine ⟨nx, nb, e, hnb, hf, ?_⟩
        rw [e5, ← hz1]

theorem os_free_brk_ok (E : Env) (st : Heap) (fuel ptr : Nat) (l1 l2 : List Nat) (c : Nat)
    (bc : block_meta) (hl : IsList st.hdr st.head (l1 ++ c :: l2))
    (hfuel : (l1 ++ c :: l2).length < fuel) (hptr : ptr ≠ 0)
    (hc : wsub ptr E.BLOCK_META_SIZE = c) (hbc : st.hdr c = some bc)
    (halloc : bc.status = STATUS_ALLOC) (hsz : bc.size < MMAP_THRESHOLD) :
    ∃ st1 k1 s k2 b3, os_free E fuel st ptr = some st1 ∧
      FreeOK E st l1 c l2 bc st1 k1 s k2 b3 := by
  obtain ⟨_, s1, _, _, _, hc1, _, _⟩ := isList_mid hl
  have hf1 : l1.length < fuel := by
    simp only [List.length_append, List.length_cons] at hfuel
    omega
  have hfind := find_loop_spec l1 fuel 0 st.head s1 hc1 hf1
  have hnm : bc.status ≠ STATUS_MAPPED := by rw [halloc]; decide
  unfold os_free
  simp only [if_neg hptr, hc, hfind, hbc, if_neg hnm, hsz, halloc, and_self, if_true]
  exact free_brk_ok E st fuel l1 l2 c bc hl hfuel hbc

theorem noAdjacentFree_iff_chain {h : Nat → Option block_meta} (l : List Nat) :
    ∀ {p}, IsList h p l →
      ((∀ a ∈ l, ∀ b n, h a = some b → b.next ≠ 0 → h b.next = some n →
          ¬ (b.status = STATUS_FREE ∧ n.status = STATUS_FREE)) ↔
        List.Chain' (fun a c => ¬ (IsFree h a ∧ IsFree h c)) l) := by
  induction l with
  | nil => intro p _; simp
  | cons a l ih =>
    intro p hl
    obtain ⟨rfl, h0, b, hb, h1⟩ := hl
    rw [List.chain'_cons', ← ih h1]
    simp only [List.mem_cons, forall_eq_or_imp]
    refine and_congr_left (fun _ => ?_)
    cases l with
    | nil =>
      have hz : b.next = 0 := h1
      constructor
      · intro _ y hy; simp at hy
      · intro _ b2 n hb2 hnz
        rw [hb] at hb2
        cases hb2
        exact absurd hz hnz
    | cons y l =>
      obtain ⟨e, y0, yb, hyb, _⟩ := h1
      constructor
      · intro hh x hx
        simp only [List.head?_cons, Option.mem_def, Option.some.injEq] at hx
        subst hx
        rintro ⟨⟨b2, hb2, hs2⟩, ⟨n2, hn2, hs3⟩⟩
        rw [hb] at hb2
        cases hb2
        rw [hyb] at hn2
        cases hn2
        exact hh b yb hb (by rw [e]; exact y0) (by rw [e]; exact hyb) ⟨hs2, hs3⟩
      · intro hh b2 n hb2 hnz hn hboth
        rw [hb] at hb2
        cases hb2
        rw [e] at hn
        exact hh y (by simp) ⟨⟨b, hb, hboth.1⟩, ⟨n, hn, hboth.2⟩⟩

theorem chain_free_congr {h g : Nat → Option block_meta} {l : List Nat}
    (heq : ∀ a ∈ l, g a = h a)
    (hc : List.Chain' (fun a c => ¬ (IsFree h a ∧ IsFree h c)) l) :
    List.Chain' (fun a c => ¬ (IsFree g a ∧ IsFree g c)) l := by
  rw [List.Chain'.iff_mem] at hc
  refine List.Chain'.imp ?_ hc
  rintro a b ⟨ha, hb, hr⟩
  unfold IsFree at hr ⊢
  rw [heq a ha, heq b hb]
  exact hr

theorem freeOK_noAdjacentFree {E : Env} {st st1 : Heap} {l1 l2 k1 k2 : List Nat} {c s : Nat}
    {bc b3 : block_meta} (hl : IsList st.hdr st.head (l1 ++ c :: l2))
    (ok : FreeOK E st l1 c l2 bc st1 k1 s k2 b3) (hno : NoAdjacentFree st (l1 ++ c :: l2)) :
    NoAdjacentFree st1 (k1 ++ s :: k2) := by
  have hch : List.Chain' (fun a c => ¬ (IsFree st.hdr a ∧ IsFree st.hdr c)) (l1 ++ c :: l2) :=
    (noAdjacentFree_iff_chain _ hl).mp hno
  unfold NoAdjacentFree
  rw [noAdjacentFree_iff_chain _ ok.list]
  obtain ⟨_, _, _, _, _, hc1, hc2, hdis⟩ := isList_mid hl
  obtain ⟨_, _, _, _, _, hs1, hs2, _⟩ := isList_mid ok.list
  obtain ⟨z, shp, shn⟩ := ok.shape
  have hsfree : IsFree st1.hdr s := ⟨b3, ok.hdr, ok.status⟩
  rw [List.chain'_append] at hch
  obtain ⟨ch1, ch2, ch3⟩ := hch
  rw [List.chain'_cons'] at ch2
  obtain ⟨ch4, ch5⟩ := ch2
  -- the blocks before the survivor
  have hk1 : ∀ a ∈ k1, a ∈ l1 := by
    rcases shp with ⟨e, _⟩ | ⟨e, _⟩
    · intro a ha; rw [← e]; exact ha
    · intro a ha; rw [e]; exact List.mem_append_left _ ha
  have hk2 : ∀ a ∈ k2, a ∈ l2 := by
    rcases shn with ⟨e, _⟩ | ⟨nx, nb, e, _⟩
    · intro a ha; rw [← e]; exact ha
    · intro a ha; rw [e]; exact List.mem_cons_of_mem _ ha
  have keep1 : ∀ a ∈ k1, st1.hdr a = st.hdr a := fun a ha =>
    ok.keep a (fun e => hc1 (e ▸ hk1 a ha)) (fun e => hs1 (e ▸ ha))
  have keep2 : ∀ a ∈ k2, st1.hdr a = st.hdr a := fun a ha =>
    ok.keep a (fun e => hc2 (e ▸ hk2 a ha)) (fun e => hs2 (e ▸ ha))
  have notfree1 : ∀ x ∈ k1.getLast?, ¬ IsFree st1.hdr x := by
    intro x hx
    have hx1 : x ∈ k1 := List.mem_of_mem_getLast? hx
    unfold IsFree
    rw [keep1 x hx1]
    rcases shp with ⟨e, _, _, hp⟩ | ⟨e, pb, hpb, hf, _⟩
    · subst e
      exact hp x hx
    · subst e
      rw [List.chain'_append] at ch1
      have := ch1.2.2 x hx s (by simp)
      intro hfx
      exact this ⟨hfx, ⟨pb, hpb, hf⟩⟩
  have notfree2 : ∀ y ∈ k2.head?, ¬ IsFree st1.hdr y := by
    intro y hy
    have hy1 : y ∈ k2 := List.mem_of_mem_head? hy
    unfold IsFree
    rw [keep2 y hy1]
    rcases shn with ⟨e, _, hp⟩ | ⟨nx, nb, e, hnb, hf, _⟩
    · subst e
      exact hp y hy
    · subst e
      rw [List.chain'_cons'] at ch5
      have := ch5.1 y hy
      intro hfy
      exact this ⟨⟨nb, hnb, hf⟩, hfy⟩
  have chk1 : List.Chain' (fun a c => ¬ (IsFree st.hdr a ∧ IsFree st.hdr c)) k1 := by
    rcases shp with ⟨e, _⟩ | ⟨e, _⟩
    · subst e; exact ch1
    · subst e
      rw [List.chain'_append] at ch1
      exact ch1.1
  have chk2 : List.Chain' (fun a c => ¬ (IsFree st.hdr a ∧ IsFree st.hdr c)) k2 := by
    rcases shn with ⟨e, _⟩ | ⟨nx, nb, e, _⟩
    · subst e; exact ch5
    · subst e
      rw [List.chain'_cons'] at ch5
      exact ch5.2
  rw [List.chain'_append]
  refine ⟨chain_free_congr keep1 chk1, ?_, ?_⟩
  · rw [List.chain'_cons']
    exact ⟨fun y hy hboth => notfree2 y hy hboth.2, chain_free_congr keep2 chk2⟩
  · intro x hx y hy hboth
    exact notfree1 x hx hboth.1

/-- C2 (amended): `os_free` of an Allocated block of size below 128 KiB keeps the coalescing
invariant: if the list from head has no Free block followed by a Free block before the call,
then `os_free` returns, and the list from head has none after it.  (The invariant is not
established by `os_free` of a Mapped block, nor kept by the split of `os_realloc`.) -/
theorem free_keeps_coalesced (E : Env) (st : Heap) (fuel ptr : Nat) (l : List Nat)
    (bc : block_meta) (hl : IsList st.hdr st.head l) (hfuel : l.length < fuel) (hptr : ptr ≠ 0)
    (hmem : wsub ptr E.BLOCK_META_SIZE ∈ l) (hbc : st.hdr (wsub ptr E.BLOCK_META_SIZE) = some bc)
    (halloc : bc.status = STATUS_ALLOC) (hsz : bc.size < MMAP_THRESHOLD)
    (hno : NoAdjacentFree st l) :
    ∃ st1 k, os_free E fuel st ptr = some st1 ∧ IsList st1.hdr st1.head k ∧
      NoAdjacentFree st1 k := by
  obtain ⟨l1, l2, _, e, _⟩ := isSeg_split hl hmem
  subst e
  obtain ⟨st1, k1, s, k2, b3, h1, ok⟩ :=
    os_free_brk_ok E st fuel ptr l1 l2 _ bc hl hfuel hptr rfl hbc halloc hsz
  exact ⟨st1, k1 ++ s :: k2, h1, ok.list, freeOK_noAdjacentFree hl ok hno⟩

theorem heap_two_noAdjacentFree : NoAdjacentFree heap_two [4096, 135168] := by
  intro a ha b n hb hnz hn
  simp only [List.mem_cons, List.mem_singleton, List.not_mem_nil, or_false] at ha
  rcases ha with rfl | rfl <;> simp [heap_two, store] at hb <;> subst hb <;> simp at hnz ⊢

theorem free_keeps_coalesced_witness :
    ∃ st1 k, os_free E24 10 heap_two 4120 = some st1 ∧ IsList st1.hdr st1.head k ∧
      NoAdjacentFree st1 k :=
  free_keeps_coalesced E24 heap_two 10 4120 [4096, 135168]
    { size := 8, status := STATUS_ALLOC, next := 135168 } (by decide) (by decide) (by decide)
    (by decide) (by rfl) rfl (by decide) heap_two_noAdjacentFree

/-- C5 (amended): for a block of the list with status Allocated and size below 128 KiB,
`os_free(p)` returns, marks the header of the block Free, and leaves in the list a Free
survivor that is the block itself or the Free list predecessor that absorbed it.  (A block
of 128 KiB or more is left Allocated.) -/
theorem free_marks_free (E : Env) (st : Heap) (fuel ptr : Nat) (l : List Nat)
    (bc : block_meta) (hl : IsList st.hdr st.head l) (hfuel : l.length < fuel) (hptr : ptr ≠ 0)
    (hmem : wsub ptr E.BLOCK_META_SIZE ∈ l) (hbc : st.hdr (wsub ptr E.BLOCK_META_SIZE) = some bc)
    (halloc : bc.status = STATUS_ALLOC) (hsz : bc.size < MMAP_THRESHOLD) :
    ∃ st1 k s bs, os_free E fuel st ptr = some st1 ∧ IsList st1.hdr st1.head k ∧
      s ∈ k ∧ st1.hdr s = some bs ∧ bs.status = STATUS_FREE ∧
      (s = wsub ptr E.BLOCK_META_SIZE ∨
        ∃ pb, st.hdr s = some pb ∧ pb.status = STATUS_FREE ∧
          pb.next = wsub ptr E.BLOCK_META_SIZE) ∧
      (∃ b, st1.hdr (wsub ptr E.BLOCK_META_SIZE) = some b ∧ b.status = STATUS_FREE) ∧
      k.getLast? = some st1.tail := by
  obtain ⟨l1, l2, _, e, _⟩ := isSeg_split hl hmem
  subst e
  obtain ⟨st1, k1, s, k2, b3, h1, ok⟩ :=
    os_free_brk_ok E st fuel ptr l1 l2 _ bc hl hfuel hptr rfl hbc halloc hsz
  refine ⟨st1, k1 ++ s :: k2, s, b3, h1, ok.list, by simp, ok.hdr, ok.status, ?_, ok.freed,
    ok.tail⟩
  obtain ⟨z, shp, _⟩ := ok.shape
  rcases shp with ⟨_, e, _⟩ | ⟨e, pb, hpb, hf, _⟩
  · exact Or.inl e
  · right
    subst e
    obtain ⟨_, s1, _⟩ := isList_mid hl
    rw [isSeg_append] at s1
    obtain ⟨m, _, rfl, _, pb2, hpb2, hnext⟩ := s1
    rw [hpb] at hpb2
    cases hpb2
    exact ⟨pb, hpb, hf, hnext⟩

theorem free_marks_free_witness :
    ∃ st1 k s bs, os_free E24 10 heap_two 4120 = some st1 ∧ IsList st1.hdr st1.head k ∧
      s ∈ k ∧ st1.hdr s = some bs ∧ bs.status = STATUS_FREE ∧
      (s = wsub 4120 E24.BLOCK_META_SIZE ∨
        ∃ pb, heap_two.hdr s = some pb ∧ pb.status = STATUS_FREE ∧
          pb.next = wsub 4120 E24.BLOCK_META_SIZE) ∧
      (∃ b, st1.hdr (wsub 4120 E24.BLOCK_META_SIZE) = some b ∧ b.status = STATUS_FREE) ∧
      k.getLast? = some st1.tail :=
  free_marks_free E24 heap_two 10 4120 [4096, 135168]
    { size := 8, status := STATUS_ALLOC, next := 135168 } (by decide) (by decide) (by decide)
    (by decide) (by rfl) rfl (by decide)

/-! ## Zeroed allocation -/

theorem wf_threshold {E : Env} {st : Heap} {l : List Nat} (wf : WF E st l) (t : Nat) :
    WF E { st with threshold := t } l :=
  ⟨wf.list, wf.tail, wf.size, wf.sep, wf.brk_pos, wf.brk_fresh, wf.mmap_pos, wf.mmap_fresh⟩

theorem init_wf (E : Env) (base mbase : Nat) (hb : base ≠ 0) (hm : mbase ≠ 0) :
    WF E (Heap.init base mbase) [] := by
  refine ⟨rfl, fun h => absurd rfl h, ?_, ?_, hb, ?_, hm, ?_⟩ <;> intro a ha <;> simp at ha

theorem os_calloc_ok (E : Env) (st : Heap) (l : List Nat) (fuel k e : Nat) (wf : WF E st l)
    (hfuel : l.length < fuel) (hE : E.BLOCK_META_SIZE % 8 = 0) (hE0 : 0 < E.BLOCK_META_SIZE)
    (hk : 0 < k) (he : 0 < e) (hfit : k * e + E.BLOCK_META_SIZE + 7 < WORD) :
    ∃ st1 blk l1 b,
      os_calloc E fuel st k e =
        some ({ st1 with bytes := memset st1.bytes (blk + E.BLOCK_META_SIZE) 0 (k * e),
                         threshold := MMAP_THRESHOLD }, blk + E.BLOCK_META_SIZE) ∧
      MallocOK E { st with threshold := E.pagesize } l (k * e)
        (if round_up_8 (k * e) + E.BLOCK_META_SIZE < E.pagesize then STATUS_ALLOC
          else STATUS_MAPPED) st1 blk l1 b := by
  have hmul : wmul e k = k * e := by
    unfold wmul
    rw [Nat.mul_comm e k]
    exact Nat.mod_eq_of_lt (by omega)
  have hpos : 0 < k * e := Nat.mul_pos hk he
  obtain ⟨st1, blk, l1, b, h1, ok⟩ :=
    os_malloc_ok E { st with threshold := E.pagesize } l fuel (k * e)
      (wf_threshold wf _) hfuel hE hE0 hpos hfit
  refine ⟨st1, blk, l1, b, ?_, ok⟩
  unfold os_calloc
  have hk0 : k ≠ 0 := by omega
  have he0 : e ≠ 0 := by omega
  simp only [hk0, he0, or_self, if_false, hmul, h1]

/-- C9 (amended): in a well-formed state, for `k > 0` and `e > 0` whose product satisfies
`k * e + BLOCK_META_SIZE + 7 < 2 ^ 64` (so that neither the product nor the size computations
wrap), `os_calloc(k, e)` returns a pointer to a block whose payload holds at least `k * e`
bytes and whose first `k * e` payload bytes are all zero; the code computes the product as
`(e * k) mod 2 ^ 64`, which here is `k * e`. -/
theorem calloc_zeroed (E : Env) (st : Heap) (l : List Nat) (fuel k e : Nat) (wf : WF E st l)
    (hfuel : l.length < fuel) (hE : E.BLOCK_META_SIZE % 8 = 0) (hE0 : 0 < E.BLOCK_META_SIZE)
    (hk : 0 < k) (he : 0 < e) (hfit : k * e + E.BLOCK_META_SIZE + 7 < WORD) :
    ∃ st1 p b, os_calloc E fuel st k e = some (st1, p) ∧ E.BLOCK_META_SIZE ≤ p ∧
      st1.hdr (p - E.BLOCK_META_SIZE) = some b ∧ k * e ≤ b.size ∧
      (∀ i, i < k * e → st1.bytes (p + i) = 0) ∧ wmul e k = k * e := by
  obtain ⟨st1, blk, l1, b, h1, ok⟩ := os_calloc_ok E st l fuel k e wf hfuel hE hE0 hk he hfit
  refine ⟨_, _, b, h1, by omega, ?_, ok.size_ge, ?_, ?_⟩
  · rw [Nat.add_sub_cancel]; exact ok.hdr
  · intro i hi
    simp only [memset]
    rw [if_pos ⟨by omega, by omega⟩]
  · unfold wmul
    rw [Nat.mul_comm e k]
    exact Nat.mod_eq_of_lt (by omega)

theorem calloc_zeroed_witness :
    ∃ st1 p b, os_calloc E24 10 heap_two 3 5 = some (st1, p) ∧ E24.BLOCK_META_SIZE ≤ p ∧
      st1.hdr (p - E24.BLOCK_META_SIZE) = some b ∧ 3 * 5 ≤ b.size ∧
      (∀ i, i < 3 * 5 → st1.bytes (p + i) = 0) ∧ wmul 5 3 = 3 * 5 :=
  calloc_zeroed E24 heap_two [4096, 135168] 10 3 5 heap_two_wf (by decide) (by decide)
    (by decide) (by decide) (by decide) (by decide)

/-- C10 (amended): in a well-formed state with threshold 128 KiB, `os_calloc` with a zero
argument returns null and leaves the state as it is; with `k > 0`, `e > 0` and
`k * e + BLOCK_META_SIZE + 7 < 2 ^ 64` it returns with the threshold again at 128 KiB, and its
block is Mapped exactly when `round_up_8 (k * e) + BLOCK_META_SIZE` is at least the page size,
whereas the block of a direct `os_malloc(k * e)` is Mapped exactly when that sum is at least
128 KiB. -/
theorem calloc_threshold (E : Env) (st : Heap) (l : List Nat) (fuel k e : Nat) (wf : WF E st l)
    (hfuel : l.length < fuel) (hE : E.BLOCK_META_SIZE % 8 = 0) (hE0 : 0 < E.BLOCK_META_SIZE)
    (hthr : st.threshold = MMAP_THRESHOLD) :
    (k = 0 ∨ e = 0 → os_calloc E fuel st k e = some (st, 0)) ∧
    (0 < k → 0 < e → k * e + E.BLOCK_META_SIZE + 7 < WORD →
      (∃ st1 p b, os_calloc E fuel st k e = some (st1, p) ∧ st1.threshold = MMAP_THRESHOLD ∧
        st1.hdr (p - E.BLOCK_META_SIZE) = some b ∧
        (b.status = STATUS_MAPPED ↔ round_up_8 (k * e) + E.BLOCK_META_SIZE ≥ E.pagesize)) ∧
      (∃ st2 q b2, os_malloc E fuel st (k * e) = some (st2, q) ∧
        st2.threshold = MMAP_THRESHOLD ∧ st2.hdr (q - E.BLOCK_META_SIZE) = some b2 ∧
        (b2.status = STATUS_MAPPED ↔
          round_up_8 (k * e) + E.BLOCK_META_SIZE ≥ MMAP_THRESHOLD))) := by
  constructor
  · intro h
    unfold os_calloc
    rw [if_pos h]
  · intro hk he hfit
    constructor
    · obtain ⟨st1, blk, l1, b, h1, ok⟩ :=
        os_calloc_ok E st l fuel k e wf hfuel hE hE0 hk he hfit
      refine ⟨_, _, b, h1, rfl, ?_, ?_⟩
      · rw [Nat.add_sub_cancel]; exact ok.hdr
      · rw [ok.status]
        by_cases hlt : round_up_8 (k * e) + E.BLOCK_META_SIZE < E.pagesize
        · rw [if_pos hlt]
          constructor
          · intro h; cases h
          · intro h; omega
        · rw [if_neg hlt]
          constructor
          · intro _; omega
          · intro _; rfl
    · obtain ⟨st2, blk, l1, b, h1, ok⟩ :=
        os_malloc_ok E st l fuel (k * e) wf hfuel hE hE0 (Nat.mul_pos hk he) hfit
      refine ⟨_, _, b, h1, by rw [ok.threshold, hthr], ?_, ?_⟩
      · rw [Nat.add_sub_cancel]; exact ok.hdr
      · rw [ok.status, hthr]
        by_cases hlt : round_up_8 (k * e) + E.BLOCK_META_SIZE < MMAP_THRESHOLD
        · rw [if_pos hlt]
          constructor
          · intro h; cases h
          · intro h; omega
        · rw [if_neg hlt]
          constructor
          · intro _; omega
          · intro _; rfl

theorem calloc_threshold_witness :
    (∃ st1 p b, os_calloc E24 10 (Heap.init 4096 (2 ^ 32)) 1 8192 = some (st1, p) ∧
        st1.threshold = MMAP_THRESHOLD ∧ st1.hdr (p - E24.BLOCK_META_SIZE) = some b ∧
        (b.status = STATUS_MAPPED ↔ round_up_8 (1 * 8192) + E24.BLOCK_META_SIZE ≥ E24.pagesize)) ∧
    (∃ st2 q b2, os_malloc E24 10 (Heap.init 4096 (2 ^ 32)) (1 * 8192) = some (st2, q) ∧
        st2.threshold = MMAP_THRESHOLD ∧ st2.hdr (q - E24.BLOCK_META_SIZE) = some b2 ∧
        (b2.status = STATUS_MAPPED ↔
          round_up_8 (1 * 8192) + E24.BLOCK_META_SIZE ≥ MMAP_THRESHOLD)) :=
  (calloc_threshold E24 (Heap.init 4096 (2 ^ 32)) [] 10 1 8192
    (init_wf E24 4096 (2 ^ 32) (by decide) (by decide)) (by decide) (by decide) (by decide)
    rfl).2 (by decide) (by decide) (by decide)

/-! ## Growing by relocation -/

theorem os_free_mapped_ok (E : Env) (st : Heap) (fuel ptr : Nat) (l1 l2 : List Nat) (c : Nat)
    (bc : block_meta) (hl : IsList st.hdr st.head (l1 ++ c :: l2))
    (hfuel : (l1 ++ c :: l2).length < fuel) (hptr : ptr ≠ 0)
    (hc : wsub ptr E.BLOCK_META_SIZE = c) (hbc : st.hdr c = some bc)
    (hm : bc.status = STATUS_MAPPED)
    (hsep : ∀ a ∈ l1 ++ l2, ¬ (c ≤ a ∧ a < c + wadd bc.size E.BLOCK_META_SIZE)) :
    ∃ st1, os_free E fuel st ptr = some st1 ∧ IsList st1.hdr st1.head (l1 ++ l2) ∧
      (∀ a ∈ l1 ++ l2, ∃ b0 b1, st.hdr a = some b0 ∧ st1.hdr a = some b1 ∧
        b1.size = b0.size ∧ b1.status = b0.status) ∧
      (∀ a, c ≤ a ∧ a < c + wadd bc.size E.BLOCK_META_SIZE → st1.hdr a = none) ∧
      st1.bytes = st.bytes ∧ st1.tail = st.tail ∧ st1.brk = st.brk ∧
      st1.mmap_next = st.mmap_next ∧ st1.threshold = st.threshold := by
  obtain ⟨bc2, s1, c0, hbc2, s2, hc1, hc2, hdis⟩ := isList_mid hl
  rw [hbc] at hbc2
  cases hbc2
  have hf1 : l1.length < fuel := by
    simp only [List.length_append, List.length_cons] at hfuel
    omega
  have hfind := find_loop_spec l1 fuel 0 st.head s1 hc1 hf1
  unfold os_free
  simp only [if_neg hptr, hc, hfind, hbc, hm, if_true]
  unfold free_mapped
  have hkeep : ∀ a ∈ l1 ++ l2, a ≠ c ∧ ¬ (c ≤ a ∧ a < c + wadd bc.size E.BLOCK_META_SIZE) := by
    intro a ha
    refine ⟨?_, hsep a ha⟩
    rcases List.mem_append.mp ha with h1 | h1
    · exact fun e => hc1 (e ▸ h1)
    · exact fun e => hc2 (e ▸ h1)
  cases hlast : l1.getLast? with
  | none =>
    have e1 : l1 = [] := List.getLast?_eq_none_iff.mp hlast
    subst e1
    have hhead : c = st.head := s1.symm
    simp only [Option.getD_none, if_pos hhead]
    rw [← hhead, store_same]
    have hval : ∀ a ∈ l2, unmap (store st.hdr c { bc with status := STATUS_FREE }) c
        (wadd bc.size E.BLOCK_META_SIZE) a = st.hdr a := by
      intro a ha
      have := hkeep a (by simpa using ha)
      rw [unmap_other _ this.2, store_other _ _ this.1]
    refine ⟨_, rfl, ?_, ?_, ?_, rfl, rfl, rfl, rfl, rfl⟩
    · exact isSeg_congr (fun a ha => (hval a ha).symm) s2
    · intro a ha
      obtain ⟨_, b0, hb0⟩ := isList_hdr s2 (by simpa using ha)
      exact ⟨b0, b0, hb0, by rw [← hb0]; exact hval a (by simpa using ha), rfl, rfl⟩
    · intro a ha
      simp only [unmap, if_pos ha]
  | some pv =>
    have e : l1.dropLast ++ [pv] = l1 := List.dropLast_append_getLast? pv hlast
    have s1b : IsSeg st.hdr st.head (l1.dropLast ++ [pv]) c := by rw [e]; exact s1
    rw [isSeg_append] at s1b
    obtain ⟨m, t1, rfl, pv0, pb, hpb, t2⟩ := s1b
    have hnext : pb.next = c := t2
    have hm1 : m ∈ l1 := by rw [← e]; simp
    have hmc : m ≠ c := fun e2 => hc1 (e2 ▸ hm1)
    have hhead : c ≠ st.head := by
      intro e2
      apply hc1
      rw [e2]
      cases hl1 : l1 with
      | nil => rw [hl1] at hm1; simp at hm1
      | cons x xs =>
        rw [hl1] at s1
        obtain ⟨e3, _⟩ := s1
        rw [e3]
        simp
    simp only [Option.getD_some, if_neg hhead, store_other _ _ hmc, hpb]
    have hnd := isList_nodup hl
    rw [← e] at hnd
    have hmd : m ∉ l1.dropLast := by
      intro hin
      exact (List.nodup_append.mp (List.nodup_append.mp hnd).1).2.2 hin
        (List.mem_singleton_self _)
    have hm2 : m ∉ l2 := hdis m hm1
    have hval : ∀ a ∈ l1 ++ l2, a ≠ m →
        unmap (store (store st.hdr c { bc with status := STATUS_FREE }) m
          { pb with next := bc.next }) c (wadd bc.size E.BLOCK_META_SIZE) a = st.hdr a := by
      intro a ha ham
      have := hkeep a ha
      rw [unmap_other _ this.2, store_other _ _ ham, store_other _ _ this.1]
    have hvalm : unmap (store (store st.hdr c { bc with status := STATUS_FREE }) m
          { pb with next := bc.next }) c (wadd bc.size E.BLOCK_META_SIZE) m =
        some { pb with next := bc.next } := by
      have := hkeep m (List.mem_append_left _ hm1)
      rw [unmap_other _ this.2, store_same]
    refine ⟨_, rfl, ?_, ?_, ?_, rfl, rfl, rfl, rfl, rfl⟩
    · show IsSeg _ _ _ 0
      rw [← e, List.append_assoc, isSeg_append]
      refine ⟨m, ?_, rfl, pv0, _, hvalm, ?_⟩
      · refine isSeg_congr (fun a ha => ?_) t1
        have ha1 : a ∈ l1 ++ l2 := by
          rw [← e]
          exact List.mem_append_left _ (List.mem_append_left _ ha)
        exact (hval a ha1 (fun e2 => hmd (e2 ▸ ha))).symm
      · refine isSeg_congr (fun a ha => ?_) s2
        exact (hval a (List.mem_append_right _ ha) (fun e2 => hm2 (e2 ▸ ha))).symm
    · intro a ha
      by_cases ham : a = m
      · subst ham
        exact ⟨pb, _, hpb, hvalm, rfl, rfl⟩
      · have hmem : a ∈ l1 ++ c :: l2 := by
          rcases List.mem_append.mp ha with h1 | h1
          · exact List.mem_append_left _ h1
          · exact List.mem_append_right _ (List.mem_cons_of_mem _ h1)
        obtain ⟨_, b0, hb0⟩ := isList_hdr hl hmem
        exact ⟨b0, b0, hb0, by rw [← hb0]; exact hval a ha ham, rfl, rfl⟩
    · intro a ha
      simp only [unmap, if_pos ha]

/-- A relocation that the no-overlap condition excludes.  After `os_calloc(1, 8192)`,
`os_malloc(8)`, `os_realloc` of the Mapped block to 4000 bytes and the release of the small
block, the list is 4128, 4096 and its Free tail at 4096 lies below the block at 4128.  For
`os_realloc(4152, 5000)` the allocation extends that tail to 5000 bytes, over the block that
is being moved; the two ranges of the copy overlap, and the model gives no result. -/
theorem relocation_into_overlapping_block :
    ∃ st live, run E24 10 fresh [Call.calloc 1 8192, Call.malloc 8,
        Call.realloc 4294967320 4000, Call.free 4120] = some (st, live) ∧
      live = [4152] ∧ IsList st.hdr st.head [4128, 4096] ∧ st.tail = 4096 ∧
      (os_malloc E24 10 st 5000).map (fun r => (r.2, r.1.hdr 4096, r.1.hdr 4128)) =
        some (4120, some { size := 5000, status := STATUS_ALLOC, next := 0 },
          some { size := 4000, status := STATUS_ALLOC, next := 4096 }) ∧
      (4096 ≤ 4128 ∧ 4128 < 4096 + E24.BLOCK_META_SIZE + 5000) ∧
      os_realloc E24 10 st 4152 5000 = none := by
  refine ⟨_, _, rfl, by rfl, by decide, by rfl, by rfl, by decide, by rfl⟩

/-! ## First fit -/

/-- C15: on a list from head (so acyclic), with enough fuel for its length, `search_block(s)`
either returns the first block in list order that is Free and of size at least `s` (no block
before it is both), changing only that block's status to Allocated, or returns null and
changes nothing, when no block is both Free and of size at least `s`; it returns null exactly
in that case.  The block returned had status Free, never Mapped or Allocated. -/
theorem search_block_first_fit (st : Heap) (fuel s : Nat) (l : List Nat)
    (hl : IsList st.hdr st.head l) (hfuel : l.length < fuel) :
    ((∃ c l1 l2 bc, l = l1 ++ c :: l2 ∧ c ≠ 0 ∧ st.hdr c = some bc ∧
        bc.status = STATUS_FREE ∧ s ≤ bc.size ∧ NoFit st.hdr s l1 ∧
        search_block fuel st s =
          some ({ st with hdr := store st.hdr c { bc with status := STATUS_ALLOC } }, c)) ∨
      (NoFit st.hdr s l ∧ search_block fuel st s = some (st, 0))) ∧
    ((∃ st1, search_block fuel st s = some (st1, 0)) ↔ NoFit st.hdr s l) := by
  have key : (∃ c l1 l2 bc, l = l1 ++ c :: l2 ∧ c ≠ 0 ∧ st.hdr c = some bc ∧
        bc.status = STATUS_FREE ∧ s ≤ bc.size ∧ NoFit st.hdr s l1 ∧
        search_block fuel st s =
          some ({ st with hdr := store st.hdr c { bc with status := STATUS_ALLOC } }, c)) ∨
      (NoFit st.hdr s l ∧ search_block fuel st s = some (st, 0)) := by
    rcases search_loop_spec s l fuel st.head hl hfuel with
      ⟨c, l1, l2, bc, e1, c0, e2, hbc, hs, hz, hno⟩ | ⟨e1, hno⟩
    · exact Or.inl ⟨c, l1, l2, bc, e2, c0, hbc, hs, hz, hno, search_block_found e1 c0 hbc⟩
    · exact Or.inr ⟨hno, search_block_none e1⟩
  refine ⟨key, ?_, ?_⟩
  · rintro ⟨st1, h1⟩
    rcases key with ⟨c, l1, l2, bc, _, c0, _, _, _, _, h2⟩ | ⟨hno, _⟩
    · rw [h2] at h1
      simp only [Option.some.injEq, Prod.mk.injEq] at h1
      exact absurd h1.2 c0
    · exact hno
  · intro hno
    rcases key with ⟨c, l1, l2, bc, e, _, hbc, hs, hz, _, _⟩ | ⟨_, h2⟩
    · exact absurd ⟨hs, hz⟩ (hno c (by rw [e]; simp) bc hbc)
    · exact ⟨st, h2⟩

theorem search_block_first_fit_witness :
    ((∃ c l1 l2 bc, [4096, 135168] = l1 ++ c :: l2 ∧ c ≠ 0 ∧ heap_two.hdr c = some bc ∧
        bc.status = STATUS_FREE ∧ 8 ≤ bc.size ∧ NoFit heap_two.hdr 8 l1 ∧
        search_block 10 heap_two 8 =
          some ({ heap_two with
                    hdr := store heap_two.hdr c { bc with status := STATUS_ALLOC } }, c)) ∨
      (NoFit heap_two.hdr 8 [4096, 135168] ∧ search_block 10 heap_two 8 = some (heap_two, 0))) ∧
    ((∃ st1, search_block 10 heap_two 8 = some (st1, 0)) ↔
      NoFit heap_two.hdr 8 [4096, 135168]) :=
  search_block_first_fit heap_two 10 8 [4096, 135168] (by decide) (by decide)

/-! ## The split rule -/

theorem search_loop_first {h : Nat → Option block_meta} {size c : Nat} {bc : block_meta}
    (l1 : List Nat) :
    ∀ (fuel p : Nat), IsSeg h p l1 c → NoFit h size l1 → c ≠ 0 → h c = some bc →
      bc.status = STATUS_FREE → size ≤ bc.size → l1.length < fuel →
      search_loop h size fuel p = some c := by
  induction l1 with
  | nil =>
    intro fuel p hs _ c0 hbc hf hz hfu
    have hp : p = c := hs
    subst hp
    cases fuel with
    | zero => simp at hfu
    | succ k =>
      simp only [search_loop, if_neg c0, hbc]
      rw [if_pos ⟨hf, hz⟩]
  | cons a l1 ih =>
    intro fuel p hs hno c0 hbc hf hz hfu
    obtain ⟨rfl, h0, b, hb, h1⟩ := hs
    cases fuel with
    | zero => simp at hfu
    | succ k =>
      have hnf := hno p (List.mem_cons_self _ _) b hb
      simp only [search_loop, if_neg h0, hb]
      rw [if_neg hnf]
      exact ih k b.next h1 (fun x hx => hno x (List.mem_cons_of_mem _ hx)) c0 hbc hf hz
        (by simpa using hfu)

theorem pad_size_mod (x : Nat) (hx : x < WORD) : pad_size x % 8 = 0 ∧ pad_size x < WORD := by
  rw [pad_size_wrap x hx]
  simp only [WORD_eq]
  unfold round_up_8
  omega

theorem malloc_reuse_split (E : Env) (st : Heap) (fuel n : Nat) (l1 l2 : List Nat) (c : Nat)
    (bc : block_meta) (hE : E.BLOCK_META_SIZE % 8 = 0) (hE0 : 0 < E.BLOCK_META_SIZE)
    (hn0 : n ≠ 0) (hn : n < WORD) (hl : IsList st.hdr st.head (l1 ++ c :: l2))
    (hfuel : (l1 ++ c :: l2).length < fuel) (hno : NoFit st.hdr (pad_size n) l1)
    (hbc : st.hdr c = some bc) (hfree : bc.status = STATUS_FREE)
    (hsz : pad_size n ≤ bc.size) (h8 : bc.size % 8 = 0) (hw : bc.size < WORD)
    (hroute : pad_size (wadd n E.BLOCK_META_SIZE) < st.threshold) :
    ∃ st1, os_malloc E fuel st n = some (st1, c + E.BLOCK_META_SIZE) ∧
      SplitOutcome E st st1 c bc.size (pad_size n) STATUS_ALLOC bc.next := by
  obtain ⟨_, s1, c0, _, _, _, _, _⟩ := isList_mid hl
  have hf1 : l1.length < fuel := by
    simp only [List.length_append, List.length_cons] at hfuel
    omega
  have hsearch := search_loop_first l1 fuel st.head s1 hno c0 hbc hfree hsz hf1
  have hhead : st.head ≠ 0 := by
    intro e
    have := (isList_head_zero hl).mp e
    simp at this
  have hpm := pad_size_mod n hn
  have hws : wsub bc.size (pad_size n) = bc.size - pad_size n := wsub_eq _ _ hsz hw
  unfold os_malloc malloc_brk
  simp only [if_neg hn0, if_pos hroute, hhead, false_and, if_false]
  rw [search_block_found hsearch c0 hbc]
  simp only [ne_eq, c0, not_false_eq_true, if_true]
  unfold reuse_block
  simp only [store_same, hws]
  by_cases hsplit : bc.size - pad_size n > E.BLOCK_META_SIZE + 1
  · have hge : bc.size - pad_size n ≥ E.BLOCK_META_SIZE + 1 := by omega
    have hw2 : wsub (bc.size - pad_size n) E.BLOCK_META_SIZE =
        bc.size - pad_size n - E.BLOCK_META_SIZE := wsub_eq _ _ (by omega) (by omega)
    have hnc : c ≠ c + E.BLOCK_META_SIZE + pad_size n := by omega
    simp only [if_pos hge, hw2, store_other _ _ hnc, store_same]
    refine ⟨_, rfl, rfl, rfl, rfl, rfl, ?_⟩
    rw [if_pos hsplit]
    refine ⟨store_same _ _ _, ?_, ?_, by omega⟩
    · simp only []
      rw [store_other _ _ (Ne.symm hnc), store_same]
    · intro a ha1 ha2
      simp [store, ha1, ha2]
  · have hlt : ¬ bc.size - pad_size n ≥ E.BLOCK_META_SIZE + 1 := by omega
    simp only [if_neg hlt]
    refine ⟨_, rfl, rfl, rfl, rfl, rfl, ?_⟩
    rw [if_neg hsplit]
    refine ⟨store_same _ _ _, ?_⟩
    intro a ha
    simp [store, ha]

theorem realloc_shrink_split (E : Env) (st : Heap) (fuel n ptr : Nat) (b : block_meta)
    (hn0 : n ≠ 0) (hptr : ptr ≠ 0) (hE0 : 0 < E.BLOCK_META_SIZE)
    (hb : st.hdr (wsub ptr E.BLOCK_META_SIZE) = some b) (hnm : b.status ≠ STATUS_MAPPED)
    (hsz : pad_size n ≤ b.size) (hw : b.size < WORD) :
    ∃ st1, os_realloc E fuel st ptr n = some (st1, ptr) ∧
      SplitOutcome E st st1 (wsub ptr E.BLOCK_META_SIZE) b.size (pad_size n) b.status
        b.next := by
  have hws : wsub b.size (pad_size n) = b.size - pad_size n := wsub_eq _ _ hsz hw
  have hng : ¬ pad_size n > b.size := by omega
  unfold os_realloc
  simp only [if_neg hn0, if_neg hptr, hb, if_neg hng, hws, ne_eq, hnm, not_false_eq_true,
    true_and, if_false]
  by_cases hsplit : b.size - pad_size n > E.BLOCK_META_SIZE + 1
  · have hw2 : wsub (b.size - pad_size n) E.BLOCK_META_SIZE =
        b.size - pad_size n - E.BLOCK_META_SIZE := wsub_eq _ _ (by omega) (by omega)
    have hnc : wsub ptr E.BLOCK_META_SIZE ≠
        wsub ptr E.BLOCK_META_SIZE + pad_size n + E.BLOCK_META_SIZE := by omega
    have hadd : wsub ptr E.BLOCK_META_SIZE + pad_size n + E.BLOCK_META_SIZE =
        wsub ptr E.BLOCK_META_SIZE + E.BLOCK_META_SIZE + pad_size n := by omega
    simp only [if_pos hsplit, hw2, store_other _ _ hnc, hb]
    refine ⟨_, rfl, rfl, rfl, rfl, rfl, ?_⟩
    rw [if_pos hsplit]
    rw [← hadd]
    refine ⟨store_same _ _ _, ?_, ?_, by omega⟩
    · simp only []
      rw [store_other _ _ (Ne.symm hnc), store_same]
    · intro a ha1 ha2
      simp [store, ha1, ha2]
  · simp only [if_neg hsplit]
    refine ⟨st, rfl, rfl, rfl, rfl, rfl, ?_⟩
    rw [if_neg hsplit]
    exact ⟨hb, fun _ _ => rfl⟩

theorem heap_pair_reached :
    (run E24 10 fresh [Call.malloc 100, Call.malloc 100, Call.free 135192]).map
        (fun s => (s.2, s.1.head, s.1.tail, s.1.brk, s.1.mmap_next, s.1.threshold,
          s.1.hdr 4096, s.1.hdr 135168)) =
      some ([4120], heap_pair.head, heap_pair.tail, heap_pair.brk, heap_pair.mmap_next,
        heap_pair.threshold, heap_pair.hdr 4096, heap_pair.hdr 135168) := by
  rfl

/-- C16: with `BLOCK_META_SIZE` a positive multiple of 8 and block sizes that are multiples
of 8, both call sites apply the same split rule.  When `os_malloc` reuses the first fitting
Free block `c` of size `z` for the aligned request `s = pad_size n`, and when `os_realloc`
shrinks a block that is not Mapped of size `z` to `s`, the block is split exactly when
`z - s > BLOCK_META_SIZE + 1`: the original keeps size `s` and links to a new Free block of
size `z - s - BLOCK_META_SIZE` at `block + BLOCK_META_SIZE + s` whose `next` is the old `next`
(sizes plus headers add up to the old total); otherwise the block keeps size `z`. -/
theorem split_rule (E : Env) (st : Heap) (fuel n : Nat) (hE : E.BLOCK_META_SIZE % 8 = 0)
    (hE0 : 0 < E.BLOCK_META_SIZE) (hn0 : n ≠ 0) (hn : n < WORD) :
    (∀ (l1 l2 : List Nat) (c : Nat) (bc : block_meta),
      IsList st.hdr st.head (l1 ++ c :: l2) → (l1 ++ c :: l2).length < fuel →
      NoFit st.hdr (pad_size n) l1 → st.hdr c = some bc → bc.status = STATUS_FREE →
      pad_size n ≤ bc.size → bc.size % 8 = 0 → bc.size < WORD →
      pad_size (wadd n E.BLOCK_META_SIZE) < st.threshold →
      ∃ st1, os_malloc E fuel st n = some (st1, c + E.BLOCK_META_SIZE) ∧
        SplitOutcome E st st1 c bc.size (pad_size n) STATUS_ALLOC bc.next) ∧
    (∀ (ptr : Nat) (b : block_meta), ptr ≠ 0 →
      st.hdr (wsub ptr E.BLOCK_META_SIZE) = some b → b.status ≠ STATUS_MAPPED →
      pad_size n ≤ b.size → b.size % 8 = 0 → b.size < WORD →
      ∃ st1, os_realloc E fuel st ptr n = some (st1, ptr) ∧
        SplitOutcome E st st1 (wsub ptr E.BLOCK_META_SIZE) b.size (pad_size n) b.status
          b.next) := by
  constructor
  · intro l1 l2 c bc hl hfuel hno hbc hfree hsz h8 hw hroute
    exact malloc_reuse_split E st fuel n l1 l2 c bc hE hE0 hn0 hn hl hfuel hno hbc hfree hsz
      h8 hw hroute
  · intro ptr b hptr hb hnm hsz _ hw
    exact realloc_shrink_split E st fuel n ptr b hn0 hptr hE0 hb hnm hsz hw

theorem split_rule_witness :
    (∃ st1, os_malloc E24 10 heap_pair 40 = some (st1, 135168 + E24.BLOCK_META_SIZE) ∧
        SplitOutcome E24 heap_pair st1 135168 104 (pad_size 40) STATUS_ALLOC 0) ∧
    (∃ st1, os_realloc E24 10 heap_pair 4120 40 = some (st1, 4120) ∧
        SplitOutcome E24 heap_pair st1 (wsub 4120 E24.BLOCK_META_SIZE) 104 (pad_size 40)
          STATUS_ALLOC 135168) :=
  ⟨(split_rule E24 heap_pair 10 40 (by decide) (by decide) (by decide) (by decide)).1
      [4096] [] 135168 { size := 104, status := STATUS_FREE, next := 0 } (by decide)
      (by decide)
      (by
        intro a ha b hb
        simp only [List.mem_singleton] at ha
        subst ha
        simp [heap_pair, store] at hb
        subst hb
        simp)
      (by rfl) rfl (by decide) (by decide) (by decide) (by decide),
   (split_rule E24 heap_pair 10 40 (by decide) (by decide) (by decide) (by decide)).2
      4120 { size := 104, status := STATUS_ALLOC, next := 135168 } (by decide) (by rfl)
      (by decide) (by decide) (by decide) (by decide)⟩

/-! ## Tail extension -/

/-- C17: in a well-formed state (the list from head ends at tail, sizes are multiples of 8) in
which the request `n`, routed to the break (`round_up_8 n + BLOCK_META_SIZE < threshold`),
finds no Free block of size at least `s = round_up_8 n` and the tail block is Free,
`os_malloc(n)` moves the break up by exactly `s - tail.size`, a positive amount (`tail.size`
is below `n`, so `size - tail->size` does not wrap), sets the size of the tail block to `s`
and its status to Allocated, changes no other header and adds no block to the list, and
returns the payload pointer of the tail block.  (The statement `return ++tail;` leaves the
global `tail` at that payload pointer.) -/
theorem tail_extension (E : Env) (st : Heap) (l : List Nat) (fuel n : Nat) (t : block_meta)
    (wf : WF E st l) (hfuel : l.length < fuel) (hE : E.BLOCK_META_SIZE % 8 = 0)
    (hn : 0 < n) (hroute : round_up_8 n + E.BLOCK_META_SIZE < st.threshold)
    (hthr : st.threshold ≤ WORD) (hne : l ≠ []) (hno : NoFit st.hdr (round_up_8 n) l)
    (ht : st.hdr st.tail = some t) (hfree : t.status = STATUS_FREE)
    (hbrk : st.brk + (round_up_8 n - t.size) < WORD) :
    ∃ st1, os_malloc E fuel st n = some (st1, st.tail + E.BLOCK_META_SIZE) ∧
      t.size < n ∧ wsub n t.size = n - t.size ∧ 0 < round_up_8 n - t.size ∧
      st1.brk = st.brk + (round_up_8 n - t.size) ∧
      st1.hdr st.tail = some { t with size := round_up_8 n, status := STATUS_ALLOC } ∧
      (∀ a, a ≠ st.tail → st1.hdr a = st.hdr a) ∧
      IsList st1.hdr st1.head l ∧ st1.head = st.head ∧
      st1.tail = st.tail + E.BLOCK_META_SIZE := by
  have hfit : n + E.BLOCK_META_SIZE + 7 < WORD := by
    have h1 : round_up_8 n + E.BLOCK_META_SIZE < WORD := lt_of_lt_of_le hroute hthr
    simp only [WORD_eq] at *
    unfold round_up_8 at h1
    omega
  have hpe : pad_size n = round_up_8 n := pad_size_eq n (by omega)
  have hp := pad_size_bounds n (by omega : n + 7 < WORD)
  rw [hpe] at hp
  obtain ⟨_, h1, _⟩ := os_malloc_route E fuel st n hE hn hfit
  have hlast := wf.tail hne
  have hmem : st.tail ∈ l := List.mem_of_mem_getLast? hlast
  have hsz := wf.size st.tail hmem t ht
  have hlt : t.size < round_up_8 n := by
    have := hno st.tail hmem t ht
    by_contra hc
    exact this ⟨hfree, by omega⟩
  have hle : t.size < n := by omega
  have hw : wsub n t.size = n - t.size := wsub_eq n t.size (by omega) (by omega)
  have hinc : pad_size (wsub n t.size) = round_up_8 n - t.size := by
    rw [hw, pad_size_eq _ (by omega)]
    unfold round_up_8
    omega
  have hsum : wadd t.size (round_up_8 n - t.size) = round_up_8 n := by
    rw [wadd_eq _ _ (by omega)]
    omega
  have hhead : st.head ≠ 0 := fun e => hne ((isList_head_zero wf.list).mp e)
  have hsearch : search_loop st.hdr (round_up_8 n) fuel st.head = some 0 := by
    rcases search_loop_spec (round_up_8 n) l fuel st.head wf.list hfuel with
      ⟨c, l1, l2, bc, _, _, e2, hbc, hs, hz, _⟩ | ⟨e1, _⟩
    · exact absurd ⟨hs, hz⟩ (hno c (by rw [e2]; simp) bc hbc)
    · exact e1
  rw [h1 hroute]
  unfold malloc_brk
  simp only [hhead, false_and, if_false, hpe]
  rw [search_block_none hsearch]
  simp only [ne_eq, not_true_eq_false, if_false, ht, if_pos hfree]
  unfold extend_tail
  simp only [if_neg wf.brk_pos, hinc, hsum, wadd_eq _ _ hbrk]
  refine ⟨_, rfl, hle, hw, by omega, rfl, store_same _ _ _, fun a ha => store_other _ _ ha,
    ?_, rfl, rfl⟩
  exact isSeg_store_next ht rfl wf.list

theorem tail_extension_witness :
    ∃ st1, os_malloc E24 10 heap_two 100 = some (st1, heap_two.tail + E24.BLOCK_META_SIZE) ∧
      st1.brk = heap_two.brk + (round_up_8 100 - 8) ∧
      st1.hdr heap_two.tail = some { size := round_up_8 100, status := STATUS_ALLOC, next := 0 } ∧
      IsList st1.hdr st1.head [4096, 135168] := by
  obtain ⟨st1, h1, _, _, _, h2, h3, _, h4, _⟩ :=
    tail_extension E24 heap_two [4096, 135168] 10 100
      { size := 8, status := STATUS_FREE, next := 0 } heap_two_wf (by decide) (by decide)
      (by decide) (by decide) (by decide) (by decide)
      (by
        intro a ha b hb
        simp only [List.mem_cons, List.mem_singleton, List.not_mem_nil, or_false] at ha
        rcases ha with rfl | rfl <;> simp [heap_two, store] at hb <;> subst hb <;> decide)
      (by rfl) rfl (by decide)
  exact ⟨st1, h1, h2, h3, h4⟩

/-! ## The Mapped branch of `os_realloc` -/

theorem realloc_mapped_runs (E : Env) (st : Heap) (ptr block n : Nat) (b : block_meta)
    (hb : st.hdr block = some b) (hbrk : st.brk ≠ 0) :
    ∃ st1, realloc_mapped E st ptr block b n = some (st1, st.brk + E.BLOCK_META_SIZE) ∧
      st1.bytes = memcpy st.bytes (st.brk + E.BLOCK_META_SIZE) ptr (pad_size n) ∧
      st1.brk = wadd st.brk MMAP_THRESHOLD ∧ st1.tail = st.tail ∧
      st1.head = (if st.head = block then st.brk else st.head) := by
  unfold realloc_mapped
  simp only [if_neg hbrk]
  by_cases e : block = st.brk
  · rw [e, store_same]
    exact ⟨_, rfl, rfl, rfl, rfl, rfl⟩
  · rw [store_other _ _ e, hb]
    exact ⟨_, rfl, rfl, rfl, rfl, rfl⟩

/-- C20 (amended): the Mapped branch of `os_realloc` is reached only when the block does not
grow.  For `n ≠ 0` and a non-null pointer whose block has the header `b`: when
`pad_size n > b.size` the call runs the growing code (absorb the next block, or allocate,
copy and free) and not the Mapped branch; when `pad_size n ≤ b.size` and `b` is Mapped it runs
the Mapped branch, which takes 128 KiB from the break and copies `pad_size n` bytes, at most
the size of the old payload; when `pad_size n ≤ b.size` and `b` is not Mapped it returns the
pointer it was given. -/
theorem mapped_branch_not_growing (E : Env) (fuel : Nat) (st : Heap) (ptr n : Nat)
    (b : block_meta) (hn : n ≠ 0) (hptr : ptr ≠ 0)
    (hb : st.hdr (wsub ptr E.BLOCK_META_SIZE) = some b) :
    (pad_size n > b.size →
      os_realloc E fuel st ptr n =
        match realloc_absorb E st (wsub ptr E.BLOCK_META_SIZE) b n with
        | none => none
        | some (some st1) => some (st1, ptr)
        | some none => realloc_move E fuel st ptr (wsub ptr E.BLOCK_META_SIZE) n) ∧
    (pad_size n ≤ b.size → b.status = STATUS_MAPPED →
      os_realloc E fuel st ptr n =
        realloc_mapped E st ptr (wsub ptr E.BLOCK_META_SIZE) b n ∧
      (st.brk ≠ 0 →
        ∃ st1, os_realloc E fuel st ptr n = some (st1, st.brk + E.BLOCK_META_SIZE) ∧
          st1.bytes = memcpy st.bytes (st.brk + E.BLOCK_META_SIZE) ptr (pad_size n) ∧
          st1.brk = wadd st.brk MMAP_THRESHOLD)) ∧
    (pad_size n ≤ b.size → b.status ≠ STATUS_MAPPED →
      ∃ st1, os_realloc E fuel st ptr n = some (st1, ptr)) := by
  refine ⟨?_, ?_, ?_⟩
  · intro hg
    unfold os_realloc
    simp only [if_neg hn, if_neg hptr, hb, if_pos hg]
  · intro hle hm
    have hng : ¬ pad_size n > b.size := by omega
    have heq : os_realloc E fuel st ptr n =
        realloc_mapped E st ptr (wsub ptr E.BLOCK_META_SIZE) b n := by
      unfold os_realloc
      simp only [if_neg hn, if_neg hptr, hb, if_neg hng, hm, ne_eq, not_true_eq_false,
        false_and, if_false, if_true]
    refine ⟨heq, fun hbrk => ?_⟩
    obtain ⟨st1, h1, h2, h3, _⟩ :=
      realloc_mapped_runs E st ptr (wsub ptr E.BLOCK_META_SIZE) n b hb hbrk
    exact ⟨st1, by rw [heq]; exact h1, h2, h3⟩
  · intro hle hnm
    have hng : ¬ pad_size n > b.size := by omega
    unfold os_realloc
    simp only [if_neg hn, if_neg hptr, hb, if_neg hng, ne_eq, hnm, not_false_eq_true,
      true_and, if_false]
    split_ifs with hsplit
    · by_cases e : wsub ptr E.BLOCK_META_SIZE =
          wsub ptr E.BLOCK_META_SIZE + pad_size n + E.BLOCK_META_SIZE
      · rw [← e, store_same]
        exact ⟨_, rfl⟩
      · rw [store_other _ _ e, hb]
        exact ⟨_, rfl⟩
    · exact ⟨_, rfl⟩

theorem heap_mapped_reached :
    (run E24 10 fresh [Call.calloc 1 8192]).map
        (fun s => (s.2, s.1.head, s.1.tail, s.1.brk, s.1.mmap_next, s.1.threshold,
          s.1.hdr 4294967296)) =
      some ([4294967320], heap_mapped.head, heap_mapped.tail, heap_mapped.brk,
        heap_mapped.mmap_next, heap_mapped.threshold, heap_mapped.hdr 4294967296) := by
  rfl

theorem mapped_branch_not_growing_witness :
    os_realloc E24 10 heap_mapped 4294967320 4000 =
        realloc_mapped E24 heap_mapped 4294967320 (wsub 4294967320 E24.BLOCK_META_SIZE)
          { size := 8192, status := STATUS_MAPPED, next := 0 } 4000 ∧
      ∃ st1, os_realloc E24 10 heap_mapped 4294967320 4000 =
          some (st1, heap_mapped.brk + E24.BLOCK_META_SIZE) ∧
        st1.bytes = memcpy heap_mapped.bytes (heap_mapped.brk + E24.BLOCK_META_SIZE)
          4294967320 (pad_size 4000) ∧
        st1.brk = wadd heap_mapped.brk MMAP_THRESHOLD := by
  obtain ⟨_, h, _⟩ := mapped_branch_not_growing E24 10 heap_mapped 4294967320 4000
    { size := 8192, status := STATUS_MAPPED, next := 0 } (by decide) (by decide) (by rfl)
  obtain ⟨h1, h2⟩ := h (by decide) rfl
  exact ⟨h1, h2 (by decide)⟩

/-- C20 fails as stated: on the Mapped block of 8192 bytes left by `os_calloc(1, 8192)`, the
call `os_realloc(p, 4000)` does not grow the block (the padded request 4000 is below the size
8192), yet it runs the Mapped branch: the break moves by 128 KiB, a block of size 4000 is
written at the old break, the mapping is released, and 4000 of the 8192 payload bytes are
copied. -/
theorem mapped_branch_when_shrinking :
    ∃ st live, run E24 10 fresh [Call.calloc 1 8192] = some (st, live) ∧
      live = [4294967320] ∧
      st.hdr 4294967296 = some { size := 8192, status := STATUS_MAPPED, next := 0 } ∧
      pad_size 4000 = 4000 ∧ ¬ (pad_size 4000 > 8192) ∧
      os_realloc E24 10 st 4294967320 4000 =
        realloc_mapped E24 st 4294967320 4294967296
          { size := 8192, status := STATUS_MAPPED, next := 0 } 4000 ∧
      (os_realloc E24 10 st 4294967320 4000).map
          (fun r => (r.2, r.1.brk, r.1.hdr 4096, r.1.hdr 4294967296)) =
        some (4120, 4096 + 131072, some { size := 4000, status := STATUS_ALLOC, next := 0 },
          none) ∧
      (os_realloc E24 10 st 4294967320 4000).map (fun r => r.1.bytes) =
        some (memcpy st.bytes 4120 4294967320 4000) := by
  refine ⟨_, _, rfl, by rfl, by rfl, by decide, by decide, by rfl, by rfl, by rfl⟩

/-! ## Defects of the arena and of the list maintenance -/

theorem heap_mixed_reached :
    (run E24 10 fresh [Call.malloc 8, Call.calloc 1 8192]).map
        (fun s => (s.2, s.1.head, s.1.tail, s.1.brk, s.1.mmap_next, s.1.threshold,
          s.1.hdr 4096, s.1.hdr 4294967296)) =
      some ([4294967320, 4120], heap_mixed.head, heap_mixed.tail, heap_mixed.brk,
        heap_mixed.mmap_next, heap_mixed.threshold, heap_mixed.hdr 4096,
        heap_mixed.hdr 4294967296) := by
  rfl

theorem heap_mixed_wf : WF E24 heap_mixed [4096, 4294967296] := by
  refine ⟨by decide, fun _ => by rfl, ?_, ?_, by decide, ?_, by decide, ?_⟩
  · intro a ha b hb
    simp only [List.mem_cons, List.mem_singleton, List.not_mem_nil, or_false] at ha
    rcases ha with rfl | rfl <;> simp [heap_mixed, store] at hb <;> subst hb <;> decide
  · intro a ha c hc b hb hne
    simp only [List.mem_cons, List.mem_singleton, List.not_mem_nil, or_false] at ha hc
    rcases ha with rfl | rfl <;> rcases hc with rfl | rfl <;> simp [heap_mixed, store] at hb <;>
      subst hb <;> simp [E24] at hne ⊢
  · intro a ha b hb
    simp only [List.mem_cons, List.mem_singleton, List.not_mem_nil, or_false] at ha
    rcases ha with rfl | rfl <;> simp [heap_mixed, store] at hb <;> subst hb <;> decide
  · intro a ha b hb
    simp only [List.mem_cons, List.mem_singleton, List.not_mem_nil, or_false] at ha
    rcases ha with rfl | rfl <;> simp [heap_mixed, store] at hb <;> subst hb <;> decide

/-- C12 fails on the code: after `os_malloc(100)` on the empty heap the only block is at 4096
with size 104 and no successor, the break is 135168, and `4096 + 24 + 104` is not the break;
after `os_malloc(8)`, `os_malloc(8)` the list-adjacent blocks at 4096 and 135168 are not
address-adjacent; and after `os_malloc(100)`, `os_free`, `os_malloc(40)` the Free block that
follows the head has size 40, not the rest of the 128 KiB. -/
theorem prealloc_breaks_tiling :
    (∃ st live, run E24 10 fresh [Call.malloc 100] = some (st, live) ∧
      Reachable E24 st live ∧ IsList st.hdr st.head [4096] ∧
      st.hdr 4096 = some { size := 104, status := STATUS_ALLOC, next := 0 } ∧
      st.brk = 135168 ∧ 4096 + E24.BLOCK_META_SIZE + 104 ≠ st.brk) ∧
    (∃ st live, run E24 10 fresh [Call.malloc 8, Call.malloc 8] = some (st, live) ∧
      Reachable E24 st live ∧ IsList st.hdr st.head [4096, 135168] ∧
      st.hdr 4096 = some { size := 8, status := STATUS_ALLOC, next := 135168 } ∧
      st.hdr 135168 = some { size := 8, status := STATUS_ALLOC, next := 0 } ∧
      4096 + E24.BLOCK_META_SIZE + 8 ≠ 135168) ∧
    (∃ st live, run E24 10 fresh [Call.malloc 100, Call.free 4120, Call.malloc 40] =
        some (st, live) ∧
      live = [4120] ∧ IsList st.hdr st.head [4096, 4160] ∧
      st.hdr 4096 = some { size := 40, status := STATUS_ALLOC, next := 4160 } ∧
      st.hdr 4160 = some { size := 40, status := STATUS_FREE, next := 0 } ∧
      st.brk = 135168 ∧ 4160 + E24.BLOCK_META_SIZE + 40 ≠ st.brk) := by
  refine ⟨⟨_, _, rfl, reachable_of_run E24 10 [Call.malloc 100] _ _ rfl, by decide, by rfl,
      by rfl, by decide⟩,
    ⟨_, _, rfl, reachable_of_run E24 10 [Call.malloc 8, Call.malloc 8] _ _ rfl, by decide,
      by rfl, by rfl, by decide⟩,
    ⟨_, _, rfl, by rfl, by decide, by rfl, by rfl, by rfl, by decide⟩⟩

/-- C14 fails on the code: after three `os_malloc(8)`, the release of the third block and
`os_realloc` of the second block to 16 bytes (which absorbs the third block and leaves `tail`
on it), `os_malloc(100)` extends the absorbed block and returns 135224.  The pointers 135192
and 135224 are both live, the block of 135192 has size 40 and so holds the bytes from 135192
up to 135232, and the header of 135224 is not reachable from head. -/
theorem tail_extension_overlaps_live_block :
    ∃ st live, run E24 10 fresh [Call.malloc 8, Call.malloc 8, Call.malloc 8, Call.free 135224,
        Call.realloc 135192 16, Call.malloc 100] = some (st, live) ∧
      Reachable E24 st live ∧ live = [135224, 135192, 4120] ∧
      IsList st.hdr st.head [4096, 135168] ∧
      st.hdr (135192 - E24.BLOCK_META_SIZE) =
        some { size := 40, status := STATUS_ALLOC, next := 0 } ∧
      st.hdr (135224 - E24.BLOCK_META_SIZE) =
        some { size := 104, status := STATUS_ALLOC, next := 0 } ∧
      135224 - E24.BLOCK_META_SIZE ∉ [4096, 135168] ∧
      135192 ≤ 135224 ∧ 135224 < 135192 + 40 := by
  refine ⟨_, _, rfl,
    reachable_of_run E24 10 [Call.malloc 8, Call.malloc 8, Call.malloc 8, Call.free 135224,
        Call.realloc 135192 16, Call.malloc 100] _ _ rfl,
    by rfl, by decide, by rfl, by rfl, by decide, by decide, by decide⟩

/-- C19 fails on the code: in the well-formed state with an Allocated block at 4096 followed
by the Mapped block at `2 ^ 32` (the tail), `os_realloc` of the Mapped block to 4000 bytes takes
the Mapped branch and returns 135192; afterwards the block at 4096 still links to the released
block, `tail` still is the released block, the new block at 135168 is not the `next` of any
header, and the next `os_malloc` fails on the released header. -/
theorem mapped_relocation_breaks_list :
    WF E24 heap_mixed [4096, 4294967296] ∧
    heap_mixed.hdr 4294967296 = some { size := 8192, status := STATUS_MAPPED, next := 0 } ∧
    os_realloc E24 10 heap_mixed 4294967320 4000 =
      realloc_mapped E24 heap_mixed 4294967320 4294967296
        { size := 8192, status := STATUS_MAPPED, next := 0 } 4000 ∧
    (os_realloc E24 10 heap_mixed 4294967320 4000).map
        (fun r => (r.2, r.1.head, r.1.tail, r.1.hdr 4096, r.1.hdr 4294967296,
          r.1.hdr 135168)) =
      some (135192, 4096, 4294967296,
        some { size := 8, status := STATUS_ALLOC, next := 4294967296 }, none,
        some { size := 4000, status := STATUS_ALLOC, next := 0 }) ∧
    (os_realloc E24 10 heap_mixed 4294967320 4000).bind (fun r => os_malloc E24 10 r.1 8) =
      none ∧
    (run E24 10 fresh [Call.malloc 8, Call.calloc 1 8192, Call.realloc 4294967320 4000]).map
        (fun s => (s.2, s.1.head, s.1.tail, s.1.hdr 4096, s.1.hdr 4294967296,
          s.1.hdr 135168)) =
      some ([135192, 4120], 4096, 4294967296,
        some { size := 8, status := STATUS_ALLOC, next := 4294967296 }, none,
        some { size := 4000, status := STATUS_ALLOC, next := 0 }) := by
  refine ⟨heap_mixed_wf, by rfl, by rfl, by rfl, by rfl, by rfl⟩

/-! ## Pre-allocation -/

theorem reuse_block_brk (E : Env) (st : Heap) (c n : Nat) (bc : block_meta)
    (hbc : st.hdr c = some bc) :
    ∃ st1, reuse_block E st c n = some (st1, c + E.BLOCK_META_SIZE) ∧ st1.brk = st.brk := by
  unfold reuse_block
  simp only [hbc]
  split_ifs with hs
  · by_cases e : c = c + E.BLOCK_META_SIZE + pad_size n
    · rw [← e, store_same]
      exact ⟨_, rfl, rfl⟩
    · rw [store_other _ _ e, store_same]
      exact ⟨_, rfl, rfl⟩
  · exact ⟨_, rfl, rfl⟩

theorem use_sbrk_brk (E : Env) (st : Heap) (n : Nat) (t : block_meta)
    (ht : st.hdr st.tail = some t) (hbrk : st.brk ≠ 0) :
    ∃ st1, use_sbrk E st n = some (st1, st.brk + E.BLOCK_META_SIZE) ∧
      st1.brk = wadd st.brk (wadd (pad_size n) E.BLOCK_META_SIZE) := by
  unfold use_sbrk
  simp only [if_neg hbrk]
  by_cases e : st.tail = st.brk
  · rw [e, store_same]
    exact ⟨_, rfl, rfl⟩
  · rw [store_other _ _ e, ht]
    exact ⟨_, rfl, rfl⟩

/-- C11 (amended): the pre-allocation runs when the list is empty.  In a well-formed state,
for a request `0 < n` that is routed to the break (`round_up_8 n + BLOCK_META_SIZE` below the
threshold, which is at most 128 KiB) with the break at least 128 KiB below `2 ^ 64`: when
`head` is null, `os_malloc(n)` moves the break up by exactly 128 KiB whatever `n` is, and
records at the old break one Allocated block of size `round_up_8 n`, which becomes head and
tail; when `head` is not null, `os_malloc(n)` moves the break up by 0, by
`round_up_8 n - tail.size` (the tail being Free and smaller), or by
`round_up_8 n + BLOCK_META_SIZE`, in each case by less than 128 KiB. -/
theorem prealloc_when_empty (E : Env) (st : Heap) (l : List Nat) (fuel n : Nat)
    (wf : WF E st l) (hfuel : l.length < fuel) (hE : E.BLOCK_META_SIZE % 8 = 0)
    (hn : 0 < n) (hroute : round_up_8 n + E.BLOCK_META_SIZE < st.threshold)
    (hthr : st.threshold ≤ MMAP_THRESHOLD) (hbrk : st.brk + MMAP_THRESHOLD < WORD) :
    (st.head = 0 →
      ∃ st1, os_malloc E fuel st n = some (st1, st.brk + E.BLOCK_META_SIZE) ∧
        st1.brk = st.brk + MMAP_THRESHOLD ∧
        st1.hdr st.brk = some { size := round_up_8 n, status := STATUS_ALLOC, next := 0 } ∧
        st1.head = st.brk ∧ st1.tail = st.brk ∧ IsList st1.hdr st1.head [st.brk]) ∧
    (st.head ≠ 0 →
      ∃ st1 p, os_malloc E fuel st n = some (st1, p) ∧
        (st1.brk = st.brk ∨
          (∃ t, st.hdr st.tail = some t ∧ t.status = STATUS_FREE ∧ t.size < round_up_8 n ∧
            st1.brk = st.brk + (round_up_8 n - t.size)) ∨
          st1.brk = st.brk + (round_up_8 n + E.BLOCK_META_SIZE)) ∧
        st1.brk < st.brk + MMAP_THRESHOLD) := by
  have hM : MMAP_THRESHOLD = 131072 := by decide
  have hfit : n + E.BLOCK_META_SIZE + 7 < WORD := by
    simp only [WORD_eq] at *
    unfold round_up_8 at hroute
    omega
  have hpe : pad_size n = round_up_8 n := pad_size_eq n (by omega)
  have hp := pad_size_bounds n (by omega : n + 7 < WORD)
  rw [hpe] at hp
  have hn0 : n ≠ 0 := by omega
  obtain ⟨_, h1, _⟩ := os_malloc_route E fuel st n hE hn hfit
  rw [h1 hroute]
  refine ⟨fun hh => ?_, fun hh => ?_⟩
  · unfold malloc_brk
    simp only [hh, hn0, ne_eq, not_false_eq_true, and_self, if_true]
    unfold prealloc
    simp only [if_neg wf.brk_pos, wadd_eq _ _ hbrk, hpe]
    refine ⟨_, rfl, rfl, store_same _ _ _, rfl, rfl, ?_⟩
    exact ⟨rfl, wf.brk_pos, _, store_same _ _ _, rfl⟩
  · have hne : l ≠ [] := fun e => hh ((isList_head_zero wf.list).mpr e)
    have hlast := wf.tail hne
    have hmem : st.tail ∈ l := List.mem_of_mem_getLast? hlast
    obtain ⟨_, t, ht⟩ := isList_hdr wf.list hmem
    have hsz := wf.size st.tail hmem t ht
    unfold malloc_brk
    simp only [hh, false_and, if_false, hpe]
    rcases search_loop_spec (round_up_8 n) l fuel st.head wf.list hfuel with
      ⟨c, l1, l2, bc, e1, c0, e2, hbc, hs, hz, _⟩ | ⟨e1, hno⟩
    · rw [search_block_found e1 c0 hbc]
      simp only [ne_eq, c0, not_false_eq_true, if_true]
      obtain ⟨st1, r1, r2⟩ := reuse_block_brk E
        { st with hdr := store st.hdr c { bc with status := STATUS_ALLOC } } c n
        { bc with status := STATUS_ALLOC } (store_same _ _ _)
      refine ⟨st1, _, r1, Or.inl r2, ?_⟩
      rw [r2]
      show st.brk < st.brk + MMAP_THRESHOLD
      omega
    · rw [search_block_none e1]
      simp only [ne_eq, not_true_eq_false, if_false, ht]
      by_cases hfree : t.status = STATUS_FREE
      · have hlt : t.size < round_up_8 n := by
          have := hno st.tail hmem t ht
          by_contra hc
          exact this ⟨hfree, by omega⟩
        have hle : t.size < n := by omega
        have hw : wsub n t.size = n - t.size := wsub_eq n t.size (by omega) (by omega)
        have hinc : pad_size (wsub n t.size) = round_up_8 n - t.size := by
          rw [hw, pad_size_eq _ (by omega)]
          unfold round_up_8
          omega
        rw [if_pos hfree]
        unfold extend_tail
        have hb2 : st.brk + (round_up_8 n - t.size) < WORD := by omega
        simp only [if_neg wf.brk_pos, hinc, wadd_eq _ _ hb2]
        refine ⟨_, _, rfl, Or.inr (Or.inl ⟨t, rfl, hfree, hlt, rfl⟩), ?_⟩
        show st.brk + (round_up_8 n - t.size) < st.brk + MMAP_THRESHOLD
        omega
      · rw [if_neg hfree]
        obtain ⟨st1, r1, r2⟩ := use_sbrk_brk E st n t ht wf.brk_pos
        rw [hpe, wadd_eq (round_up_8 n) _ (by omega), wadd_eq _ _ (by omega)] at r2
        refine ⟨st1, _, r1, Or.inr (Or.inr r2), ?_⟩
        rw [r2]
        omega

theorem prealloc_when_empty_witness :
    (∃ st1, os_malloc E24 10 (Heap.init 4096 (2 ^ 32)) 100 = some (st1, 4096 + 24) ∧
      st1.brk = 4096 + MMAP_THRESHOLD ∧
      st1.hdr 4096 = some { size := round_up_8 100, status := STATUS_ALLOC, next := 0 }) ∧
    (∃ st1 p, os_malloc E24 10 heap_two 100 = some (st1, p) ∧
      st1.brk < heap_two.brk + MMAP_THRESHOLD) := by
  obtain ⟨h1, _⟩ := prealloc_when_empty E24 (Heap.init 4096 (2 ^ 32)) [] 10 100
    (init_wf E24 4096 (2 ^ 32) (by decide) (by decide)) (by decide) (by decide) (by decide)
    (by decide) (by decide) (by decide)
  obtain ⟨_, h2⟩ := prealloc_when_empty E24 heap_two [4096, 135168] 10 100 heap_two_wf
    (by decide) (by decide) (by decide) (by decide) (by decide) (by decide)
  obtain ⟨st1, e1, e2, e3, _⟩ := h1 rfl
  obtain ⟨st2, p, e4, _, e5⟩ := h2 (by decide)
  exact ⟨⟨st1, e1, e2, e3⟩, ⟨st2, p, e4, e5⟩⟩

/-- C11 fails as stated: after `os_malloc(200000)`, which is served by a mapping, the request
`os_malloc(100)` is the first one routed to the break; it moves the break from 4096 to 4224,
that is by 128 bytes and not by 128 KiB. -/
theorem first_break_request_without_prealloc :
    ∃ st live, run E24 10 fresh [Call.malloc 200000] = some (st, live) ∧
      live = [4294967320] ∧ st.brk = 4096 ∧ st.head = 4294967296 ∧
      st.hdr 4294967296 = some { size := 200000, status := STATUS_MAPPED, next := 0 } ∧
      round_up_8 100 + E24.BLOCK_META_SIZE < st.threshold ∧
      os_malloc E24 10 st 100 = malloc_brk E24 10 st 100 ∧
      (os_malloc E24 10 st 100).map (fun r => (r.2, r.1.brk, r.1.hdr 4096)) =
        some (4120, 4096 + 128, some { size := 104, status := STATUS_ALLOC, next := 0 }) := by
  refine ⟨_, _, rfl, by rfl, by rfl, by rfl, by rfl, by decide, by rfl, by rfl⟩

/-! ## Coalescing on free -/

theorem list_total_append (E : Env) (h : Nat → Option block_meta) (l1 l2 : List Nat) :
    list_total E h (l1 ++ l2) = list_total E h l1 + list_total E h l2 := by
  induction l1 with
  | nil => simp [list_total]
  | cons a l ih => simp [list_total, ih, Nat.add_assoc]

theorem list_total_congr (E : Env) {h g : Nat → Option block_meta} {l : List Nat}
    (hg : ∀ a ∈ l, g a = h a) : list_total E g l = list_total E h l := by
  induction l with
  | nil => rfl
  | cons a l ih =>
    simp only [list_total]
    rw [hg a (List.mem_cons_self _ _), ih (fun x hx => hg x (List.mem_cons_of_mem _ hx))]

theorem list_total_cons (E : Env) (h : Nat → Option block_meta) (a : Nat) (l : List Nat)
    (b : block_meta) (hb : h a = some b) :
    list_total E h (a :: l) = b.size + E.BLOCK_META_SIZE + list_total E h l := by
  simp only [list_total, hb]

theorem heap_three_reached :
    (run E24 10 fresh [Call.malloc 64, Call.malloc 64, Call.malloc 64, Call.free 4120,
        Call.free 135280]).map
        (fun s => (s.2, s.1.head, s.1.tail, s.1.brk, s.1.mmap_next, s.1.threshold,
          s.1.hdr 4096, s.1.hdr 135168, s.1.hdr 135256)) =
      some ([135192], heap_three.head, heap_three.tail, heap_three.brk, heap_three.mmap_next,
        heap_three.threshold, heap_three.hdr 4096, heap_three.hdr 135168,
        heap_three.hdr 135256) := by
  rfl

theorem heap_three_wf : WF E24 heap_three [4096, 135168, 135256] := by
  refine ⟨by decide, fun _ => by rfl, ?_, ?_, by decide, ?_, by decide, ?_⟩
  · intro a ha b hb
    simp only [List.mem_cons, List.mem_singleton, List.not_mem_nil, or_false] at ha
    rcases ha with rfl | rfl | rfl <;> simp [heap_three, store] at hb <;> subst hb <;> decide
  · intro a ha c hc b hb hne
    simp only [List.mem_cons, List.mem_singleton, List.not_mem_nil, or_false] at ha hc
    rcases ha with rfl | rfl | rfl <;> rcases hc with rfl | rfl | rfl <;>
      simp [heap_three, store] at hb <;> subst hb <;> simp [E24] at hne ⊢
  · intro a ha b hb
    simp only [List.mem_cons, List.mem_singleton, List.not_mem_nil, or_false] at ha
    rcases ha with rfl | rfl | rfl <;> simp [heap_three, store] at hb <;> subst hb <;> decide
  · intro a ha b hb
    simp only [List.mem_cons, List.mem_singleton, List.not_mem_nil, or_false] at ha
    rcases ha with rfl | rfl | rfl <;> simp [heap_three, store] at hb <;> subst hb <;> decide

/-- C18: in a well-formed state, `os_free(p)` on a block `c` of the list with status Allocated
and size below 128 KiB returns; it merges `c` into its list predecessor exactly when that one
is Free and absorbs the list successor exactly when that one is Free; the survivor `s` is the
earliest of the merged blocks, it is Free, and its size is the sum of the merged sizes plus
`BLOCK_META_SIZE` for each absorbed block (computed without wrapping); no header other than
those of `c` and `s` changes; the sum over the list of `size + BLOCK_META_SIZE` is unchanged;
and afterwards `tail` is the last header reachable from head. -/
theorem free_coalesces (E : Env) (st : Heap) (fuel ptr c : Nat) (l1 l2 : List Nat)
    (bc : block_meta) (wf : WF E st (l1 ++ c :: l2))
    (hfuel : (l1 ++ c :: l2).length < fuel) (hptr : ptr ≠ 0)
    (hc : wsub ptr E.BLOCK_META_SIZE = c) (hbc : st.hdr c = some bc)
    (halloc : bc.status = STATUS_ALLOC) (hsz : bc.size < MMAP_THRESHOLD) :
    ∃ st1 k1 s k2 b3, os_free E fuel st ptr = some st1 ∧
      IsList st1.hdr st1.head (k1 ++ s :: k2) ∧
      (k1 ++ s :: k2).getLast? = some st1.tail ∧
      st1.hdr s = some b3 ∧ b3.status = STATUS_FREE ∧
      (∀ a, a ≠ c → a ≠ s → st1.hdr a = st.hdr a) ∧
      (∃ z,
        ((k1 = l1 ∧ s = c ∧ z = bc.size ∧ ∀ pv ∈ l1.getLast?, ¬ IsFree st.hdr pv) ∨
         (l1 = k1 ++ [s] ∧ ∃ pb, st.hdr s = some pb ∧ pb.status = STATUS_FREE ∧
            z = pb.size + bc.size + E.BLOCK_META_SIZE)) ∧
        ((k2 = l2 ∧ b3.size = z ∧ ∀ nx ∈ l2.head?, ¬ IsFree st.hdr nx) ∨
         (∃ nx nb, l2 = nx :: k2 ∧ st.hdr nx = some nb ∧ nb.status = STATUS_FREE ∧
            b3.size = z + nb.size + E.BLOCK_META_SIZE))) ∧
      list_total E st1.hdr (k1 ++ s :: k2) = list_total E st.hdr (l1 ++ c :: l2) := by
  obtain ⟨st1, k1, s, k2, b3, h1, ok⟩ :=
    os_free_brk_ok E st fuel ptr l1 l2 c bc wf.list hfuel hptr hc hbc halloc hsz
  obtain ⟨_, _, _, _, _, hc1, hc2, _⟩ := isList_mid wf.list
  have szc := wf.size c (by simp) bc hbc
  refine ⟨st1, k1, s, k2, b3, h1, ok.list, ok.tail, ok.hdr, ok.status, ok.keep, ?_⟩
  obtain ⟨z, sh1, sh2⟩ := ok.shape
  have hb3 := ok.hdr
  have keep := ok.keep
  clear ok
  rcases sh1 with ⟨rfl, rfl, rfl, hp⟩ | ⟨rfl, pb, hpb, hpf, rfl⟩
  · have t1 : list_total E st1.hdr k1 = list_total E st.hdr k1 :=
      list_total_congr E (fun a ha => keep a (fun e => hc1 (e ▸ ha)) (fun e => hc1 (e ▸ ha)))
    rcases sh2 with ⟨rfl, hz, hnx⟩ | ⟨nx, nb, rfl, hnb, hnf, hz⟩
    · have t2 : list_total E st1.hdr k2 = list_total E st.hdr k2 :=
        list_total_congr E (fun a ha => keep a (fun e => hc2 (e ▸ ha)) (fun e => hc2 (e ▸ ha)))
      refine ⟨⟨bc.size, Or.inl ⟨rfl, rfl, rfl, hp⟩, Or.inl ⟨rfl, hz, hnx⟩⟩, ?_⟩
      rw [list_total_append, list_total_append, list_total_cons E _ _ _ _ hb3,
        list_total_cons E _ _ _ _ hbc, t1, t2, hz]
    · have hne : s ≠ nx := fun e => hc2 (by rw [e]; simp)
      have t2 : list_total E st1.hdr k2 = list_total E st.hdr k2 :=
        list_total_congr E (fun a ha =>
          keep a (fun e => hc2 (by rw [← e]; simp [ha])) (fun e => hc2 (by rw [← e]; simp [ha])))
      have szn := wf.size nx (by simp) nb hnb
      have s1 := wf.sep s (by simp) nx (by simp) bc hbc hne
      have s2 := wf.sep nx (by simp) s (by simp) nb hnb (Ne.symm hne)
      have hz2 : b3.size = bc.size + nb.size + E.BLOCK_META_SIZE := by
        rw [hz, wadd_eq nb.size _ (by omega), wadd_eq _ _ (by omega)]
        omega
      refine ⟨⟨bc.size, Or.inl ⟨rfl, rfl, rfl, hp⟩, Or.inr ⟨nx, nb, rfl, hnb, hnf, hz2⟩⟩, ?_⟩
      rw [list_total_append, list_total_append, list_total_cons E _ _ _ _ hb3,
        list_total_cons E _ _ _ _ hbc, list_total_cons E _ _ _ _ hnb, t1, t2, hz2]
      omega
  · have wfl := wf.list
    rw [List.append_assoc, List.singleton_append] at wfl
    obtain ⟨_, _, _, _, _, hs1, hs2, _⟩ := isList_mid wfl
    have hsc : s ≠ c := fun e => hs2 (by rw [e]; simp)
    have t1 : list_total E st1.hdr k1 = list_total E st.hdr k1 :=
      list_total_congr E (fun a ha =>
        keep a (fun e => hc1 (by rw [← e]; simp [ha])) (fun e => hs1 (e ▸ ha)))
    have szs := wf.size s (by simp) pb hpb
    have p1 := wf.sep s (by simp) c (by simp) pb hpb hsc
    have p2 := wf.sep c (by simp) s (by simp) bc hbc (Ne.symm hsc)
    have hz1 : wadd pb.size (wadd bc.size E.BLOCK_META_SIZE) =
        pb.size + bc.size + E.BLOCK_META_SIZE := by
      rw [wadd_eq bc.size _ (by omega), wadd_eq _ _ (by omega)]
      omega
    rcases sh2 with ⟨rfl, hz, hnx⟩ | ⟨nx, nb, rfl, hnb, hnf, hz⟩
    · have t2 : list_total E st1.hdr k2 = list_total E st.hdr k2 :=
        list_total_congr E (fun a ha =>
          keep a (fun e => hc2 (e ▸ ha)) (fun e => hs2 (by rw [← e]; simp [ha])))
      rw [hz1] at hz
      refine ⟨⟨_, Or.inr ⟨rfl, pb, hpb, hpf, rfl⟩, Or.inl ⟨rfl, hz, hnx⟩⟩, ?_⟩
      rw [list_total_append, list_total_append, list_total_append,
        list_total_cons E _ _ _ _ hb3, list_total_cons E _ _ _ _ hbc,
        list_total_cons E _ _ _ _ hpb, t1, t2, hz]
      simp only [list_total]
      omega
    · have hcn : c ≠ nx := fun e => hc2 (by rw [e]; simp)
      have hsn : s ≠ nx := fun e => hs2 (by rw [e]; simp)
      have t2 : list_total E st1.hdr k2 = list_total E st.hdr k2 :=
        list_total_congr E (fun a ha =>
          keep a (fun e => hc2 (by rw [← e]; simp [ha]))
            (fun e => hs2 (by rw [← e]; simp [ha])))
      have szn := wf.size nx (by simp) nb hnb
      have q1 := wf.sep s (by simp) nx (by simp) pb hpb hsn
      have q2 := wf.sep nx (by simp) s (by simp) nb hnb (Ne.symm hsn)
      have q3 := wf.sep c (by simp) nx (by simp) bc hbc hcn
      have q4 := wf.sep nx (by simp) c (by simp) nb hnb (Ne.symm hcn)
      have hz2 : b3.size = pb.size + bc.size + E.BLOCK_META_SIZE + nb.size +
          E.BLOCK_META_SIZE := by
        rw [hz, hz1, wadd_eq nb.size _ (by omega), wadd_eq _ _ (by omega)]
        omega
      refine ⟨⟨_, Or.inr ⟨rfl, pb, hpb, hpf, rfl⟩, Or.inr ⟨nx, nb, rfl, hnb, hnf, hz2⟩⟩, ?_⟩
      rw [list_total_append, list_total_append, list_total_append,
        list_total_cons E _ _ _ _ hb3, list_total_cons E _ _ _ _ hbc,
        list_total_cons E _ _ _ _ hpb, list_total_cons E _ _ _ _ hnb, t1, t2, hz2]
      simp only [list_total]
      omega

theorem free_coalesces_witness :
    (∃ st1 b3, os_free E24 10 heap_three 135192 = some st1 ∧
      IsList st1.hdr st1.head [4096] ∧ st1.tail = 4096 ∧
      st1.hdr 4096 = some b3 ∧ b3.status = STATUS_FREE ∧
      b3.size = 3 * 64 + 2 * E24.BLOCK_META_SIZE ∧
      list_total E24 st1.hdr [4096] = list_total E24 heap_three.hdr [4096, 135168, 135256]) ∧
    (run E24 10 fresh [Call.malloc 64, Call.malloc 64, Call.malloc 64, Call.free 4120,
        Call.free 135280, Call.free 135192]).map
        (fun s => (s.2, s.1.head, s.1.tail, s.1.hdr 4096)) =
      some ([], 4096, 4096, some { size := 240, status := STATUS_FREE, next := 0 }) := by
  refine ⟨?_, by rfl⟩
  obtain ⟨st1, k1, s, k2, b3, h1, hl, ht, hb, hf, _, ⟨z, sh1, sh2⟩, htot⟩ :=
    free_coalesces E24 heap_three 10 135192 135168 [4096] [135256]
      { size := 64, status := STATUS_ALLOC, next := 135256 } heap_three_wf (by decide)
      (by decide) (by rfl) (by rfl) rfl (by decide)
  rcases sh1 with ⟨_, _, _, hp⟩ | ⟨e1, pb, hpb, _, hz⟩
  · exact absurd ⟨_, rfl, rfl⟩ (hp 4096 (by simp))
  · rcases sh2 with ⟨_, _, hnx⟩ | ⟨nx, nb, e2, hnb, _, hz2⟩
    · exact absurd ⟨_, rfl, rfl⟩ (hnx 135256 (by simp))
    · have es : s = 4096 := by
        have := congrArg List.getLast? e1
        simpa using this.symm
      have ek : k1 = [] := by
        have := congrArg List.dropLast e1
        simpa using this.symm
      have en : nx = 135256 := by
        have := congrArg List.head? e2
        simpa using this.symm
      have ek2 : k2 = [] := by
        have := congrArg List.tail e2
        simpa using this.symm
      subst es ek en ek2
      have e3 : pb = { size := 64, status := STATUS_FREE, next := 135168 } := by
        have : heap_three.hdr 4096 =
            some { size := 64, status := STATUS_FREE, next := 135168 } := by rfl
        rw [this] at hpb
        exact (Option.some.inj hpb).symm
      have e4 : nb = { size := 64, status := STATUS_FREE, next := 0 } := by
        have : heap_three.hdr 135256 =
            some { size := 64, status := STATUS_FREE, next := 0 } := by rfl
        rw [this] at hnb
        exact (Option.some.inj hnb).symm
      subst e3 e4
      refine ⟨st1, b3, h1, hl, ?_, hb, hf, ?_, htot⟩
      · simpa using ht.symm
      · rw [hz2, hz]
        rfl

/-! ## Mapped blocks -/

theorem nnm_refl (h : Nat → Option block_meta) : NoNewMapped h h := fun _ x => x

theorem nnm_trans {h h1 h2 : Nat → Option block_meta} (a : NoNewMapped h h1)
    (b : NoNewMapped h1 h2) : NoNewMapped h h2 := fun m x => a m (b m x)

theorem nnm_store {h h1 : Nat → Option block_meta} {p : Nat} {b : block_meta}
    (hh : NoNewMapped h h1)
    (hb : b.status = STATUS_MAPPED → ∃ b0, h1 p = some b0 ∧ b0.status = STATUS_MAPPED) :
    NoNewMapped h (store h1 p b) := by
  rintro m ⟨x, hx, hs⟩
  unfold store at hx
  split_ifs at hx with e
  · cases hx
    subst e
    exact hh _ (hb hs)
  · exact hh m ⟨x, hx, hs⟩

theorem nnm_unmap {h h1 : Nat → Option block_meta} (p len : Nat) (hh : NoNewMapped h h1) :
    NoNewMapped h (unmap h1 p len) := by
  rintro m ⟨x, hx, hs⟩
  unfold unmap at hx
  split_ifs at hx
  exact hh m ⟨x, hx, hs⟩

theorem nnm_overwrite {h h1 : Nat → Option block_meta} (E : Env) (dst n : Nat)
    (hh : NoNewMapped h h1) : NoNewMapped h (overwrite E h1 dst n) := by
  rintro m ⟨x, hx, hs⟩
  unfold overwrite at hx
  split_ifs at hx
  exact hh m ⟨x, hx, hs⟩

theorem search_block_nnm {fuel : Nat} {st st1 : Heap} {size r : Nat}
    (h : search_block fuel st size = some (st1, r)) : NoNewMapped st.hdr st1.hdr := by
  unfold search_block at h
  split at h
  · cases h
  · split_ifs at h
    · cases h
      exact nnm_refl _
    · split at h
      · cases h
      · cases h
        exact nnm_store (nnm_refl _) (fun hs => by simp at hs)

theorem prealloc_nnm {E : Env} {st st1 : Heap} {size r : Nat}
    (h : prealloc E st size = some (st1, r)) : NoNewMapped st.hdr st1.hdr := by
  unfold prealloc at h
  dsimp only at h
  split_ifs at h
  cases h
  exact nnm_store (nnm_refl _) (fun hs => by simp at hs)

theorem use_sbrk_nnm {E : Env} {st st1 : Heap} {size r : Nat}
    (h : use_sbrk E st size = some (st1, r)) : NoNewMapped st.hdr st1.hdr := by
  unfold use_sbrk at h
  dsimp only at h
  split_ifs at h
  split at h
  · cases h
  · rename_i t ht
    cases h
    exact nnm_store (nnm_store (nnm_refl _) (fun hs => by simp at hs))
      (fun hs => ⟨t, ht, hs⟩)

theorem reuse_block_nnm {E : Env} {st st1 : Heap} {block size r : Nat}
    (h : reuse_block E st block size = some (st1, r)) : NoNewMapped st.hdr st1.hdr := by
  unfold reuse_block at h
  split at h
  · cases h
  · dsimp only at h
    split_ifs at h
    · split at h
      · cases h
      · rename_i b2 hb2
        cases h
        exact nnm_store
          (nnm_store (nnm_store (nnm_refl _) (fun hs => by simp at hs))
            (fun hs => by simp at hs))
          (fun hs => ⟨b2, hb2, hs⟩)
    · cases h
      exact nnm_store (nnm_refl _) (fun hs => by simp at hs)

theorem extend_tail_nnm {E : Env} {st st1 : Heap} {t : block_meta} {size r : Nat}
    (h : extend_tail E st t size = some (st1, r)) : NoNewMapped st.hdr st1.hdr := by
  unfold extend_tail at h
  dsimp only at h
  split_ifs at h
  cases h
  exact nnm_store (nnm_refl _) (fun hs => by simp at hs)

theorem malloc_brk_nnm {E : Env} {fuel : Nat} {st st1 : Heap} {size r : Nat}
    (h : malloc_brk E fuel st size = some (st1, r)) : NoNewMapped st.hdr st1.hdr := by
  unfold malloc_brk at h
  split_ifs at h
  · exact prealloc_nnm h
  · split at h
    · cases h
    · rename_i st0 block hs
      have a := search_block_nnm hs
      split_ifs at h
      · exact nnm_trans a (reuse_block_nnm h)
      · split at h
        · cases h
        · split_ifs at h
          · exact nnm_trans a (extend_tail_nnm h)
          · exact nnm_trans a (use_sbrk_nnm h)

theorem use_mmap_new {E : Env} {st st1 : Heap} {size r : Nat}
    (h : use_mmap E st size = some (st1, r)) (m : Nat) (hm : MappedAt st1.hdr m) :
    MappedAt st.hdr m ∨ (st.mmap_next = m ∧ r = m + E.BLOCK_META_SIZE) := by
  unfold use_mmap at h
  dsimp only at h
  split_ifs at h
  · cases h
    obtain ⟨x, hx, hs⟩ := hm
    by_cases e : m = st.mmap_next
    · exact Or.inr ⟨e.symm, by rw [e]⟩
    · left
      have hx2 : store st.hdr st.mmap_next _ m = some x := hx
      rw [store_other _ _ e] at hx2
      exact ⟨x, hx2, hs⟩
  · split at h
    · cases h
    · rename_i t ht
      cases h
      by_cases e : m = st.mmap_next
      · exact Or.inr ⟨e.symm, by rw [e]⟩
      · left
        obtain ⟨x, hx, hs⟩ := hm
        have hx2 : store (store st.hdr st.mmap_next _) st.tail _ m = some x := hx
        by_cases e2 : m = st.tail
        · subst e2
          rw [store_same] at hx2
          cases hx2
          rw [store_other _ _ e] at ht
          exact ⟨t, ht, hs⟩
        · rw [store_other _ _ e2, store_other _ _ e] at hx2
          exact ⟨x, hx2, hs⟩

theorem os_malloc_new {E : Env} {fuel : Nat} {st st1 : Heap} {size r : Nat}
    (h : os_malloc E fuel st size = some (st1, r)) (m : Nat) (hm : MappedAt st1.hdr m) :
    MappedAt st.hdr m ∨ (st.mmap_next = m ∧ r = m + E.BLOCK_META_SIZE) := by
  unfold os_malloc at h
  split_ifs at h
  · cases h
    exact Or.inl hm
  · exact Or.inl (malloc_brk_nnm h m hm)
  · exact use_mmap_new h m hm

theorem free_mapped_nnm {E : Env} {st st1 : Heap} {prev curr : Nat} {c : block_meta}
    (h : free_mapped E st prev curr c = some st1) : NoNewMapped st.hdr st1.hdr := by
  unfold free_mapped at h
  dsimp only at h
  split_ifs at h
  · split at h
    · cases h
    · cases h
      exact nnm_unmap _ _ (nnm_store (nnm_refl _) (fun hs => by simp at hs))
  · split at h
    · cases h
    · rename_i pv hpv
      cases h
      exact nnm_unmap _ _
        (nnm_store (nnm_store (nnm_refl _) (fun hs => by simp at hs)) (fun hs => ⟨pv, hpv, hs⟩))

theorem merge_prev_nnm {E : Env} {h h2 : Nat → Option block_meta} {prev curr s : Nat}
    (e : merge_prev E h prev curr = some (h2, s)) : NoNewMapped h h2 := by
  unfold merge_prev at e
  split_ifs at e
  · cases e
    exact nnm_refl _
  · split at e
    · rename_i pv c hpv hc
      split_ifs at e
      · cases e
        exact nnm_store (nnm_refl _) (fun hs => ⟨pv, hpv, hs⟩)
      · cases e
        exact nnm_refl _
    · cases e

theorem merge_next_nnm {E : Env} {h h3 : Nat → Option block_meta} {curr : Nat}
    (e : merge_next E h curr = some h3) : NoNewMapped h h3 := by
  unfold merge_next at e
  split at e
  · cases e
  · rename_i c hc
    split_ifs at e
    · cases e
      exact nnm_refl _
    · split at e
      · cases e
      · split_ifs at e
        · cases e
          exact nnm_store (nnm_refl _) (fun hs => ⟨c, hc, hs⟩)
        · cases e
          exact nnm_refl _

theorem free_brk_nnm {E : Env} {fuel : Nat} {st st1 : Heap} {prev curr : Nat} {c : block_meta}
    (h : free_brk E fuel st prev curr c = some st1) : NoNewMapped st.hdr st1.hdr := by
  unfold free_brk at h
  dsimp only at h
  split at h
  · cases h
  · rename_i h2 curr2 e2
    split at h
    · cases h
    · rename_i h3 e3
      split at h
      · cases h
      · cases h
        exact nnm_trans
          (nnm_trans (nnm_store (nnm_refl _) (fun hs => by simp at hs)) (merge_prev_nnm e2))
          (merge_next_nnm e3)

theorem os_free_nnm {E : Env} {fuel : Nat} {st st1 : Heap} {ptr : Nat}
    (h : os_free E fuel st ptr = some st1) : NoNewMapped st.hdr st1.hdr := by
  unfold os_free at h
  split_ifs at h
  · cases h
    exact nnm_refl _
  · split at h
    · cases h
    · split at h
      · cases h
      · split_ifs at h
        · exact free_mapped_nnm h
        · exact free_brk_nnm h
        · cases h
          exact nnm_refl _

theorem os_calloc_new {E : Env} {fuel : Nat} {st st1 : Heap} {nmemb size r : Nat}
    (h : os_calloc E fuel st nmemb size = some (st1, r)) (m : Nat) (hm : MappedAt st1.hdr m) :
    MappedAt st.hdr m ∨ (st.mmap_next = m ∧ r = m + E.BLOCK_META_SIZE) := by
  unfold os_calloc at h
  split_ifs at h
  · cases h
    exact Or.inl hm
  · split at h
    · cases h
    · rename_i st2 p e
      cases h
      exact os_malloc_new e m hm

theorem realloc_absorb_nnm {E : Env} {st st1 : Heap} {block size : Nat} {b : block_meta}
    (hb : st.hdr block = some b)
    (h : realloc_absorb E st block b size = some (some st1)) :
    NoNewMapped st.hdr st1.hdr := by
  unfold realloc_absorb at h
  split_ifs at h
  · split at h
    · cases h
    · split_ifs at h
      · cases h
        exact nnm_store (nnm_refl _) (fun hs => ⟨b, hb, hs⟩)
      · cases h
  · cases h

theorem realloc_move_new {E : Env} {fuel : Nat} {st st1 : Heap} {ptr block size r : Nat}
    (h : realloc_move E fuel st ptr block size = some (st1, r)) (m : Nat)
    (hm : MappedAt st1.hdr m) :
    MappedAt st.hdr m ∨ (st.mmap_next = m ∧ r = m + E.BLOCK_META_SIZE) := by
  unfold realloc_move at h
  split at h
  · cases h
  · rename_i st2 q e
    split at h
    · cases h
    · split_ifs at h
      split at h
      · cases h
      · rename_i st3 e3
        cases h
        have a := os_free_nnm e3 m hm
        exact os_malloc_new e m (nnm_overwrite E _ _ (nnm_refl _) m a)

theorem realloc_mapped_nnm {E : Env} {st st1 : Heap} {ptr block size r : Nat} {b : block_meta}
    (h : realloc_mapped E st ptr block b size = some (st1, r)) :
    NoNewMapped st.hdr st1.hdr := by
  unfold realloc_mapped at h
  dsimp only at h
  split_ifs at h <;> split at h <;> cases h <;>
    exact nnm_unmap _ _ (nnm_store (nnm_refl _) (fun hs => by simp at hs))

theorem os_realloc_new {E : Env} {fuel : Nat} {st st1 : Heap} {ptr size r : Nat}
    (h : os_realloc E fuel st ptr size = some (st1, r)) (m : Nat) (hm : MappedAt st1.hdr m) :
    MappedAt st.hdr m ∨ (st.mmap_next = m ∧ r = m + E.BLOCK_META_SIZE) := by
  unfold os_realloc at h
  split_ifs at h
  · split at h
    · cases h
    · rename_i st2 e
      cases h
      exact Or.inl (os_free_nnm e m hm)
  · exact os_malloc_new h m hm
  · dsimp only at h
    split at h
    · cases h
    · rename_i b hb
      split_ifs at h
      · split at h
        · cases h
        · rename_i st2 e
          cases h
          exact Or.inl (realloc_absorb_nnm hb e m hm)
        · exact realloc_move_new h m hm
      · split at h
        · cases h
        · rename_i b1 hb1
          cases h
          refine Or.inl (nnm_store (nnm_store (nnm_refl _) ?_) ?_ m hm)
          · intro hs
            simp at hs
          · intro hs
            exact ⟨b1, hb1, hs⟩
      · exact Or.inl (realloc_mapped_nnm h m hm)
      · cases h
        exact Or.inl hm

theorem mem_add_live (live : List Nat) (r : Nat) (hr : r ≠ 0) : r ∈ add_live live r := by
  unfold add_live
  rw [if_neg hr]
  exact List.mem_cons_self _ _

theorem call_new {E : Env} {fuel : Nat} {s s2 : Heap × List Nat} {k : Call}
    (hE0 : 0 < E.BLOCK_META_SIZE) (h : call E fuel s k = some s2) (m : Nat)
    (hm : MappedAt s2.1.hdr m) :
    MappedAt s.1.hdr m ∨
      (s.1.mmap_next = m ∧ m + E.BLOCK_META_SIZE ∈ s2.2 ∧ ∀ q, k ≠ Call.free q) := by
  cases k with
  | malloc size =>
    simp only [call] at h
    split at h
    · cases h
    · rename_i st1 p e
      cases h
      rcases os_malloc_new e m hm with a | ⟨a, b⟩
      · exact Or.inl a
      · exact Or.inr ⟨a, by rw [b]; exact mem_add_live _ _ (by omega), fun q hq => by cases hq⟩
  | free ptr =>
    simp only [call] at h
    split_ifs at h
    split at h
    · cases h
    · rename_i st1 e
      cases h
      exact Or.inl (os_free_nnm e m hm)
  | calloc nmemb size =>
    simp only [call] at h
    split at h
    · cases h
    · rename_i st1 p e
      cases h
      rcases os_calloc_new e m hm with a | ⟨a, b⟩
      · exact Or.inl a
      · exact Or.inr ⟨a, by rw [b]; exact mem_add_live _ _ (by omega), fun q hq => by cases hq⟩
  | realloc ptr size =>
    simp only [call] at h
    split_ifs at h
    split at h
    · cases h
    · rename_i st1 p e
      cases h
      rcases os_realloc_new e m hm with a | ⟨a, b⟩
      · exact Or.inl a
      · exact Or.inr ⟨a, by rw [b]; exact mem_add_live _ _ (by omega), fun q hq => by cases hq⟩

theorem run_append (E : Env) (fuel : Nat) (a b : List Call) :
    ∀ s, run E fuel s (a ++ b) = (run E fuel s a).bind (fun s1 => run E fuel s1 b) := by
  induction a with
  | nil => intro s; rfl
  | cons k a ih =>
    intro s
    simp only [List.cons_append, run]
    cases call E fuel s k with
    | none => rfl
    | some s1 => exact ih s1

theorem run_single (E : Env) (fuel : Nat) (s : Heap × List Nat) (k : Call) :
    run E fuel s [k] = call E fuel s k := by
  simp only [run]
  cases call E fuel s k <;> rfl

/-- In a run that ends with a Mapped header at `c` and starts without one, some call created
it, and from that call on the header is Mapped in every state of the run. -/
theorem mapped_since_creation (E : Env) (fuel : Nat) (hE0 : 0 < E.BLOCK_META_SIZE) (c : Nat)
    (cs : List Call) :
    ∀ (s0 s : Heap × List Nat), run E fuel s0 cs = some s → MappedAt s.1.hdr c →
      ¬ MappedAt s0.1.hdr c →
      ∃ cs1 k cs2 s1 s2, cs = cs1 ++ k :: cs2 ∧ run E fuel s0 cs1 = some s1 ∧
        call E fuel s1 k = some s2 ∧ ¬ MappedAt s1.1.hdr c ∧ s1.1.mmap_next = c ∧
        c + E.BLOCK_META_SIZE ∈ s2.2 ∧ (∀ q, k ≠ Call.free q) ∧
        ∀ j, j ≤ cs2.length →
          ∃ s3, run E fuel s2 (cs2.take j) = some s3 ∧ MappedAt s3.1.hdr c := by
  induction cs using List.reverseRecOn with
  | nil =>
    intro s0 s hr hm h0
    simp only [run, Option.some.injEq] at hr
    subst hr
    exact absurd hm h0
  | append_singleton cs k ih =>
    intro s0 s hr hm h0
    rw [run_append] at hr
    cases hB : run E fuel s0 cs with
    | none =>
      rw [hB] at hr
      cases hr
    | some sB =>
      rw [hB] at hr
      have hk : call E fuel sB k = some s := by
        rw [← run_single]
        exact hr
      by_cases hmB : MappedAt sB.1.hdr c
      · obtain ⟨cs1, k0, cs2, s1, s2, e, r1, c1, n1, mm, lv, nf, all⟩ := ih s0 sB hB hmB h0
        have hmid : run E fuel s2 cs2 = some sB := by
          have h2 := hB
          rw [e, run_append, r1] at h2
          simp only [Option.bind, run, c1] at h2
          exact h2
        refine ⟨cs1, k0, cs2 ++ [k], s1, s2, by rw [e]; simp, r1, c1, n1, mm, lv, nf, ?_⟩
        intro j hj
        by_cases hj2 : j ≤ cs2.length
        · rw [List.take_append_of_le_length hj2]
          exact all j hj2
        · rw [List.take_of_length_le (by simp only [List.length_append, List.length_singleton]; omega)]
          refine ⟨s, ?_, hm⟩
          rw [run_append, hmid]
          exact hr
      · rcases call_new hE0 hk c hm with a | ⟨a, b, d⟩
        · exact absurd a hmB
        · refine ⟨cs, k, [], sB, s, rfl, hB, hk, hmB, a, b, d, ?_⟩
          intro j hj
          simp only [List.length_nil, Nat.le_zero] at hj
          subst hj
          exact ⟨s, rfl, hm⟩

theorem heap_big_small_run :
    run E24 10 fresh [Call.malloc 200000, Call.malloc 8] =
      some (heap_big_small, [4120, 4294967320]) := by
  rfl

theorem heap_big_small_wf : WF E24 heap_big_small [4294967296, 4096] := by
  refine ⟨by decide, fun _ => by rfl, ?_, ?_, by decide, ?_, by decide, ?_⟩
  · intro a ha b hb
    simp only [List.mem_cons, List.mem_singleton, List.not_mem_nil, or_false] at ha
    rcases ha with rfl | rfl <;> simp [heap_big_small, store] at hb <;> subst hb <;> decide
  · intro a ha c hc b hb hne
    simp only [List.mem_cons, List.mem_singleton, List.not_mem_nil, or_false] at ha hc
    rcases ha with rfl | rfl <;> rcases hc with rfl | rfl <;>
      simp [heap_big_small, store] at hb <;> subst hb <;> simp [E24] at hne ⊢
  · intro a ha b hb
    simp only [List.mem_cons, List.mem_singleton, List.not_mem_nil, or_false] at ha
    rcases ha with rfl | rfl <;> simp [heap_big_small, store] at hb <;> subst hb <;> decide
  · intro a ha b hb
    simp only [List.mem_cons, List.mem_singleton, List.not_mem_nil, or_false] at ha
    rcases ha with rfl | rfl <;> simp [heap_big_small, store] at hb <;> subst hb <;> decide

/-- C13: let a run of calls lead from a state without a Mapped header at `c` (the empty heap,
for one) to a well-formed state (the list from head ends at tail, blocks do not overlap, break
and next mapping are outside every block) in which `c` is a block of the list with status
Mapped and pointer `p`, with `BLOCK_META_SIZE` positive.  Then `os_free(p)` returns;
afterwards `c` is not in the list and its header is released, the other blocks are reachable
from head in the same order, and each of them keeps its size and its status.  And the block
was Mapped all the time: some call of the run that is not an `os_free` created it, at the
address of the next mapping where no Mapped header was before, and returned `p`; after that
call and after every later call of the run the header at `c` has status Mapped. -/
theorem free_mapped_block (E : Env) (fuel : Nat) (s0 : Heap × List Nat) (cs : List Call)
    (st : Heap) (live : List Nat) (ptr c : Nat) (l1 l2 : List Nat) (bc : block_meta)
    (hrun : run E fuel s0 cs = some (st, live)) (h0 : ¬ MappedAt s0.1.hdr c)
    (wf : WF E st (l1 ++ c :: l2)) (hfuel : (l1 ++ c :: l2).length < fuel)
    (hE0 : 0 < E.BLOCK_META_SIZE) (hptr : ptr = c + E.BLOCK_META_SIZE)
    (hbc : st.hdr c = some bc) (hm : bc.status = STATUS_MAPPED) :
    (∃ st1, os_free E fuel st ptr = some st1 ∧ IsList st1.hdr st1.head (l1 ++ l2) ∧
      c ∉ l1 ++ l2 ∧ st1.hdr c = none ∧
      (∀ a ∈ l1 ++ l2, ∃ b0 b1, st.hdr a = some b0 ∧ st1.hdr a = some b1 ∧
        b1.size = b0.size ∧ b1.status = b0.status)) ∧
    (∃ cs1 k cs2 s1 s2, cs = cs1 ++ k :: cs2 ∧ run E fuel s0 cs1 = some s1 ∧
      call E fuel s1 k = some s2 ∧ ¬ MappedAt s1.1.hdr c ∧ s1.1.mmap_next = c ∧
      ptr ∈ s2.2 ∧ (∀ q, k ≠ Call.free q) ∧
      ∀ j, j ≤ cs2.length →
        ∃ s3, run E fuel s2 (cs2.take j) = some s3 ∧ MappedAt s3.1.hdr c) := by
  have hcl : c ∈ l1 ++ c :: l2 := by simp
  have szc := wf.size c hcl bc hbc
  have hp0 : ptr ≠ 0 := by omega
  have hc : wsub ptr E.BLOCK_META_SIZE = c := by
    rw [hptr, wsub_eq _ _ (by omega) (by omega)]
    omega
  obtain ⟨_, _, _, _, _, hc1, hc2, _⟩ := isList_mid wf.list
  have hnot : c ∉ l1 ++ l2 := by
    simp only [List.mem_append, not_or]
    exact ⟨hc1, hc2⟩
  have hwc : wadd bc.size E.BLOCK_META_SIZE = bc.size + E.BLOCK_META_SIZE :=
    wadd_eq _ _ (by omega)
  constructor
  · have hsep : ∀ a ∈ l1 ++ l2, ¬ (c ≤ a ∧ a < c + wadd bc.size E.BLOCK_META_SIZE) := by
      intro a ha
      have ha1 : a ∈ l1 ++ c :: l2 := by
        simp only [List.mem_append, List.mem_cons] at ha ⊢
        tauto
      have := wf.sep c hcl a ha1 bc hbc (fun e => hnot (e ▸ ha))
      rw [hwc]
      omega
    obtain ⟨st1, h1, h2, h3, h4, _⟩ :=
      os_free_mapped_ok E st fuel ptr l1 l2 c bc wf.list hfuel hp0 hc hbc hm hsep
    exact ⟨st1, h1, h2, hnot, h4 c (by rw [hwc]; omega), h3⟩
  · rw [hptr]
    exact mapped_since_creation E fuel hE0 c cs s0 (st, live) hrun ⟨bc, hbc, hm⟩ h0

theorem free_mapped_block_witness :
    (∃ st1, os_free E24 10 heap_big_small 4294967320 = some st1 ∧
      IsList st1.hdr st1.head [4096] ∧ st1.hdr 4294967296 = none ∧
      ∃ b0 b1, heap_big_small.hdr 4096 = some b0 ∧ st1.hdr 4096 = some b1 ∧
        b1.size = b0.size ∧ b1.status = b0.status) ∧
    (∃ cs1 k cs2 s1 s2, [Call.malloc 200000, Call.malloc 8] = cs1 ++ k :: cs2 ∧
      run E24 10 fresh cs1 = some s1 ∧ call E24 10 s1 k = some s2 ∧
      ¬ MappedAt s1.1.hdr 4294967296 ∧ s1.1.mmap_next = 4294967296 ∧
      4294967320 ∈ s2.2 ∧ (∀ q, k ≠ Call.free q) ∧
      ∀ j, j ≤ cs2.length →
        ∃ s3, run E24 10 s2 (cs2.take j) = some s3 ∧ MappedAt s3.1.hdr 4294967296) := by
  obtain ⟨⟨st1, h1, h2, _, h3, h4⟩, htrace⟩ :=
    free_mapped_block E24 10 fresh [Call.malloc 200000, Call.malloc 8] heap_big_small
      [4120, 4294967320] 4294967320 4294967296 [] [4096]
      { size := 200000, status := STATUS_MAPPED, next := 4096 } heap_big_small_run
      (by
        rintro ⟨b, hb, _⟩
        cases hb)
      heap_big_small_wf (by decide) (by decide) (by decide) (by rfl) rfl
  exact ⟨⟨st1, h1, h2, h3, h4 4096 (by simp)⟩, htrace⟩

end OsMem
